import Mathlib

/-!
# Sentiment analyser: the `ResizableArray` container and the scoring functions

A shallow embedding of `src/sentiment/main.cpp`.

* A C++ `int` is a Lean `Int` kept in the 32-bit two's complement range: every
  arithmetic operation of the source is followed by `wrapInt`.
* The heap block behind `T* data` is a function from cell offsets to values
  together with the block length `capacity`; an access outside
  `[0, capacity)` is the fault `wild_access`.
* A C++ exception, an access outside the block and an exhausted loop budget
  are the `error` results of `Except Fault`.
* A finite `double` is the rational number it stands for, and every `double`
  operation rounds its exact result to binary64 (to nearest, ties to even).
* A `std::string` is the list of its characters.
-/

namespace Sentiment

/-! ## Machine integers -/

/-- Largest value of a 32-bit `int`. -/
def INT_MAX : Int := 2147483647

/-- Smallest value of a 32-bit `int`. -/
def INT_MIN : Int := -2147483648

/-- The 32-bit two's complement value that an `int` computation with the
mathematical result `v` leaves in a register. -/
def wrapInt (v : Int) : Int := (v + 2147483648) % 4294967296 - 2147483648

/-- Machine `a + b` on `int`. -/
def iadd (a b : Int) : Int := wrapInt (a + b)

/-- Machine `a - b` on `int`. -/
def isub (a b : Int) : Int := wrapInt (a - b)

/-- Machine `a * b` on `int`. -/
def imul (a b : Int) : Int := wrapInt (a * b)

/-- Machine `a / b` on `int`: the quotient is truncated toward zero. -/
def idiv (a b : Int) : Int := wrapInt (Int.tdiv a b)

/-! ## Faults -/

/-- The ways in which a call can fail to return normally. -/
inductive Fault
  /-- The exception `std::invalid_argument` thrown by the constructor. -/
  | invalid_argument
  /-- The exception `std::out_of_range` thrown by `get`. -/
  | out_of_range
  /-- The exception of `new T[n]` for a length `n` that is not a valid array length. -/
  | bad_alloc
  /-- A read or write outside the allocated block (undefined behaviour). -/
  | wild_access
  /-- The loop budget of the model ran out. -/
  | fuel
  /-- The conversion to `int` of a `double` outside the range of `int`
  (undefined behaviour). -/
  | bad_conversion
  deriving DecidableEq, Repr

/-! ## The container -/

/-- The three private fields of `ResizableArray<T>`: `data` gives the content
of the cell at each offset of the block, `capacity` is the block length and
`size` the number of stored elements. -/
structure ResizableArray (T : Type) where
  data : Int → T
  capacity : Int
  size : Int

namespace ResizableArray

variable {T : Type}

/-- The class invariant: both fields are `int` values, the block is not
empty and the stored elements fit into it. -/
def WF (a : ResizableArray T) : Prop :=
  1 ≤ a.capacity ∧ a.capacity ≤ INT_MAX ∧ 0 ≤ a.size ∧ a.size ≤ a.capacity

/-- The expression `data[i]` used as a value, for a block of `len` cells. -/
def readCell (data : Int → T) (len : Int) (i : Int) : Except Fault T :=
  if 0 ≤ i ∧ i < len then .ok (data i) else .error .wild_access

/-- The assignment `data[i] = v`, for a block of `len` cells. -/
def writeCell (data : Int → T) (len : Int) (i : Int) (v : T) : Except Fault (Int → T) :=
  if 0 ≤ i ∧ i < len then .ok (Function.update data i v) else .error .wild_access

/-- The expression `new T[n]`: a fresh block; a negative length raises the
allocation exception. The content of a fresh cell is fixed to `default`; no
cell is read before it has been written. -/
def newBlock [Inhabited T] (n : Int) : Except Fault (Int → T) :=
  if n < 0 then .error .bad_alloc else .ok (fun _ => default)

/-- A read of `data[i]` in the block of the collection. -/
def read (a : ResizableArray T) (i : Int) : Except Fault T :=
  readCell a.data a.capacity i

/-- A write `data[i] = v` in the block of the collection. -/
def write (a : ResizableArray T) (i : Int) (v : T) : Except Fault (ResizableArray T) :=
  match writeCell a.data a.capacity i v with
  | .error e => .error e
  | .ok d => .ok { a with data := d }

/-- The stored sequence `data[0], ..., data[size - 1]`. -/
def toList (a : ResizableArray T) : List T :=
  (List.range a.size.toNat).map (fun k : Nat => a.data (k : Int))

/-- The method `getSize`. -/
def getSize (a : ResizableArray T) : Int := a.size

/-- The method `get`: the bounds check, then the cell. -/
def get (a : ResizableArray T) (index : Int) : Except Fault T :=
  if index < 0 ∨ index ≥ a.size then .error .out_of_range
  else a.read index

/-- The `while` loop of `binarySearch`, started in the state `low`, `high`
with a budget of `fuel` iterations. -/
def binarySearchLoop [LinearOrder T] (a : ResizableArray T) (element : T) :
    Nat → Int → Int → Except Fault Int
  | fuel, low, high =>
    if low ≤ high then
      match fuel with
      | 0 => .error .fuel
      | fuel + 1 =>
        let mid := idiv (iadd low high) 2
        match a.read mid with
        | .error e => .error e
        | .ok v =>
          if v = element then .ok mid
          else if v < element then binarySearchLoop a element fuel (iadd mid 1) high
          else binarySearchLoop a element fuel low (isub mid 1)
    else .ok (-1)

/-- The method `binarySearch`. The interval `[low, high]` loses at least one
index in every iteration, so `size` iterations are a sufficient budget. -/
def binarySearch [LinearOrder T] (a : ResizableArray T) (element : T) : Except Fault Int :=
  binarySearchLoop a element a.size.toNat 0 (isub a.size 1)

/-- The stored sequence is in ascending order (duplicates allowed). -/
def Sorted [LinearOrder T] (a : ResizableArray T) : Prop :=
  ∀ i j : Int, 0 ≤ i → i < j → j < a.size → a.data i ≤ a.data j

/-- The constructor `ResizableArray(int initialCapacity)`. -/
def construct [Inhabited T] (initialCapacity : Int) : Except Fault (ResizableArray T) :=
  if initialCapacity ≤ 0 then .error .invalid_argument
  else
    match newBlock initialCapacity with
    | .error e => .error e
    | .ok d => .ok { data := d, capacity := initialCapacity, size := 0 }

/-- The copy loop of `resize`, `newData[i] = data[i]` while `i < size`, from
the state `i` with a budget of `fuel` iterations. -/
def resizeLoop (a : ResizableArray T) (newCapacity : Int) :
    Nat → (Int → T) → Int → Except Fault (Int → T)
  | fuel, newData, i =>
    if i < a.size then
      match fuel with
      | 0 => .error .fuel
      | fuel + 1 =>
        match a.read i with
        | .error e => .error e
        | .ok v =>
          match writeCell newData newCapacity i v with
          | .error e => .error e
          | .ok newData => resizeLoop a newCapacity fuel newData (iadd i 1)
    else .ok newData

/-- The private method `resize`. -/
def resize [Inhabited T] (a : ResizableArray T) : Except Fault (ResizableArray T) :=
  let newCapacity := imul a.capacity 2
  match newBlock newCapacity with
  | .error e => .error e
  | .ok newData =>
    match resizeLoop a newCapacity a.size.toNat newData 0 with
    | .error e => .error e
    | .ok newData => .ok { data := newData, capacity := newCapacity, size := a.size }

/-- The method `add`. -/
def add [Inhabited T] (a : ResizableArray T) (element : T) :
    Except Fault (ResizableArray T) :=
  match (if a.size = a.capacity then a.resize else .ok a) with
  | .error e => .error e
  | .ok a =>
    match a.write a.size element with
    | .error e => .error e
    | .ok a => .ok { a with size := iadd a.size 1 }

/-- The inner `while` loop of `insertionSort` from the state `j` with a budget
of `fuel` iterations; the result is the collection and the final `j`. -/
def insertionSortInner [LinearOrder T] (key : T) :
    Nat → ResizableArray T → Int → Except Fault (ResizableArray T × Int)
  | fuel, a, j =>
    if 0 ≤ j then
      match a.read j with
      | .error e => .error e
      | .ok v =>
        if v > key then
          match fuel with
          | 0 => .error .fuel
          | fuel + 1 =>
            match a.write (iadd j 1) v with
            | .error e => .error e
            | .ok a => insertionSortInner key fuel a (isub j 1)
        else .ok (a, j)
    else .ok (a, j)

/-- The outer `for` loop of `insertionSort` from the state `i` with a budget
of `fuel` iterations. -/
def insertionSortLoop [LinearOrder T] :
    Nat → ResizableArray T → Int → Except Fault (ResizableArray T)
  | fuel, a, i =>
    if i < a.size then
      match fuel with
      | 0 => .error .fuel
      | fuel + 1 =>
        match a.read i with
        | .error e => .error e
        | .ok key =>
          match insertionSortInner key i.toNat a (isub i 1) with
          | .error e => .error e
          | .ok (a, j) =>
            match a.write (iadd j 1) key with
            | .error e => .error e
            | .ok a => insertionSortLoop fuel a (iadd i 1)
    else .ok a

/-- The method `insertionSort`. -/
def insertionSort [LinearOrder T] (a : ResizableArray T) : Except Fault (ResizableArray T) :=
  insertionSortLoop a.size.toNat a 1

end ResizableArray

/-- A block of `2^30 + 1` integers holding `0, 1, 2, ...` in ascending order. -/
def bigArray : ResizableArray Int :=
  { data := fun i => i, capacity := 1342177280, size := 1073741825 }

/-- A full block of `10 * 2^27` integers, the capacity reached from the default
capacity `10` after `27` doublings. -/
def fullBigArray : ResizableArray Int :=
  { data := fun i => i, capacity := 1342177280, size := 1342177280 }

/-- A collection of five integers with duplicates: `0, 0, 1, 1, 2`. -/
def smallArray : ResizableArray Int :=
  { data := fun i => i / 2, capacity := 10, size := 5 }

/-- A collection that holds `3, 1, 2` in a block of three cells. -/
def fullArray : ResizableArray Int :=
  { data := fun i => if i = 0 then 3 else if i = 1 then 1 else 2, capacity := 3, size := 3 }


/-! ## Floating point

A finite `double` is the rational number it stands for; `none` stands for a
value that is not a finite number. Every operation rounds its exact result to
binary64, to nearest with ties to the even significand. -/

/-- Machine `-a` on `int`. -/
def ineg (a : Int) : Int := wrapInt (-a)

/-- Rounding of a rational to the nearest integer, a tie going to the even
neighbour. -/
def roundHalfEven (q : ℚ) : Int :=
  if q - ⌊q⌋ < 1 / 2 then ⌊q⌋
  else if 1 / 2 < q - ⌊q⌋ then ⌊q⌋ + 1
  else if ⌊q⌋ % 2 = 0 then ⌊q⌋ else ⌊q⌋ + 1

/-- Exponent of the spacing of the binary64 numbers around `x`: 52 below the
exponent of `x`, and that of the subnormal numbers for a small `x`. -/
def ulpExponent (x : ℚ) : Int := max (Int.log 2 |x|) (-1022) - 52

/-- The multiple of the spacing around `x` nearest to `x`, ties to even. -/
def roundRaw (x : ℚ) : ℚ := (roundHalfEven (x / 2 ^ ulpExponent x) : ℚ) * 2 ^ ulpExponent x

/-- The binary64 result of an operation with the exact result `x`; a result
beyond the largest finite number is not a finite number. -/
def roundDouble (x : ℚ) : Option ℚ :=
  if |roundRaw x| < 2 ^ (1024 : Int) then some (roundRaw x) else none

/-- Conversion of an `int` to `double`. -/
def intToDouble (i : Int) : Option ℚ := roundDouble i

/-- The operator `/` on `double`. -/
def fdiv (x y : Option ℚ) : Option ℚ :=
  match x, y with
  | some a, some b => if b = 0 then none else roundDouble (a / b)
  | _, _ => none

/-- The operator `*` on `double`. -/
def fmul (x y : Option ℚ) : Option ℚ :=
  match x, y with
  | some a, some b => roundDouble (a * b)
  | _, _ => none

/-- The operator `+` on `double`. -/
def fadd (x y : Option ℚ) : Option ℚ :=
  match x, y with
  | some a, some b => roundDouble (a + b)
  | _, _ => none

/-- The library function `round`: to the nearest integer, a tie going away
from zero. -/
def roundHalfAway (q : ℚ) : Int :=
  if 0 ≤ q then ⌊q + 1 / 2⌋ else -⌊-q + 1 / 2⌋

/-! ## Scoring -/

/-- The function `calculateSentimentScore`. -/
def calculateSentimentScore (positiveCount negativeCount : Int) : Option ℚ :=
  let N := iadd positiveCount negativeCount
  if N = 0 then some 3
  else
    let rawScore := isub positiveCount negativeCount
    let minRawScore := ineg N
    let maxRawScore := N
    let normalizedScore :=
      fdiv (intToDouble (isub rawScore minRawScore))
        (intToDouble (isub maxRawScore minRawScore))
    fadd (intToDouble 1) (fmul (intToDouble 4) normalizedScore)

/-- The function `roundSentimentScore`: `round`, then the conversion to `int`,
which is defined only for a value in the range of `int`. -/
def roundSentimentScore (score : Option ℚ) : Option Int :=
  match score with
  | none => none
  | some q =>
    if INT_MIN ≤ roundHalfAway q ∧ roundHalfAway q ≤ INT_MAX then some (roundHalfAway q)
    else none

/-- The label that `generateSentimentAnalysis` derives from the rounded score. -/
def sentimentRating (roundedSentimentScore : Int) : String :=
  if roundedSentimentScore ≥ 4 then "Positive"
  else if roundedSentimentScore ≤ 2 then "Negative"
  else "Neutral"

/-! ## Words and reviews

A `std::string` is the list of its characters; the order of `std::string` is
the lexicographic order of the lists. -/

/-- The library predicate `isspace` in the "C" locale. -/
def isspace (c : Char) : Bool :=
  c = ' ' || c = '\t' || c = '\n' || c = '\x0b' || c = '\x0c' || c = '\r'

/-- The library predicate `isalnum` in the "C" locale. -/
def isalnum (c : Char) : Bool := c.isAlphanum

/-- The library function `tolower` in the "C" locale. -/
def tolower (c : Char) : Char := c.toLower

/-- The extraction `ss >> word` repeated to the end of the text: `cur` is the
word read so far; white space ends a word and is skipped. -/
def tokensAux : List Char → List Char → List (List Char)
  | [], cur => if cur = [] then [] else [cur]
  | c :: cs, cur =>
    if isspace c then
      if cur = [] then tokensAux cs [] else cur :: tokensAux cs []
    else tokensAux cs (cur ++ [c])

/-- The words that `while (ss >> word)` reads from a text, in order. -/
def tokens (text : List Char) : List (List Char) := tokensAux text []

/-- The function `cleanWord`: the loop appends `tolower(c)` for every
alphanumeric character `c` of the word. -/
def cleanWord (word : List Char) : List Char :=
  word.foldl (fun cleaned c => if isalnum c then cleaned ++ [tolower c] else cleaned) []

/-- The four results of `countWordsInReview`, which the source passes by
reference. -/
structure ReviewCounts where
  positiveWordsFound : ResizableArray (List Char)
  negativeWordsFound : ResizableArray (List Char)
  positiveCount : Int
  negativeCount : Int

/-- The `while` loop of `countWordsInReview` over the words still to be read. -/
def countWordsInReviewLoop (positiveWords negativeWords : ResizableArray (List Char)) :
    List (List Char) → ReviewCounts → Except Fault ReviewCounts
  | [], st => .ok st
  | word :: rest, st =>
    let word := cleanWord word
    match positiveWords.binarySearch word with
    | .error e => .error e
    | .ok i =>
      if i ≠ -1 then
        match st.positiveWordsFound.add word with
        | .error e => .error e
        | .ok found =>
          countWordsInReviewLoop positiveWords negativeWords rest
            { st with positiveWordsFound := found, positiveCount := iadd st.positiveCount 1 }
      else
        match negativeWords.binarySearch word with
        | .error e => .error e
        | .ok i =>
          if i ≠ -1 then
            match st.negativeWordsFound.add word with
            | .error e => .error e
            | .ok found =>
              countWordsInReviewLoop positiveWords negativeWords rest
                { st with negativeWordsFound := found, negativeCount := iadd st.negativeCount 1 }
          else countWordsInReviewLoop positiveWords negativeWords rest st

/-- The function `countWordsInReview`: both counts start at `0`. -/
def countWordsInReview (review : List Char)
    (positiveWords negativeWords positiveWordsFound negativeWordsFound :
      ResizableArray (List Char)) : Except Fault ReviewCounts :=
  countWordsInReviewLoop positiveWords negativeWords (tokens review)
    { positiveWordsFound := positiveWordsFound, negativeWordsFound := negativeWordsFound,
      positiveCount := 0, negativeCount := 0 }

/-- The classification in the words of the specification: the cleaned words
that are in the positive lexicon, and those that are not but are in the
negative lexicon, each in the order of the text and with repetitions. -/
def classifySpec (positive negative words : List (List Char)) :
    List (List Char) × List (List Char) :=
  (words.filter (fun w => w ∈ positive),
    words.filter (fun w => w ∉ positive ∧ w ∈ negative))

/-- The positive lexicon `great, nice`. -/
def greatNice : ResizableArray (List Char) :=
  { data := fun i => if i = 0 then "great".data else "nice".data, capacity := 10, size := 2 }

/-- The negative lexicon `bad`. -/
def onlyBad : ResizableArray (List Char) :=
  { data := fun _ => "bad".data, capacity := 10, size := 1 }

/-- An empty collection of words with the default capacity. -/
def noWords : ResizableArray (List Char) :=
  { data := fun _ => default, capacity := 10, size := 0 }

/-- A full block of `10 * 2^27` copies of the word `great`. -/
def fullWords : ResizableArray (List Char) :=
  { data := fun _ => "great".data, capacity := 1342177280, size := 1342177280 }

/-- A sorted lexicon of `2^30 + 1` words: `2^30` times `a`, then `b`. -/
def bigLexicon : ResizableArray (List Char) :=
  { data := fun i => if i < 1073741824 then ['a'] else ['b'],
    capacity := 1342177280, size := 1073741825 }

/-! ## Frequencies and the batch pass -/

/-- The `for` loop of `countOccurrences` from the state `i`, `count`, with a
budget of `fuel` iterations. -/
def countOccurrencesLoop (indices : ResizableArray Int) (index : Int) :
    Nat → Int → Int → Except Fault Int
  | fuel, i, count =>
    if i < indices.getSize then
      match fuel with
      | 0 => .error .fuel
      | fuel + 1 =>
        match indices.get i with
        | .error e => .error e
        | .ok v =>
          countOccurrencesLoop indices index fuel (iadd i 1)
            (if v = index then iadd count 1 else count)
    else .ok count

/-- The function `countOccurrences`. -/
def countOccurrences (indices : ResizableArray Int) (index : Int) : Except Fault Int :=
  countOccurrencesLoop indices index indices.getSize.toNat 0 0

/-- The two collections of match indices that the batch pass fills; the source
passes them by reference. -/
structure BatchCounts where
  posCounts : ResizableArray Int
  negCounts : ResizableArray Int

/-- The `while` loop of `countWordsInReviewBinary` over the words still to be
read: the word is lower-cased, searched in both lexicons, and each index other
than `-1` is recorded. -/
def countWordsInReviewBinaryLoop (positiveWords negativeWords : ResizableArray (List Char)) :
    List (List Char) → BatchCounts → Except Fault BatchCounts
  | [], st => .ok st
  | word :: rest, st =>
    let word := word.map tolower
    match positiveWords.binarySearch word with
    | .error e => .error e
    | .ok posIndex =>
      match negativeWords.binarySearch word with
      | .error e => .error e
      | .ok negIndex =>
        match (if posIndex ≠ -1 then st.posCounts.add posIndex else .ok st.posCounts) with
        | .error e => .error e
        | .ok posCounts =>
          match (if negIndex ≠ -1 then st.negCounts.add negIndex else .ok st.negCounts) with
          | .error e => .error e
          | .ok negCounts =>
            countWordsInReviewBinaryLoop positiveWords negativeWords rest
              { posCounts := posCounts, negCounts := negCounts }

/-- The function `countWordsInReviewBinary`. -/
def countWordsInReviewBinary (review : List Char) (positiveWords : ResizableArray (List Char))
    (posCounts : ResizableArray Int) (negativeWords : ResizableArray (List Char))
    (negCounts : ResizableArray Int) : Except Fault BatchCounts :=
  countWordsInReviewBinaryLoop positiveWords negativeWords (tokens review)
    { posCounts := posCounts, negCounts := negCounts }

/-- The `for` loop of `performSemanticAnalysis` from the state `i` with a
budget of `fuel` iterations. -/
def performSemanticAnalysisLoop (reviews positiveWords negativeWords : ResizableArray (List Char)) :
    Nat → Int → BatchCounts → Except Fault BatchCounts
  | fuel, i, st =>
    if i < reviews.getSize then
      match fuel with
      | 0 => .error .fuel
      | fuel + 1 =>
        match reviews.get i with
        | .error e => .error e
        | .ok review =>
          match countWordsInReviewBinary review positiveWords st.posCounts negativeWords
              st.negCounts with
          | .error e => .error e
          | .ok st => performSemanticAnalysisLoop reviews positiveWords negativeWords fuel
              (iadd i 1) st
    else .ok st

/-- The function `performSemanticAnalysis`; the progress line, the word total
and the start time take no part in the result. -/
def performSemanticAnalysis (reviews positiveWords : ResizableArray (List Char))
    (posCounts : ResizableArray Int) (negativeWords : ResizableArray (List Char))
    (negCounts : ResizableArray Int) : Except Fault BatchCounts :=
  performSemanticAnalysisLoop reviews positiveWords negativeWords reviews.getSize.toNat 0
    { posCounts := posCounts, negCounts := negCounts }

/-- The index that the batch pass records for a lower-cased word, in the words
of the specification: the result of the search unless it is the sentinel. -/
def recordedIndex (lexicon : ResizableArray (List Char)) (w : List Char) : Option Int :=
  match lexicon.binarySearch w with
  | .ok i => if i ≠ -1 then some i else none
  | .error _ => none

/-! ## The report of one review -/

/-- The values that `generateSentimentAnalysis` prints for a valid review
number, in the order of the output; the elapsed time is left out. -/
structure Report where
  reviewNumber : Int
  comment : List Char
  positiveCount : Int
  positiveWords : List (List Char)
  negativeCount : Int
  negativeWords : List (List Char)
  roundedSentimentScore : Int
  sentimentRating : String
  userRating : Int

/-- What `generateSentimentAnalysis` writes: the line "Invalid review number!"
or the report. -/
inductive Output
  | invalid
  | report (r : Report)

/-- The output loop `for (i = 0; i < found.getSize(); i++)` that prints
`found.get(i)`, from the state `i` with a budget of `fuel` iterations. -/
def printWordsLoop (found : ResizableArray (List Char)) :
    Nat → Int → Except Fault (List (List Char))
  | fuel, i =>
    if i < found.getSize then
      match fuel with
      | 0 => .error .fuel
      | fuel + 1 =>
        match found.get i with
        | .error e => .error e
        | .ok w =>
          match printWordsLoop found fuel (iadd i 1) with
          | .error e => .error e
          | .ok ws => .ok (w :: ws)
    else .ok []

/-- The function `generateSentimentAnalysis`. -/
def generateSentimentAnalysis (reviews : ResizableArray (List Char))
    (userRatings : ResizableArray Int) (positiveWords negativeWords : ResizableArray (List Char))
    (reviewNumber : Int) : Except Fault Output :=
  if reviewNumber ≤ 0 ∨ reviewNumber > reviews.getSize then .ok .invalid
  else
    match ResizableArray.construct (T := List Char) 10 with
    | .error e => .error e
    | .ok positiveWordsFound =>
      match ResizableArray.construct (T := List Char) 10 with
      | .error e => .error e
      | .ok negativeWordsFound =>
        match reviews.get (isub reviewNumber 1) with
        | .error e => .error e
        | .ok review =>
          match countWordsInReview review positiveWords negativeWords positiveWordsFound
              negativeWordsFound with
          | .error e => .error e
          | .ok counts =>
            match roundSentimentScore
                (calculateSentimentScore counts.positiveCount counts.negativeCount) with
            | none => .error .bad_conversion
            | some roundedSentimentScore =>
              match printWordsLoop counts.positiveWordsFound
                  counts.positiveWordsFound.getSize.toNat 0 with
              | .error e => .error e
              | .ok positiveLines =>
                match printWordsLoop counts.negativeWordsFound
                    counts.negativeWordsFound.getSize.toNat 0 with
                | .error e => .error e
                | .ok negativeLines =>
                  match userRatings.get (isub reviewNumber 1) with
                  | .error e => .error e
                  | .ok userRating =>
                    .ok (.report
                      { reviewNumber := reviewNumber
                        comment := review
                        positiveCount := counts.positiveCount
                        positiveWords := positiveLines
                        negativeCount := counts.negativeCount
                        negativeWords := negativeLines
                        roundedSentimentScore := roundedSentimentScore
                        sentimentRating := sentimentRating roundedSentimentScore
                        userRating := userRating })

/-- Two reviews: "Great nice" and "BAD great,". -/
def twoReviews : ResizableArray (List Char) :=
  { data := fun i => if i = 0 then "Great nice".data else "BAD great,".data,
    capacity := 10, size := 2 }

/-- The ratings `5` and `2` of the two reviews. -/
def twoRatings : ResizableArray Int :=
  { data := fun i => if i = 0 then 5 else 2, capacity := 10, size := 2 }

/-- An empty collection of indices with the default capacity. -/
def noCounts : ResizableArray Int :=
  { data := fun _ => default, capacity := 10, size := 0 }

/-! ## Machine integers: lemmas -/

theorem wrapInt_eq {v : Int} (h1 : INT_MIN ≤ v) (h2 : v ≤ INT_MAX) : wrapInt v = v := by
  unfold INT_MIN at h1
  unfold INT_MAX at h2
  unfold wrapInt
  omega

theorem iadd_eq {a b : Int} (h1 : INT_MIN ≤ a + b) (h2 : a + b ≤ INT_MAX) : iadd a b = a + b :=
  wrapInt_eq h1 h2

theorem isub_eq {a b : Int} (h1 : INT_MIN ≤ a - b) (h2 : a - b ≤ INT_MAX) : isub a b = a - b :=
  wrapInt_eq h1 h2

theorem idiv_two_eq {a : Int} (h1 : 0 ≤ a) (h2 : a ≤ INT_MAX) : idiv a 2 = a / 2 := by
  unfold idiv
  rw [Int.tdiv_eq_ediv h1 (by norm_num)]
  apply wrapInt_eq
  · unfold INT_MIN; omega
  · unfold INT_MAX at *; omega

namespace ResizableArray

variable {T : Type}

/-! ## `binarySearch` -/

theorem Sorted.le [LinearOrder T] {a : ResizableArray T} (h : a.Sorted) (i j : Int)
    (h0 : 0 ≤ i) (hij : i ≤ j) (hj : j < a.size) : a.data i ≤ a.data j := by
  rcases eq_or_lt_of_le hij with e | e
  · rw [e]
  · exact h i j h0 e hj

theorem get_eq (a : ResizableArray T) (i : Int) (h0 : 0 ≤ i) (h1 : i < a.size)
    (hcap : a.size ≤ a.capacity) : a.get i = .ok (a.data i) := by
  unfold get read readCell
  rw [if_neg (by omega), if_pos ⟨h0, by omega⟩]

/-- The midpoint computed by one iteration when `low + high` fits an `int`. -/
theorem mid_eq {low high : Int} (h0 : 0 ≤ low) (hle : low ≤ high)
    (hsum : low + high ≤ INT_MAX) :
    idiv (iadd low high) 2 = (low + high) / 2 := by
  have e : iadd low high = low + high :=
    iadd_eq (by unfold INT_MIN; omega) hsum
  rw [e]
  exact idiv_two_eq (by omega) hsum

/-- What the loop returns from a state inside the stored range, for a
collection of at most `2^30` elements. -/
theorem binarySearchLoop_spec [LinearOrder T] (a : ResizableArray T) (x : T)
    (hcap : a.size ≤ a.capacity) (hsz : a.size ≤ 1073741824) :
    ∀ (fuel : Nat) (low high : Int), 0 ≤ low → high < a.size → high - low + 1 ≤ fuel →
      ∃ r, binarySearchLoop a x fuel low high = .ok r ∧
        ((r = -1 ∧ (a.Sorted → ∀ i, low ≤ i → i ≤ high → a.data i ≠ x)) ∨
          (low ≤ r ∧ r ≤ high ∧ a.data r = x)) := by
  intro fuel
  induction fuel with
  | zero =>
    intro low high _ _ hf
    have hlt : ¬ low ≤ high := by omega
    refine ⟨-1, ?_, Or.inl ⟨rfl, ?_⟩⟩
    · unfold binarySearchLoop
      simp [hlt]
    · intro _ i h1 h2
      omega
  | succ n ih =>
    intro low high h0 hhi hf
    by_cases hle : low ≤ high
    · have hsum : low + high ≤ INT_MAX := by unfold INT_MAX; omega
      have hmid := mid_eq h0 hle hsum
      have hm1 : low ≤ (low + high) / 2 := by omega
      have hm2 : (low + high) / 2 ≤ high := by omega
      have hread : a.read ((low + high) / 2) = .ok (a.data ((low + high) / 2)) := by
        unfold read readCell
        rw [if_pos ⟨by omega, by omega⟩]
      have hnext : iadd ((low + high) / 2) 1 = (low + high) / 2 + 1 :=
        iadd_eq (by unfold INT_MIN; omega) (by unfold INT_MAX; omega)
      have hprev : isub ((low + high) / 2) 1 = (low + high) / 2 - 1 :=
        isub_eq (by unfold INT_MIN; omega) (by unfold INT_MAX; omega)
      unfold binarySearchLoop
      simp only [if_pos hle, hmid, hread, hnext, hprev]
      by_cases heq : a.data ((low + high) / 2) = x
      · exact ⟨(low + high) / 2, by simp [heq], Or.inr ⟨hm1, hm2, heq⟩⟩
      · by_cases hlt : a.data ((low + high) / 2) < x
        · obtain ⟨r, hr, hpost⟩ := ih ((low + high) / 2 + 1) high (by omega) hhi (by omega)
          refine ⟨r, by simp [heq, hlt, hr], ?_⟩
          rcases hpost with ⟨hr1, hs⟩ | ⟨h1, h2, h3⟩
          · refine Or.inl ⟨hr1, fun hsorted i hi1 hi2 => ?_⟩
            by_cases hi : (low + high) / 2 + 1 ≤ i
            · exact hs hsorted i hi hi2
            · have := Sorted.le hsorted i ((low + high) / 2) (by omega) (by omega) (by omega)
              exact ne_of_lt (lt_of_le_of_lt this hlt)
          · exact Or.inr ⟨by omega, h2, h3⟩
        · obtain ⟨r, hr, hpost⟩ := ih low ((low + high) / 2 - 1) h0 (by omega) (by omega)
          refine ⟨r, by simp [heq, hlt, hr], ?_⟩
          have hgt : x < a.data ((low + high) / 2) :=
            lt_of_le_of_ne (not_lt.mp hlt) (Ne.symm heq)
          rcases hpost with ⟨hr1, hs⟩ | ⟨h1, h2, h3⟩
          · refine Or.inl ⟨hr1, fun hsorted i hi1 hi2 => ?_⟩
            by_cases hi : i ≤ (low + high) / 2 - 1
            · exact hs hsorted i hi1 hi
            · have := Sorted.le hsorted ((low + high) / 2) i (by omega) (by omega) (by omega)
              exact Ne.symm (ne_of_lt (lt_of_lt_of_le hgt this))
          · exact Or.inr ⟨h1, by omega, h3⟩
    · refine ⟨-1, ?_, Or.inl ⟨rfl, ?_⟩⟩
      · unfold binarySearchLoop
        simp [hle]
      · intro _ i h1 h2
        omega

/-- What `binarySearch` returns on a collection of at most `2^30` elements. -/
theorem binarySearch_spec [LinearOrder T] (a : ResizableArray T) (x : T)
    (hwf : a.WF) (hsz : a.size ≤ 1073741824) :
    ∃ r, binarySearch a x = .ok r ∧
      ((r = -1 ∧ (a.Sorted → ∀ i, 0 ≤ i → i < a.size → a.data i ≠ x)) ∨
        (0 ≤ r ∧ r < a.size ∧ a.data r = x)) := by
  obtain ⟨_, _, h0, hcap⟩ := hwf
  have hhigh : isub a.size 1 = a.size - 1 :=
    isub_eq (by unfold INT_MIN; omega) (by unfold INT_MAX; omega)
  obtain ⟨r, hr, hpost⟩ :=
    binarySearchLoop_spec a x hcap hsz a.size.toNat 0 (a.size - 1) le_rfl (by omega) (by omega)
  refine ⟨r, by unfold binarySearch; rw [hhigh]; exact hr, ?_⟩
  rcases hpost with ⟨hr1, hs⟩ | ⟨h1, h2, h3⟩
  · exact Or.inl ⟨hr1, fun hsorted i hi1 hi2 => hs hsorted i hi1 (by omega)⟩
  · exact Or.inr ⟨h1, by omega, h3⟩


/-- C1 (amended): on a sorted collection of at most `2^30` elements,
`binarySearch` of an element that occurs in it returns an index `r` with
`0 ≤ r < getSize()` and `get(r) == x`; in particular it does not return `-1`. -/
theorem C1_binarySearch_finds_present [LinearOrder T] (a : ResizableArray T) (x : T)
    (hwf : a.WF) (hsz : a.size ≤ 1073741824) (hs : a.Sorted)
    (hx : ∃ i, 0 ≤ i ∧ i < a.size ∧ a.data i = x) :
    ∃ r, binarySearch a x = .ok r ∧ 0 ≤ r ∧ r < a.getSize ∧ a.get r = .ok x := by
  obtain ⟨r, hr, hpost⟩ := binarySearch_spec a x hwf hsz
  rcases hpost with ⟨_, habs⟩ | ⟨h1, h2, h3⟩
  · obtain ⟨i, hi0, hi1, hi2⟩ := hx
    exact absurd hi2 (habs hs i hi0 hi1)
  · refine ⟨r, hr, h1, h2, ?_⟩
    rw [get_eq a r h1 h2 hwf.2.2.2, h3]

/-- C1, witness: the search for `1` in `0, 0, 1, 1, 2`. -/
theorem C1_binarySearch_finds_present_witness :
    smallArray.WF ∧ smallArray.size ≤ 1073741824 ∧ smallArray.Sorted ∧
      (∃ i, 0 ≤ i ∧ i < smallArray.size ∧ smallArray.data i = 1) ∧
      ∃ r, binarySearch smallArray 1 = .ok r ∧ 0 ≤ r ∧ r < smallArray.getSize ∧
        smallArray.get r = .ok 1 :=
  have hwf : smallArray.WF := by unfold WF INT_MAX smallArray; decide
  have hsz : smallArray.size ≤ 1073741824 := by unfold smallArray; decide
  have hs : smallArray.Sorted := by
    intro i j _ _ _
    show i / 2 ≤ j / 2
    omega
  have hx : ∃ i, 0 ≤ i ∧ i < smallArray.size ∧ smallArray.data i = 1 :=
    ⟨2, by decide, by unfold smallArray; decide, by unfold smallArray; decide⟩
  ⟨hwf, hsz, hs, hx, C1_binarySearch_finds_present smallArray 1 hwf hsz hs hx⟩

/-- C1 as stated fails: in the sorted collection `0, 1, ..., 2^30` the last
element `2^30` is stored at index `2^30`, and its search computes
`low + high = 2^31`, which wraps to a negative midpoint and reads outside the
block instead of returning an index. -/
theorem C1_counterexample :
    bigArray.WF ∧ bigArray.Sorted ∧
      (0 ≤ (1073741824 : Int) ∧ 1073741824 < bigArray.size ∧
        bigArray.data 1073741824 = 1073741824) ∧
      binarySearch bigArray 1073741824 = .error .wild_access ∧
      ¬ ∃ r, binarySearch bigArray 1073741824 = .ok r ∧ 0 ≤ r ∧ r < bigArray.getSize ∧
        bigArray.get r = .ok 1073741824 := by
  have hrun : binarySearch bigArray 1073741824 = .error .wild_access := by rfl
  refine ⟨by unfold WF INT_MAX bigArray; decide, ?_, ⟨by decide, by unfold bigArray; decide, rfl⟩,
    hrun, ?_⟩
  · intro i j _ hij _
    show i ≤ j
    omega
  · rintro ⟨r, hr, _⟩
    rw [hrun] at hr
    cases hr

/-- C2 (amended): on a sorted collection of at most `2^30` elements, the empty
one included, `binarySearch` of an element that does not occur in it returns
the sentinel `-1`. -/
theorem C2_binarySearch_absent [LinearOrder T] (a : ResizableArray T) (x : T)
    (hwf : a.WF) (hsz : a.size ≤ 1073741824)
    (hx : ∀ i, 0 ≤ i → i < a.size → a.data i ≠ x) :
    binarySearch a x = .ok (-1) := by
  obtain ⟨r, hr, hpost⟩ := binarySearch_spec a x hwf hsz
  rcases hpost with ⟨h1, _⟩ | ⟨h1, h2, h3⟩
  · rw [hr, h1]
  · exact absurd h3 (hx r h1 h2)

/-- C2, witness: the search for `7` in `0, 0, 1, 1, 2`. -/
theorem C2_binarySearch_absent_witness :
    smallArray.WF ∧ smallArray.size ≤ 1073741824 ∧
      (∀ i, 0 ≤ i → i < smallArray.size → smallArray.data i ≠ 7) ∧
      binarySearch smallArray 7 = .ok (-1) :=
  have hwf : smallArray.WF := by unfold WF INT_MAX smallArray; decide
  have hsz : smallArray.size ≤ 1073741824 := by unfold smallArray; decide
  have hx : ∀ i, 0 ≤ i → i < smallArray.size → smallArray.data i ≠ 7 := by
    intro i h0 h1
    have h1 : i < 5 := h1
    show i / 2 ≠ 7
    omega
  ⟨hwf, hsz, hx, C2_binarySearch_absent smallArray 7 hwf hsz hx⟩

/-- C2 as stated fails: `2^30 + 1` does not occur in the sorted collection
`0, 1, ..., 2^30`, and its search reads outside the block instead of returning
`-1`. -/
theorem C2_counterexample :
    bigArray.WF ∧ bigArray.Sorted ∧
      (∀ i, 0 ≤ i → i < bigArray.size → bigArray.data i ≠ 1073741825) ∧
      binarySearch bigArray 1073741825 = .error .wild_access ∧
      binarySearch bigArray 1073741825 ≠ .ok (-1) := by
  have hrun : binarySearch bigArray 1073741825 = .error .wild_access := by rfl
  refine ⟨by unfold WF INT_MAX bigArray; decide, ?_, ?_, hrun, ?_⟩
  · intro i j _ hij _
    show i ≤ j
    omega
  · intro i _ h1
    have h1 : i < 1073741825 := h1
    show i ≠ 1073741825
    omega
  · rw [hrun]
    intro h
    cases h

/-- Two cell assignments that agree on `[0, n)` up to a re-indexing of
`[0, n)` hold the same elements. -/
theorem perm_of_reindex (f g : Int → T) (n : Nat) (σ : Int → Int)
    (hmaps : ∀ k : Int, 0 ≤ k → k < n → 0 ≤ σ k ∧ σ k < n)
    (hinj : ∀ k l : Int, 0 ≤ k → k < n → 0 ≤ l → l < n → σ k = σ l → k = l)
    (hg : ∀ k : Int, 0 ≤ k → k < n → g k = f (σ k)) :
    ((List.range n).map (fun k : Nat => g k)).Perm ((List.range n).map (fun k : Nat => f k)) := by
  have h1 : (List.range n).map (fun k : Nat => g k) =
      ((List.range n).map (fun k : Nat => (σ k).toNat)).map (fun k : Nat => f k) := by
    rw [List.map_map]
    apply List.map_congr_left
    intro k hk
    have hk : k < n := List.mem_range.mp hk
    have hm := hmaps k (by omega) (by omega)
    simp only [Function.comp]
    rw [hg k (by omega) (by omega), Int.toNat_of_nonneg hm.1]
  have hnd : ((List.range n).map (fun k : Nat => (σ k).toNat)).Nodup := by
    apply List.Nodup.map_on _ (List.nodup_range n)
    intro x hx y hy hxy
    have hx : x < n := List.mem_range.mp hx
    have hy : y < n := List.mem_range.mp hy
    have hmx := hmaps x (by omega) (by omega)
    have hmy := hmaps y (by omega) (by omega)
    have : (x : Int) = y := hinj x y (by omega) (by omega) (by omega) (by omega) (by omega)
    omega
  have hsub : (List.range n).map (fun k : Nat => (σ k).toNat) ⊆ List.range n := by
    intro y hy
    obtain ⟨x, hx, rfl⟩ := List.mem_map.mp hy
    have hx : x < n := List.mem_range.mp hx
    have hm := hmaps x (by omega) (by omega)
    exact List.mem_range.mpr (by omega)
  have h2 : ((List.range n).map (fun k : Nat => (σ k).toNat)).Perm (List.range n) :=
    (List.subperm_of_subset hnd hsub).perm_of_length_le (by simp)
  rw [h1]
  exact h2.map _

theorem read_eq (a : ResizableArray T) (i : Int) (h0 : 0 ≤ i) (h1 : i < a.capacity) :
    a.read i = .ok (a.data i) := by
  unfold read readCell
  rw [if_pos ⟨h0, h1⟩]

theorem write_eq (a : ResizableArray T) (i : Int) (v : T) (h0 : 0 ≤ i) (h1 : i < a.capacity) :
    a.write i v = .ok { a with data := Function.update a.data i v } := by
  unfold write writeCell
  rw [if_pos ⟨h0, h1⟩]

/-- The inner loop of `insertionSort`: it stops at some `p` with `-1 ≤ p ≤ j`,
has moved the cells `p + 1, ..., j` one place up and has changed nothing else. -/
theorem insertionSortInner_spec [LinearOrder T] (key : T) :
    ∀ (fuel : Nat) (a : ResizableArray T) (j : Int),
      -1 ≤ j → j + 1 < a.capacity → a.capacity ≤ INT_MAX → j + 1 ≤ fuel →
      ∃ a1 p, insertionSortInner key fuel a j = .ok (a1, p) ∧ -1 ≤ p ∧ p ≤ j ∧
        a1.capacity = a.capacity ∧ a1.size = a.size ∧
        (∀ k, k ≤ p + 1 → a1.data k = a.data k) ∧
        (∀ k, p + 1 < k → k ≤ j + 1 → a1.data k = a.data (k - 1)) ∧
        (∀ k, j + 1 < k → a1.data k = a.data k) ∧
        (∀ k, p < k → k ≤ j → key < a.data k) ∧
        (0 ≤ p → ¬ key < a.data p) := by
  intro fuel
  induction fuel with
  | zero =>
    intro a j hj hcap hmax hf
    have hj1 : j = -1 := by omega
    subst hj1
    refine ⟨a, -1, ?_, le_rfl, le_rfl, rfl, rfl, fun _ _ => rfl, ?_, fun _ _ => rfl, ?_, ?_⟩
    · unfold insertionSortInner
      simp
    · intro k h1 h2; omega
    · intro k h1 h2; omega
    · intro h; omega
  | succ n ih =>
    intro a j hj hcap hmax hf
    by_cases h0 : 0 ≤ j
    · have hr := read_eq a j h0 (by omega)
      by_cases hgt : a.data j > key
      · have hw := write_eq a (j + 1) (a.data j) (by omega) hcap
        have e1 : iadd j 1 = j + 1 :=
          iadd_eq (by unfold INT_MIN; omega) (by unfold INT_MAX at *; omega)
        have e2 : isub j 1 = j - 1 :=
          isub_eq (by unfold INT_MIN; omega) (by unfold INT_MAX at *; omega)
        obtain ⟨a1, p, hrun, hp1, hp2, hc, hs, hA, hB, hC, hD, hE⟩ :=
          ih { a with data := Function.update a.data (j + 1) (a.data j) } (j - 1)
            (by omega) (by simpa using by omega) hmax (by omega)
        dsimp only at hrun hc hs hA hB hC hD hE
        refine ⟨a1, p, ?_, hp1, by omega, hc, hs, ?_, ?_, ?_, ?_, ?_⟩
        · unfold insertionSortInner
          simp only [if_pos h0, hr, if_pos hgt, e1, e2, hw]
          exact hrun
        · intro k hk
          rw [hA k hk]
          exact Function.update_noteq (by omega) _ _
        · intro k hk1 hk2
          by_cases hkj : k ≤ j
          · rw [hB k hk1 (by omega)]
            exact Function.update_noteq (by omega) _ _
          · have hk : k = j + 1 := by omega
            rw [hC k (by omega), hk]
            simp
        · intro k hk
          rw [hC k (by omega)]
          exact Function.update_noteq (by omega) _ _
        · intro k hk1 hk2
          by_cases hkj : k ≤ j - 1
          · have := hD k hk1 hkj
            rwa [Function.update_noteq (by omega)] at this
          · have hk : k = j := by omega
            rw [hk]
            exact hgt
        · intro hp
          have := hE hp
          rwa [Function.update_noteq (by omega)] at this
      · refine ⟨a, j, ?_, hj, le_rfl, rfl, rfl, fun _ _ => rfl, ?_, fun _ _ => rfl, ?_, ?_⟩
        · unfold insertionSortInner
          simp only [if_pos h0, hr, if_neg hgt]
        · intro k h1 h2; omega
        · intro k h1 h2; omega
        · intro _; exact hgt
    · have hj1 : j = -1 := by omega
      subst hj1
      refine ⟨a, -1, ?_, le_rfl, le_rfl, rfl, rfl, fun _ _ => rfl, ?_, fun _ _ => rfl, ?_, ?_⟩
      · unfold insertionSortInner
        simp
      · intro k h1 h2; omega
      · intro k h1 h2; omega
      · intro h; omega


/-- One iteration of the outer loop of `insertionSort`: the inner loop and the
assignment `data[j + 1] = key` succeed, the fields `capacity` and `size` keep
their values, the prefix `[0, i]` is in ascending order afterwards and the
stored elements are the same. -/
theorem insertionSort_step [LinearOrder T] (a : ResizableArray T) (i : Int) (hwf : a.WF)
    (h1 : 1 ≤ i) (hi : i < a.size)
    (hpre : ∀ k l, 0 ≤ k → k < l → l < i → a.data k ≤ a.data l) :
    ∃ a1 p a2, insertionSortInner (a.data i) i.toNat a (isub i 1) = .ok (a1, p) ∧
      a1.write (iadd p 1) (a.data i) = .ok a2 ∧
      a2.capacity = a.capacity ∧ a2.size = a.size ∧
      (∀ k l, 0 ≤ k → k < l → l < i + 1 → a2.data k ≤ a2.data l) ∧
      a2.toList.Perm a.toList := by
  obtain ⟨hc1, hc2, hs0, hsc⟩ := hwf
  have e1 : isub i 1 = i - 1 :=
    isub_eq (by unfold INT_MIN; omega) (by unfold INT_MAX at *; omega)
  obtain ⟨a1, p, hrun, hp1, hp2, hc, hs, hA, hB, hC, hD, hE⟩ :=
    insertionSortInner_spec (a.data i) i.toNat a (i - 1) (by omega) (by omega) hc2 (by omega)
  have e2 : iadd p 1 = p + 1 :=
    iadd_eq (by unfold INT_MIN; omega) (by unfold INT_MAX at *; omega)
  have hw := write_eq a1 (p + 1) (a.data i) (by omega) (by omega)
  have hS : ∀ k l, 0 ≤ k → k ≤ l → l < i → a.data k ≤ a.data l := by
    intro k l hk hkl hl
    rcases eq_or_lt_of_le hkl with e | e
    · rw [e]
    · exact hpre k l hk e hl
  have hval : ∀ k, Function.update a1.data (p + 1) (a.data i) k =
      if k ≤ p then a.data k else if k = p + 1 then a.data i
      else if k ≤ i then a.data (k - 1) else a.data k := by
    intro k
    by_cases hk1 : k ≤ p
    · rw [if_pos hk1, Function.update_noteq (by omega), hA k (by omega)]
    · by_cases hk2 : k = p + 1
      · rw [if_neg hk1, if_pos hk2, hk2, Function.update_same]
      · rw [if_neg hk1, if_neg hk2, Function.update_noteq hk2]
        by_cases hk3 : k ≤ i
        · rw [if_pos hk3, hB k (by omega) (by omega)]
        · rw [if_neg hk3, hC k (by omega)]
  refine ⟨a1, p, { a1 with data := Function.update a1.data (p + 1) (a.data i) }, ?_, ?_, hc, hs,
    ?_, ?_⟩
  · rw [e1]; exact hrun
  · rw [e2]; exact hw
  · intro k l hk hkl hl
    show Function.update a1.data (p + 1) (a.data i) k ≤ Function.update a1.data (p + 1) (a.data i) l
    rw [hval k, hval l]
    by_cases hl1 : l ≤ p
    · rw [if_pos hl1, if_pos (by omega : k ≤ p)]
      exact hS k l hk (by omega) (by omega)
    · rw [if_neg hl1]
      by_cases hl2 : l = p + 1
      · rw [if_pos hl2, if_pos (by omega : k ≤ p)]
        exact le_trans (hS k p hk (by omega) (by omega)) (not_lt.mp (hE (by omega)))
      · rw [if_neg hl2, if_pos (by omega : l ≤ i)]
        by_cases hk1 : k ≤ p
        · rw [if_pos hk1]
          exact hS k (l - 1) hk (by omega) (by omega)
        · rw [if_neg hk1]
          by_cases hk2 : k = p + 1
          · rw [if_pos hk2]
            exact le_of_lt (hD (l - 1) (by omega) (by omega))
          · rw [if_neg hk2, if_pos (by omega : k ≤ i)]
            exact hS (k - 1) (l - 1) (by omega) (by omega) (by omega)
  · unfold toList
    dsimp only
    rw [hs]
    apply perm_of_reindex a.data _ a.size.toNat
      (fun k => if k ≤ p then k else if k = p + 1 then i else if k ≤ i then k - 1 else k)
    · intro k hk0 hk1
      split_ifs <;> omega
    · intro k l hk0 hk1 hl0 hl1 h
      split_ifs at h <;> omega
    · intro k _ _
      rw [hval k]
      split_ifs <;> rfl

/-- The outer loop of `insertionSort` from a state whose prefix `[0, i)` is in
ascending order. -/
theorem insertionSortLoop_spec [LinearOrder T] :
    ∀ (fuel : Nat) (a : ResizableArray T) (i : Int), a.WF → 1 ≤ i → a.size - i ≤ fuel →
      (∀ k l, 0 ≤ k → k < l → l < i → l < a.size → a.data k ≤ a.data l) →
      ∃ a2, insertionSortLoop fuel a i = .ok a2 ∧ a2.capacity = a.capacity ∧
        a2.size = a.size ∧ a2.Sorted ∧ a2.toList.Perm a.toList := by
  intro fuel
  induction fuel with
  | zero =>
    intro a i hwf h1 hf hpre
    refine ⟨a, ?_, rfl, rfl, ?_, List.Perm.refl _⟩
    · unfold insertionSortLoop
      rw [if_neg (by omega)]
    · intro k l hk hkl hl
      exact hpre k l hk hkl (by omega) hl
  | succ n ih =>
    intro a i hwf h1 hf hpre
    by_cases hi : i < a.size
    · obtain ⟨a1, p, a2, hrun, hw, hc, hs, hsorted, hperm⟩ :=
        insertionSort_step a i hwf h1 hi (fun k l hk hkl hl => hpre k l hk hkl hl (by omega))
      have hr := read_eq a i (by omega) (by have := hwf.2.2.2; omega)
      have e1 : iadd i 1 = i + 1 :=
        iadd_eq (by unfold INT_MIN; omega)
          (by have := hwf.2.1; have := hwf.2.2.2; unfold INT_MAX at *; omega)
      have hwf2 : a2.WF := by
        unfold WF at *
        rw [hc, hs]
        exact hwf
      obtain ⟨a3, hrun3, hc3, hs3, hsorted3, hperm3⟩ :=
        ih a2 (i + 1) hwf2 (by omega) (by rw [hs]; omega)
          (fun k l hk hkl hl _ => hsorted k l hk hkl hl)
      refine ⟨a3, ?_, by rw [hc3, hc], by rw [hs3, hs], hsorted3, hperm3.trans hperm⟩
      unfold insertionSortLoop
      simp only [if_pos hi, hr, hrun, hw, e1]
      exact hrun3
    · refine ⟨a, ?_, rfl, rfl, ?_, List.Perm.refl _⟩
      · unfold insertionSortLoop
        rw [if_neg hi]
      · intro k l hk hkl hl
        exact hpre k l hk hkl (by omega) hl

/-- C3: for every collection, `insertionSort` returns; afterwards `getSize()`
(and the capacity) is unchanged, `get(i) <= get(j)` for all
`0 <= i < j < getSize()`, and the stored sequence is a permutation of the
sequence stored before the call. -/
theorem C3_insertionSort_sorts [LinearOrder T] (a : ResizableArray T) (hwf : a.WF) :
    ∃ a2, insertionSort a = .ok a2 ∧ a2.getSize = a.getSize ∧ a2.capacity = a.capacity ∧
      (∀ i j, 0 ≤ i → i < j → j < a2.getSize →
        ∃ u v, a2.get i = .ok u ∧ a2.get j = .ok v ∧ u ≤ v) ∧
      a2.toList.Perm a.toList := by
  obtain ⟨a2, hrun, hc, hs, hsorted, hperm⟩ :=
    insertionSortLoop_spec a.size.toNat a 1 hwf le_rfl (by have := hwf.2.2.1; omega)
      (fun k l hk hkl hl _ => by omega)
  refine ⟨a2, hrun, hs, hc, ?_, hperm⟩
  intro i j hi hij hj
  have hj : j < a2.size := hj
  have hcap : a2.size ≤ a2.capacity := by rw [hc, hs]; exact hwf.2.2.2
  exact ⟨a2.data i, a2.data j, get_eq a2 i hi (by omega) hcap,
    get_eq a2 j (by omega) hj hcap, hsorted i j hi hij hj⟩

/-- C3, witness: sorting the full block `3, 1, 2` gives `1, 2, 3`. -/
theorem C3_insertionSort_sorts_witness :
    fullArray.WF ∧ (insertionSort fullArray).map toList = .ok [1, 2, 3] ∧
      ∃ a2, insertionSort fullArray = .ok a2 ∧ a2.getSize = fullArray.getSize ∧
        a2.capacity = fullArray.capacity ∧
        (∀ i j, 0 ≤ i → i < j → j < a2.getSize →
          ∃ u v, a2.get i = .ok u ∧ a2.get j = .ok v ∧ u ≤ v) ∧
        a2.toList.Perm fullArray.toList :=
  have hwf : fullArray.WF := by unfold WF INT_MAX fullArray; decide
  ⟨hwf, by rfl, C3_insertionSort_sorts fullArray hwf⟩

/-! ## `add` -/

/-- The copy loop of `resize` from the state `i`: it returns a block that
holds `data[k]` at every `k` in `[i, size)` and is unchanged elsewhere. -/
theorem resizeLoop_spec (a : ResizableArray T) (newCapacity : Int)
    (hcap : a.size ≤ a.capacity) (hnew : a.size ≤ newCapacity) (hmax : a.size ≤ INT_MAX) :
    ∀ (fuel : Nat) (newData : Int → T) (i : Int), 0 ≤ i → a.size - i ≤ fuel →
      ∃ d, resizeLoop a newCapacity fuel newData i = .ok d ∧
        (∀ k, i ≤ k → k < a.size → d k = a.data k) ∧
        (∀ k, (k < i ∨ a.size ≤ k) → d k = newData k) := by
  intro fuel
  induction fuel with
  | zero =>
    intro newData i h0 hf
    refine ⟨newData, ?_, ?_, fun _ _ => rfl⟩
    · unfold resizeLoop
      rw [if_neg (by omega)]
    · intro k h1 h2
      omega
  | succ n ih =>
    intro newData i h0 hf
    by_cases hi : i < a.size
    · have hr := read_eq a i h0 (by omega)
      have hw : writeCell newData newCapacity i (a.data i) =
          .ok (Function.update newData i (a.data i)) := by
        unfold writeCell
        rw [if_pos ⟨h0, by omega⟩]
      have e1 : iadd i 1 = i + 1 :=
        iadd_eq (by unfold INT_MIN; omega) (by omega)
      obtain ⟨d, hrun, hA, hB⟩ :=
        ih (Function.update newData i (a.data i)) (i + 1) (by omega) (by omega)
      refine ⟨d, ?_, ?_, ?_⟩
      · unfold resizeLoop
        simp only [if_pos hi, hr, hw, e1]
        exact hrun
      · intro k h1 h2
        by_cases hk : k = i
        · rw [hB k (Or.inl (by omega)), hk, Function.update_same]
        · exact hA k (by omega) h2
      · intro k hk
        rw [hB k (by omega)]
        exact Function.update_noteq (by omega) _ _
    · refine ⟨newData, ?_, ?_, fun _ _ => rfl⟩
      · unfold resizeLoop
        rw [if_neg hi]
      · intro k h1 h2
        omega

/-- The method `resize` on a collection whose capacity can be doubled in
`int`: the capacity is doubled and the stored elements are kept. -/
theorem resize_spec [Inhabited T] (a : ResizableArray T) (hwf : a.WF)
    (hdouble : a.capacity < 1073741824) :
    ∃ a2, a.resize = .ok a2 ∧ a2.capacity = 2 * a.capacity ∧ a2.size = a.size ∧
      ∀ k, 0 ≤ k → k < a.size → a2.data k = a.data k := by
  obtain ⟨hc1, hc2, hs0, hsc⟩ := hwf
  have e1 : imul a.capacity 2 = 2 * a.capacity := by
    unfold imul
    rw [wrapInt_eq (by unfold INT_MIN; omega) (by unfold INT_MAX; omega)]
    omega
  have hb : newBlock (T := T) (2 * a.capacity) = .ok (fun _ => default) := by
    unfold newBlock
    rw [if_neg (by omega)]
  obtain ⟨d, hrun, hA, _⟩ :=
    resizeLoop_spec a (2 * a.capacity) hsc (by omega) (by omega) a.size.toNat
      (fun _ => default) 0 le_rfl (by omega)
  refine ⟨{ data := d, capacity := 2 * a.capacity, size := a.size }, ?_, rfl, rfl, hA⟩
  unfold resize
  simp only [e1, hb, hrun]

/-- The stored sequence after one more cell has been filled. -/
theorem toList_snoc (a a2 : ResizableArray T) (x : T) (hs0 : 0 ≤ a.size)
    (hs : a2.size = a.size + 1) (hold : ∀ k, 0 ≤ k → k < a.size → a2.data k = a.data k)
    (hlast : a2.data a.size = x) : a2.toList = a.toList ++ [x] := by
  unfold toList
  have e : a2.size.toNat = a.size.toNat + 1 := by omega
  rw [e, List.range_succ, List.map_append]
  congr 1
  · apply List.map_congr_left
    intro k hk
    have hk : k < a.size.toNat := List.mem_range.mp hk
    exact hold k (by omega) (by omega)
  · simp only [List.map_cons, List.map_nil]
    rw [Int.toNat_of_nonneg hs0, hlast]

/-- The method `add` on a block that is not full, or is full with a capacity
that can be doubled in `int`. -/
theorem add_spec [Inhabited T] (a : ResizableArray T) (x : T) (hwf : a.WF)
    (hroom : a.size < a.capacity ∨ a.capacity < 1073741824) :
    ∃ a2, a.add x = .ok a2 ∧ a2.getSize = a.getSize + 1 ∧
      (∀ i, 0 ≤ i → i < a.getSize → a2.get i = a.get i) ∧
      a2.get a.getSize = .ok x ∧ a2.toList = a.toList ++ [x] ∧
      a2.capacity = (if a.size = a.capacity then 2 * a.capacity else a.capacity) := by
  have hwf0 := hwf
  obtain ⟨hc1, hc2, hs0, hsc⟩ := hwf
  have key : ∀ a1 : ResizableArray T, a1.size = a.size → a.size < a1.capacity →
      a1.capacity ≤ 2147483647 →
      (∀ k, 0 ≤ k → k < a.size → a1.data k = a.data k) →
      (match a1.write a1.size x with
        | .error e => .error e
        | .ok a => .ok { a with size := iadd a.size 1 }) =
          Except.ok { a1 with data := Function.update a1.data a.size x, size := a.size + 1 } ∧
      (∀ i, 0 ≤ i → i < a.getSize →
        get { a1 with data := Function.update a1.data a.size x, size := a.size + 1 } i
          = a.get i) ∧
      get { a1 with data := Function.update a1.data a.size x, size := a.size + 1 } a.getSize
        = .ok x ∧
      toList { a1 with data := Function.update a1.data a.size x, size := a.size + 1 }
        = a.toList ++ [x] := by
    intro a1 hs1 hcap1 hmax1 hdata
    have hw := write_eq a1 a1.size x (by omega) (by omega)
    have e1 : iadd a1.size 1 = a.size + 1 := by
      rw [hs1]
      exact iadd_eq (by unfold INT_MIN; omega) (by unfold INT_MAX; omega)
    refine ⟨?_, ?_, ?_, ?_⟩
    · rw [hw]
      dsimp only
      rw [e1, hs1]
    · intro i hi0 hi1
      have hi1 : i < a.size := hi1
      rw [get_eq _ i hi0 (by show i < a.size + 1; omega) (by show a.size + 1 ≤ a1.capacity; omega),
        get_eq a i hi0 hi1 hsc]
      show Except.ok (Function.update a1.data a.size x i) = _
      rw [Function.update_noteq (by omega), hdata i hi0 hi1]
    · rw [show a.getSize = a.size from rfl,
        get_eq _ a.size hs0 (by show a.size < a.size + 1; omega)
          (by show a.size + 1 ≤ a1.capacity; omega)]
      show Except.ok (Function.update a1.data a.size x a.size) = _
      rw [Function.update_same]
    · apply toList_snoc a _ x hs0 rfl
      · intro k hk0 hk1
        show Function.update a1.data a.size x k = _
        rw [Function.update_noteq (by omega), hdata k hk0 hk1]
      · show Function.update a1.data a.size x a.size = x
        rw [Function.update_same]
  by_cases hfull : a.size = a.capacity
  · obtain ⟨a1, hres, hc, hs, hdata⟩ := resize_spec a hwf0 (by omega)
    obtain ⟨h1, h2, h3, h4⟩ := key a1 hs (by omega) (by omega) hdata
    refine ⟨{ a1 with data := Function.update a1.data a.size x, size := a.size + 1 },
      ?_, rfl, h2, h3, h4, ?_⟩
    · unfold add
      rw [if_pos hfull, hres]
      exact h1
    · rw [if_pos hfull]
      exact hc
  · obtain ⟨h1, h2, h3, h4⟩ :=
      key a rfl (by omega) (by unfold INT_MAX at hc2; omega) (fun _ _ _ => rfl)
    refine ⟨{ a with data := Function.update a.data a.size x, size := a.size + 1 },
      ?_, rfl, h2, h3, h4, ?_⟩
    · unfold add
      rw [if_neg hfull]
      exact h1
    · rw [if_neg hfull]

/-- C4 (amended): when the block is not full, or it is full and its capacity
is below `2^30` so that the doubling fits an `int`, `add(x)` returns and yields
the contents `e0, ..., e(k-1), x`: `getSize()` grows by one, `get(i)` is
unchanged for every `i < k`, and `get(k) == x`. -/
theorem C4_add_appends [Inhabited T] (a : ResizableArray T) (x : T) (hwf : a.WF)
    (hroom : a.size < a.capacity ∨ a.capacity < 1073741824) :
    ∃ a2, a.add x = .ok a2 ∧ a2.getSize = a.getSize + 1 ∧
      (∀ i, 0 ≤ i → i < a.getSize → a2.get i = a.get i) ∧
      a2.get a.getSize = .ok x ∧ a2.toList = a.toList ++ [x] ∧
      a2.capacity = (if a.size = a.capacity then 2 * a.capacity else a.capacity) :=
  add_spec a x hwf hroom

/-- C4, witness: the block `3, 1, 2` is full, so `add(7)` takes the resize
path and gives `3, 1, 2, 7` in a block of six cells. -/
theorem C4_add_appends_witness :
    fullArray.WF ∧ (fullArray.size < fullArray.capacity ∨ fullArray.capacity < 1073741824) ∧
      (fullArray.add 7).map toList = .ok [3, 1, 2, 7] ∧
      (fullArray.add 7).map ResizableArray.capacity = .ok 6 ∧
      ∃ a2, fullArray.add 7 = .ok a2 ∧ a2.getSize = fullArray.getSize + 1 ∧
        (∀ i, 0 ≤ i → i < fullArray.getSize → a2.get i = fullArray.get i) ∧
        a2.get fullArray.getSize = .ok 7 ∧ a2.toList = fullArray.toList ++ [7] ∧
        a2.capacity =
          (if fullArray.size = fullArray.capacity then 2 * fullArray.capacity
            else fullArray.capacity) :=
  have hwf : fullArray.WF := by unfold WF INT_MAX fullArray; decide
  have hroom : fullArray.size < fullArray.capacity ∨ fullArray.capacity < 1073741824 :=
    Or.inr (by unfold fullArray; decide)
  ⟨hwf, hroom, by rfl, by rfl, C4_add_appends fullArray 7 hwf hroom⟩

/-- C4 as stated fails on the resize path: a full block of `10 * 2^27` cells
cannot be doubled in `int`; `capacity * 2` wraps to a negative length, the
allocation raises its exception and nothing is appended. -/
theorem C4_counterexample :
    fullBigArray.WF ∧ fullBigArray.size = fullBigArray.capacity ∧
      fullBigArray.add 7 = .error .bad_alloc ∧
      ¬ ∃ a2, fullBigArray.add 7 = .ok a2 ∧ a2.getSize = fullBigArray.getSize + 1 := by
  have hrun : fullBigArray.add 7 = .error .bad_alloc := by rfl
  refine ⟨by unfold WF INT_MAX fullBigArray; decide, rfl, hrun, ?_⟩
  rintro ⟨a2, h, _⟩
  rw [hrun] at h
  cases h

/-! ## `get` -/

/-- C5: `get(index)` fails, with the out-of-range error, exactly when
`index < 0` or `index >= getSize()`; otherwise it returns the element stored
at that position. The method is a function of the collection alone and
returns no new state: the collection is unchanged. -/
theorem C5_get_range_check (a : ResizableArray T) (index : Int) (hwf : a.WF) :
    (a.get index = .error .out_of_range ↔ (index < 0 ∨ index ≥ a.getSize)) ∧
      ((∃ e, a.get index = .error e) ↔ (index < 0 ∨ index ≥ a.getSize)) ∧
      (¬ (index < 0 ∨ index ≥ a.getSize) → a.get index = .ok (a.data index)) := by
  have hok : ¬ (index < 0 ∨ index ≥ a.getSize) → a.get index = .ok (a.data index) := by
    intro h
    have h : ¬ (index < 0 ∨ index ≥ a.size) := h
    exact get_eq a index (by omega) (by omega) hwf.2.2.2
  have hbad : (index < 0 ∨ index ≥ a.getSize) → a.get index = .error .out_of_range := by
    intro h
    have h : index < 0 ∨ index ≥ a.size := h
    unfold get
    rw [if_pos h]
  refine ⟨⟨?_, hbad⟩, ⟨?_, fun h => ⟨_, hbad h⟩⟩, hok⟩
  · intro h
    by_contra hn
    rw [hok hn] at h
    cases h
  · rintro ⟨e, h⟩
    by_contra hn
    rw [hok hn] at h
    cases h

/-- C5, witness: `get(5)` on the five elements `0, 0, 1, 1, 2` is out of range
and `get(4)` is the last element. -/
theorem C5_get_range_check_witness :
    smallArray.WF ∧ smallArray.get 5 = .error .out_of_range ∧ smallArray.get 4 = .ok 2 ∧
      ((smallArray.get (-1) = .error .out_of_range ↔ ((-1 : Int) < 0 ∨ (-1 : Int) ≥ smallArray.getSize)) ∧
        ((∃ e, smallArray.get (-1) = .error e) ↔ ((-1 : Int) < 0 ∨ (-1 : Int) ≥ smallArray.getSize)) ∧
        (¬ ((-1 : Int) < 0 ∨ (-1 : Int) ≥ smallArray.getSize) →
          smallArray.get (-1) = .ok (smallArray.data (-1)))) :=
  have hwf : smallArray.WF := by unfold WF INT_MAX smallArray; decide
  ⟨hwf, by rfl, by rfl, C5_get_range_check smallArray (-1) hwf⟩

end ResizableArray

/-! ## Rounding to binary64: lemmas -/

theorem roundHalfEven_intCast (n : Int) : roundHalfEven (n : ℚ) = n := by
  unfold roundHalfEven
  simp

theorem roundHalfEven_cases (a : ℚ) : roundHalfEven a = ⌊a⌋ ∨ roundHalfEven a = ⌊a⌋ + 1 := by
  unfold roundHalfEven
  split_ifs <;> simp

theorem roundHalfEven_le {a : ℚ} {n : Int} (h : a ≤ n) : roundHalfEven a ≤ n := by
  rcases eq_or_lt_of_le h with e | e
  · rw [e, roundHalfEven_intCast]
  · have hf : ⌊a⌋ < n := Int.floor_lt.mpr e
    rcases roundHalfEven_cases a with c | c <;> omega

theorem le_roundHalfEven {a : ℚ} {n : Int} (h : (n : ℚ) ≤ a) : n ≤ roundHalfEven a := by
  have hf : n ≤ ⌊a⌋ := Int.le_floor.mpr h
  rcases roundHalfEven_cases a with c | c <;> omega

theorem roundHalfEven_mono {a b : ℚ} (h : a ≤ b) : roundHalfEven a ≤ roundHalfEven b := by
  have hfl : ⌊a⌋ ≤ ⌊b⌋ := Int.floor_mono h
  rcases eq_or_lt_of_le hfl with e | e
  · unfold roundHalfEven
    rw [← e]
    split_ifs <;> first | omega | (exfalso; linarith)
  · rcases roundHalfEven_cases a with c | c <;> rcases roundHalfEven_cases b with d | d <;> omega

theorem roundHalfEven_err (a : ℚ) : |(roundHalfEven a : ℚ) - a| ≤ 1 / 2 := by
  have h1 := Int.floor_le a
  have h2 := Int.lt_floor_add_one a
  rw [abs_le]
  unfold roundHalfEven
  split_ifs <;> push_cast <;> constructor <;> linarith


theorem ulp_pos (x : ℚ) : (0 : ℚ) < 2 ^ ulpExponent x := zpow_pos (by norm_num) _

/-- The result of the rounding is within half a spacing of its argument. -/
theorem roundRaw_err (x : ℚ) : |roundRaw x - x| ≤ 2 ^ ulpExponent x / 2 := by
  have hq := ulp_pos x
  have h := roundHalfEven_err (x / 2 ^ ulpExponent x)
  have e : roundRaw x - x =
      ((roundHalfEven (x / 2 ^ ulpExponent x) : ℚ) - x / 2 ^ ulpExponent x) *
        2 ^ ulpExponent x := by
    unfold roundRaw
    field_simp
  rw [e, abs_mul, abs_of_pos hq]
  calc |(roundHalfEven (x / 2 ^ ulpExponent x) : ℚ) - x / 2 ^ ulpExponent x| * 2 ^ ulpExponent x
      ≤ 1 / 2 * 2 ^ ulpExponent x := mul_le_mul_of_nonneg_right h hq.le
    _ = 2 ^ ulpExponent x / 2 := by ring

/-- The spacing around a number below `2^z` in absolute value. -/
theorem ulpExponent_le {x : ℚ} {z : Int} (h0 : x ≠ 0) (hx : |x| < 2 ^ z) (hz : -1021 ≤ z) :
    ulpExponent x ≤ z - 53 := by
  unfold ulpExponent
  have hpos : 0 < |x| := abs_pos.mpr h0
  have hlog : Int.log 2 |x| < z := by
    have := (Int.lt_zpow_iff_log_lt (R := ℚ) (b := 2) (by norm_num) hpos (x := z)).mp
      (by simpa using hx)
    exact this
  have : max (Int.log 2 |x|) (-1022) ≤ z - 1 := max_le (by omega) (by omega)
  omega

theorem roundRaw_zero : roundRaw 0 = 0 := by
  unfold roundRaw
  have : roundHalfEven ((0 : ℚ) / 2 ^ ulpExponent 0) = 0 := by
    rw [zero_div]
    exact_mod_cast roundHalfEven_intCast 0
  rw [this]
  simp

/-- The absolute error of the rounding of a number below `2^z`. -/
theorem roundRaw_abs_err {x : ℚ} {z : Int} (hx : |x| < 2 ^ z) (hz : -1021 ≤ z) :
    |roundRaw x - x| ≤ 2 ^ (z - 54) := by
  by_cases h0 : x = 0
  · subst h0
    rw [roundRaw_zero]
    simpa using (zpow_pos (by norm_num : (0 : ℚ) < 2) (z - 54)).le
  · have h1 := roundRaw_err x
    have h2 : (2 : ℚ) ^ ulpExponent x ≤ 2 ^ (z - 53) :=
      zpow_le_zpow_right₀ (by norm_num) (ulpExponent_le h0 hx hz)
    have h3 : (2 : ℚ) ^ (z - 53) = 2 ^ (z - 54) * 2 := by
      rw [show z - 53 = (z - 54) + 1 by ring, zpow_add_one₀ (by norm_num)]
    linarith

/-- A number `m * 2^k` with `|m| < 2^53` and `k` not below the exponent of the
subnormal spacing is a fixed point of the rounding. -/
theorem roundRaw_exact (m k : Int) (hm : |m| < 2 ^ 53) (hk : -1074 ≤ k) :
    roundRaw ((m : ℚ) * 2 ^ k) = (m : ℚ) * 2 ^ k := by
  by_cases hm0 : m = 0
  · subst hm0
    simpa using roundRaw_zero
  have hx0 : (m : ℚ) * 2 ^ k ≠ 0 :=
    mul_ne_zero (by exact_mod_cast hm0) (zpow_pos (by norm_num : (0 : ℚ) < 2) k).ne'
  have hx : |(m : ℚ) * 2 ^ k| < 2 ^ (k + 53) := by
    rw [abs_mul, abs_of_pos (zpow_pos (by norm_num : (0 : ℚ) < 2) k), zpow_add₀ (by norm_num),
      mul_comm]
    apply mul_lt_mul_of_pos_left _ (zpow_pos (by norm_num) k)
    have e : (2 : ℚ) ^ (53 : Int) = 2 ^ 53 := by norm_cast
    rw [e]
    exact_mod_cast hm
  have hu : ulpExponent ((m : ℚ) * 2 ^ k) ≤ k := by
    have := ulpExponent_le hx0 hx (by omega)
    omega
  obtain ⟨j, hj⟩ : ∃ j : Nat, k = ulpExponent ((m : ℚ) * 2 ^ k) + j :=
    ⟨(k - ulpExponent ((m : ℚ) * 2 ^ k)).toNat, by omega⟩
  have hdiv : (m : ℚ) * 2 ^ k / 2 ^ ulpExponent ((m : ℚ) * 2 ^ k) = ((m * 2 ^ j : Int) : ℚ) := by
    have hq := ulp_pos ((m : ℚ) * 2 ^ k)
    rw [div_eq_iff hq.ne']
    push_cast
    conv_lhs => rw [hj]
    rw [zpow_add₀ (by norm_num), zpow_natCast]
    ring
  unfold roundRaw
  rw [hdiv, roundHalfEven_intCast, ← hdiv]
  have hq := ulp_pos ((m : ℚ) * 2 ^ k)
  field_simp

theorem roundRaw_nonneg {x : ℚ} (hx : 0 ≤ x) : 0 ≤ roundRaw x := by
  unfold roundRaw
  have hq := ulp_pos x
  have : (0 : Int) ≤ roundHalfEven (x / 2 ^ ulpExponent x) :=
    le_roundHalfEven (by simpa using div_nonneg hx hq.le)
  have : (0 : ℚ) ≤ (roundHalfEven (x / 2 ^ ulpExponent x) : ℚ) := by exact_mod_cast this
  positivity

/-- The rounding is monotone on the non-negative numbers. -/
theorem roundRaw_mono {x y : ℚ} (hx : 0 ≤ x) (hxy : x ≤ y) : roundRaw x ≤ roundRaw y := by
  rcases eq_or_lt_of_le hx with h0 | hpos
  · subst h0
    rw [roundRaw_zero]
    exact roundRaw_nonneg (le_trans hx hxy)
  · have hypos : 0 < y := lt_of_lt_of_le hpos hxy
    have hlog : Int.log 2 |x| ≤ Int.log 2 |y| := by
      rw [abs_of_pos hpos, abs_of_pos hypos]
      exact Int.log_mono_right hpos hxy
    have hu : ulpExponent x ≤ ulpExponent y := by
      unfold ulpExponent
      have := max_le_max hlog (le_refl (-1022 : Int))
      omega
    have hqx := ulp_pos x
    have hqy := ulp_pos y
    rcases eq_or_lt_of_le hu with e | e
    · unfold roundRaw
      rw [← e]
      have : roundHalfEven (x / 2 ^ ulpExponent x) ≤ roundHalfEven (y / 2 ^ ulpExponent x) :=
        roundHalfEven_mono (div_le_div_of_nonneg_right hxy hqx.le)
      have : (roundHalfEven (x / 2 ^ ulpExponent x) : ℚ) ≤
          roundHalfEven (y / 2 ^ ulpExponent x) := by exact_mod_cast this
      exact mul_le_mul_of_nonneg_right this hqx.le
    · -- `x` lies in a lower binade than `y`
      have hylog : ulpExponent y = Int.log 2 |y| - 52 := by
        unfold ulpExponent at e ⊢
        have h1 := le_max_right (Int.log 2 |x|) (-1022)
        rcases max_cases (Int.log 2 |y|) (-1022) with ⟨h, _⟩ | ⟨h, _⟩
        · rw [h]
        · rw [h] at e; omega
      have hy2 : (2 : ℚ) ^ (ulpExponent y + 52) ≤ y := by
        have := Int.zpow_log_le_self (R := ℚ) (b := 2) (by norm_num) hypos
        rw [hylog, sub_add_cancel, abs_of_pos hypos]
        simpa using this
      have hx2 : x < (2 : ℚ) ^ (ulpExponent x + 53) := by
        have h1 := Int.lt_zpow_succ_log_self (R := ℚ) (b := 2) (by norm_num) x
        have h2 : Int.log 2 x + 1 ≤ ulpExponent x + 53 := by
          unfold ulpExponent
          rw [abs_of_pos hpos]
          have := le_max_left (Int.log 2 x) (-1022)
          omega
        have h3 : (2 : ℚ) ^ (Int.log 2 x + 1) ≤ 2 ^ (ulpExponent x + 53) :=
          zpow_le_zpow_right₀ (by norm_num) h2
        have h1 : x < (2 : ℚ) ^ (Int.log 2 x + 1) := by simpa using h1
        linarith
      have hlow : roundRaw x ≤ 2 ^ (ulpExponent x + 53) := by
        unfold roundRaw
        have hd : x / 2 ^ ulpExponent x ≤ ((2 ^ 53 : Int) : ℚ) := by
          rw [div_le_iff₀ hqx]
          rw [zpow_add₀ (by norm_num)] at hx2
          push_cast
          have : (2 : ℚ) ^ (53 : Int) = 2 ^ 53 := by norm_cast
          rw [this] at hx2
          linarith
        have := roundHalfEven_le hd
        have h4 : (roundHalfEven (x / 2 ^ ulpExponent x) : ℚ) ≤ ((2 ^ 53 : Int) : ℚ) := by
          exact_mod_cast this
        calc (roundHalfEven (x / 2 ^ ulpExponent x) : ℚ) * 2 ^ ulpExponent x
            ≤ ((2 ^ 53 : Int) : ℚ) * 2 ^ ulpExponent x := mul_le_mul_of_nonneg_right h4 hqx.le
          _ = 2 ^ (ulpExponent x + 53) := by
            rw [zpow_add₀ (by norm_num)]
            push_cast
            have : (2 : ℚ) ^ (53 : Int) = 2 ^ 53 := by norm_cast
            rw [this]
            ring
      have hhigh : (2 : ℚ) ^ (ulpExponent y + 52) ≤ roundRaw y := by
        unfold roundRaw
        have hd : ((2 ^ 52 : Int) : ℚ) ≤ y / 2 ^ ulpExponent y := by
          rw [le_div_iff₀ hqy]
          rw [zpow_add₀ (by norm_num)] at hy2
          push_cast
          have : (2 : ℚ) ^ (52 : Int) = 2 ^ 52 := by norm_cast
          rw [this] at hy2
          linarith
        have := le_roundHalfEven hd
        have h4 : ((2 ^ 52 : Int) : ℚ) ≤ (roundHalfEven (y / 2 ^ ulpExponent y) : ℚ) := by
          exact_mod_cast this
        calc (2 : ℚ) ^ (ulpExponent y + 52) = ((2 ^ 52 : Int) : ℚ) * 2 ^ ulpExponent y := by
              rw [zpow_add₀ (by norm_num)]
              push_cast
              have : (2 : ℚ) ^ (52 : Int) = 2 ^ 52 := by norm_cast
              rw [this]
              ring
          _ ≤ (roundHalfEven (y / 2 ^ ulpExponent y) : ℚ) * 2 ^ ulpExponent y :=
            mul_le_mul_of_nonneg_right h4 hqy.le
      have hstep : (2 : ℚ) ^ (ulpExponent x + 53) ≤ 2 ^ (ulpExponent y + 52) :=
        zpow_le_zpow_right₀ (by norm_num) (by omega)
      linarith


theorem roundDouble_exact (m k : Int) (hm : |m| < 2 ^ 53) (hk : -1074 ≤ k)
    (hfin : |(m : ℚ) * 2 ^ k| < 2 ^ (1024 : Int)) :
    roundDouble ((m : ℚ) * 2 ^ k) = some ((m : ℚ) * 2 ^ k) := by
  unfold roundDouble
  rw [roundRaw_exact m k hm hk, if_pos hfin]

theorem intToDouble_eq (i : Int) (h : |i| < 2 ^ 53) : intToDouble i = some (i : ℚ) := by
  have hfin : |(i : ℚ) * 2 ^ (0 : Int)| < 2 ^ (1024 : Int) := by
    have h1 : |(i : ℚ)| < 2 ^ 53 := by exact_mod_cast h
    have h2 : (2 : ℚ) ^ 53 < 2 ^ (1024 : Int) := by norm_num
    simpa using lt_trans h1 h2
  have := roundDouble_exact i 0 h (by norm_num) hfin
  unfold intToDouble
  simpa using this

/-- A rounding between `0` and a fixed point `b` of the rounding is finite and
lies between `0` and `b`. -/
theorem roundDouble_between {x b : ℚ} (hx : 0 ≤ x) (hxb : x ≤ b) (hb : roundRaw b = b)
    (hfin : b < 2 ^ (1024 : Int)) :
    roundDouble x = some (roundRaw x) ∧ 0 ≤ roundRaw x ∧ roundRaw x ≤ b := by
  have h1 := roundRaw_nonneg hx
  have h2 : roundRaw x ≤ b := hb ▸ roundRaw_mono hx hxb
  refine ⟨?_, h1, h2⟩
  unfold roundDouble
  rw [if_pos (by rw [abs_of_nonneg h1]; linarith)]

theorem roundRaw_one : roundRaw 1 = 1 := by
  simpa using roundRaw_exact 1 0 (by norm_num) (by norm_num)

theorem roundRaw_four : roundRaw 4 = 4 := by
  simpa using roundRaw_exact 4 0 (by norm_num) (by norm_num)

theorem roundRaw_five : roundRaw 5 = 5 := by
  simpa using roundRaw_exact 5 0 (by norm_num) (by norm_num)

/-- The three roundings of `1 + 4 * x` for a quotient `x` in `[0, 1]`: each is
finite, and the result lies in `[1, 5]`. -/
theorem score_chain {x : ℚ} (hx0 : 0 ≤ x) (hx1 : x ≤ 1) :
    fadd (some 1) (fmul (some 4) (roundDouble x)) =
        some (roundRaw (1 + roundRaw (4 * roundRaw x))) ∧
      1 ≤ roundRaw (1 + roundRaw (4 * roundRaw x)) ∧
      roundRaw (1 + roundRaw (4 * roundRaw x)) ≤ 5 := by
  obtain ⟨e1, a0, a1⟩ := roundDouble_between hx0 hx1 roundRaw_one (by norm_num)
  obtain ⟨e2, b0, b1⟩ := roundDouble_between (x := 4 * roundRaw x) (b := 4) (by linarith)
    (by linarith) roundRaw_four (by norm_num)
  obtain ⟨e3, c0, c1⟩ := roundDouble_between (x := 1 + roundRaw (4 * roundRaw x)) (b := 5)
    (by linarith) (by linarith) roundRaw_five (by norm_num)
  refine ⟨?_, ?_, c1⟩
  · rw [e1]
    unfold fmul
    dsimp only
    rw [e2]
    unfold fadd
    dsimp only
    rw [e3]
  · have := roundRaw_mono (x := 1) (y := 1 + roundRaw (4 * roundRaw x)) (by norm_num)
      (by linarith)
    rwa [roundRaw_one] at this

/-- The three roundings are monotone in the quotient. -/
theorem score_chain_mono {x y : ℚ} (hx0 : 0 ≤ x) (hxy : x ≤ y) :
    roundRaw (1 + roundRaw (4 * roundRaw x)) ≤ roundRaw (1 + roundRaw (4 * roundRaw y)) := by
  have h1 := roundRaw_mono hx0 hxy
  have a0 := roundRaw_nonneg hx0
  have h2 := roundRaw_mono (x := 4 * roundRaw x) (y := 4 * roundRaw y) (by linarith)
    (by linarith)
  have b0 := roundRaw_nonneg (x := 4 * roundRaw x) (by linarith)
  exact roundRaw_mono (by linarith) (by linarith)

/-- The three roundings move the exact value `1 + 4 * x` by at most
`3 * 2^-51`. -/
theorem score_chain_err {x : ℚ} (hx0 : 0 ≤ x) (hx1 : x ≤ 1) :
    |roundRaw (1 + roundRaw (4 * roundRaw x)) - (1 + 4 * x)| ≤ 3 / 2 ^ 51 := by
  obtain ⟨_, a0, a1⟩ := roundDouble_between hx0 hx1 roundRaw_one (by norm_num)
  obtain ⟨_, b0, b1⟩ := roundDouble_between (x := 4 * roundRaw x) (b := 4) (by linarith)
    (by linarith) roundRaw_four (by norm_num)
  have h1 := roundRaw_abs_err (x := x) (z := 1)
    (by rw [abs_of_nonneg hx0]; norm_num; linarith) (by norm_num)
  have h2 := roundRaw_abs_err (x := 4 * roundRaw x) (z := 3)
    (by rw [abs_of_nonneg (by linarith)]; norm_num; linarith) (by norm_num)
  have h3 := roundRaw_abs_err (x := 1 + roundRaw (4 * roundRaw x)) (z := 3)
    (by rw [abs_of_nonneg (by linarith)]; norm_num; linarith) (by norm_num)
  have p1 : (2 : ℚ) ^ ((1 : Int) - 54) = 1 / 2 ^ 53 := by
    rw [show (1 : Int) - 54 = -53 by norm_num, zpow_neg]; norm_cast; simp
  have p2 : (2 : ℚ) ^ ((3 : Int) - 54) = 1 / 2 ^ 51 := by
    rw [show (3 : Int) - 54 = -51 by norm_num, zpow_neg]; norm_cast; simp
  rw [p1] at h1
  rw [p2] at h2 h3
  rw [abs_le] at h1 h2 h3 ⊢
  constructor <;> linarith [h1.1, h1.2, h2.1, h2.2, h3.1, h3.2]

/-- The score of counts whose doubled total fits an `int`: the quotient is
`p / (p + n)` and the three roundings are finite. -/
theorem calculateSentimentScore_eq (p n : Int) (hp : 0 ≤ p) (hn : 0 ≤ n) (hN : 0 < p + n)
    (hfit : 2 * (p + n) ≤ INT_MAX) :
    calculateSentimentScore p n =
      some (roundRaw (1 + roundRaw (4 * roundRaw ((p : ℚ) / ((p : ℚ) + n))))) := by
  unfold INT_MAX at hfit
  have eN : iadd p n = p + n := iadd_eq (by unfold INT_MIN; omega) (by unfold INT_MAX; omega)
  have eraw : isub p n = p - n := isub_eq (by unfold INT_MIN; omega) (by unfold INT_MAX; omega)
  have emin : ineg (p + n) = -(p + n) := by
    unfold ineg
    exact wrapInt_eq (by unfold INT_MIN; omega) (by unfold INT_MAX; omega)
  have enum : isub (p - n) (-(p + n)) = 2 * p := by
    rw [isub_eq (by unfold INT_MIN; omega) (by unfold INT_MAX; omega)]
    ring
  have eden : isub (p + n) (-(p + n)) = 2 * (p + n) := by
    rw [isub_eq (by unfold INT_MIN; omega) (by unfold INT_MAX; omega)]
    ring
  have c1 : intToDouble (2 * p) = some ((2 * p : Int) : ℚ) :=
    intToDouble_eq _ (by rw [abs_of_nonneg (by omega)]; omega)
  have c2 : intToDouble (2 * (p + n)) = some ((2 * (p + n) : Int) : ℚ) :=
    intToDouble_eq _ (by rw [abs_of_nonneg (by omega)]; omega)
  have c3 : intToDouble 1 = some 1 := by simpa using intToDouble_eq 1 (by norm_num)
  have c4 : intToDouble 4 = some 4 := by simpa using intToDouble_eq 4 (by norm_num)
  have hNq : (0 : ℚ) < (p : ℚ) + n := by exact_mod_cast hN
  have hpq : (0 : ℚ) ≤ (p : ℚ) := by exact_mod_cast hp
  have hnq : (0 : ℚ) ≤ (n : ℚ) := by exact_mod_cast hn
  have hquot : ((2 * p : Int) : ℚ) / ((2 * (p + n) : Int) : ℚ) = (p : ℚ) / ((p : ℚ) + n) := by
    push_cast
    field_simp
    ring
  have hden0 : ((2 * (p + n) : Int) : ℚ) ≠ 0 := by
    push_cast
    positivity
  have hx0 : 0 ≤ (p : ℚ) / ((p : ℚ) + n) := div_nonneg hpq hNq.le
  have hx1 : (p : ℚ) / ((p : ℚ) + n) ≤ 1 := by
    rw [div_le_one hNq]
    linarith
  unfold calculateSentimentScore
  simp only [eN, eraw, emin, enum, eden, c1, c2, c3, c4]
  rw [if_neg (by omega)]
  unfold fdiv
  simp only [if_neg hden0, hquot]
  exact (score_chain hx0 hx1).1


/-- The rounding of a small dyadic number given as a literal. -/
theorem roundDouble_dyadic (x : ℚ) (m k : Int) (hx : x = (m : ℚ) * 2 ^ k) (hm : |m| < 2 ^ 53)
    (hk : -1074 ≤ k) (hfin : |x| < 2 ^ (1024 : Int)) : roundDouble x = some x := by
  subst hx
  exact roundDouble_exact m k hm hk hfin

/-- The score of counts whose sum wraps to nothing special: the operations of
`calculateSentimentScore` on the numerator `num` and the denominator `den`
that the `int` computations leave. -/
theorem calculateSentimentScore_unfold (p n : Int) (hN : iadd p n ≠ 0) :
    calculateSentimentScore p n =
      fadd (intToDouble 1) (fmul (intToDouble 4)
        (fdiv (intToDouble (isub (isub p n) (ineg (iadd p n))))
          (intToDouble (isub (iadd p n) (ineg (iadd p n)))))) := by
  unfold calculateSentimentScore
  simp only [if_neg hN]

/-- C7 (amended): for every count `p >= 0` with `4 * p` not overflowing `int`,
`calculateSentimentScore(p, p)` is exactly `3.0`, the case `p = 0` included. -/
theorem C7_balanced_score_is_three (p : Int) (hp : 0 ≤ p) (hfit : 4 * p ≤ INT_MAX) :
    calculateSentimentScore p p = some 3 := by
  rcases eq_or_lt_of_le hp with h0 | hpos
  · subst h0
    rfl
  · rw [calculateSentimentScore_eq p p hp hp (by omega) (by omega)]
    have hq : (0 : ℚ) < (p : ℚ) := by exact_mod_cast hpos
    have e1 : (p : ℚ) / ((p : ℚ) + p) = ((1 : Int) : ℚ) * 2 ^ (-1 : Int) := by
      field_simp
      ring
    have e2 : (4 : ℚ) * (((1 : Int) : ℚ) * 2 ^ (-1 : Int)) = ((2 : Int) : ℚ) * 2 ^ (0 : Int) := by
      norm_num
    have e3 : (1 : ℚ) + ((2 : Int) : ℚ) * 2 ^ (0 : Int) = ((3 : Int) : ℚ) * 2 ^ (0 : Int) := by
      norm_num
    rw [e1, roundRaw_exact 1 (-1) (by norm_num) (by norm_num), e2,
      roundRaw_exact 2 0 (by norm_num) (by norm_num), e3,
      roundRaw_exact 3 0 (by norm_num) (by norm_num)]
    norm_num

/-- C7, witness: one positive and one negative match. -/
theorem C7_balanced_score_is_three_witness :
    (0 : Int) ≤ 1 ∧ 4 * (1 : Int) ≤ INT_MAX ∧ calculateSentimentScore 1 1 = some 3 :=
  ⟨by decide, by unfold INT_MAX; decide,
    C7_balanced_score_is_three 1 (by decide) (by unfold INT_MAX; decide)⟩

/-- The score of `2^29` positive and `2^29` negative matches: the total `2^30`
fits an `int`, `maxRawScore - minRawScore = 2^31` wraps to `-2^31`, the
quotient is `-0.5` and the score `-1.0`. -/
theorem calculateSentimentScore_wrapped :
    calculateSentimentScore 536870912 536870912 = some (-1) := by
  have eN : iadd 536870912 536870912 = 1073741824 := by decide
  rw [calculateSentimentScore_unfold _ _ (by rw [eN]; decide), eN]
  have e1 : isub (isub 536870912 536870912) (ineg 1073741824) = 1073741824 := by decide
  have e2 : isub 1073741824 (ineg 1073741824) = -2147483648 := by decide
  rw [e1, e2, intToDouble_eq _ (by norm_num), intToDouble_eq _ (by norm_num),
    intToDouble_eq _ (by norm_num), intToDouble_eq _ (by norm_num)]
  unfold fdiv
  simp only
  rw [if_neg (by norm_num)]
  rw [roundDouble_dyadic _ (-1) (-1) (by norm_num) (by norm_num) (by norm_num)
    (by norm_num [abs_of_nonneg])]
  unfold fmul
  simp only
  rw [roundDouble_dyadic _ (-2) 0 (by norm_num) (by norm_num) (by norm_num)
    (by norm_num [abs_of_nonneg])]
  unfold fadd
  simp only
  rw [roundDouble_dyadic _ (-1) 0 (by norm_num) (by norm_num) (by norm_num)
    (by norm_num [abs_of_nonneg])]
  norm_num

/-- C7 as stated fails: for `p = 2^29` the sum `2 * p = 2^30` fits an `int`,
but `maxRawScore - minRawScore = 2^31` wraps to `-2^31`; the quotient is `-0.5`
and the score `-1.0`. -/
theorem C7_counterexample :
    (0 : Int) ≤ 536870912 ∧ 2 * (536870912 : Int) ≤ INT_MAX ∧
      calculateSentimentScore 536870912 536870912 = some (-1) ∧
      calculateSentimentScore 536870912 536870912 ≠ some 3 := by
  refine ⟨by decide, by unfold INT_MAX; decide, calculateSentimentScore_wrapped, ?_⟩
  rw [calculateSentimentScore_wrapped]
  norm_num


/-- The doubled count `2 * p` of a positive `int` wraps to a non-zero `int`. -/
theorem wrapInt_double_ne_zero (p : Int) (hp : 0 < p) (hmax : p ≤ INT_MAX) :
    wrapInt (2 * p) ≠ 0 ∧ |wrapInt (2 * p)| < 2 ^ 53 := by
  unfold INT_MAX at hmax
  unfold wrapInt
  constructor
  · omega
  · rw [abs_lt]
    constructor <;> omega

/-- C8: for every `int` `p > 0`, `calculateSentimentScore(p, 0)` is exactly
`5.0`, and for every `int` `n > 0`, `calculateSentimentScore(0, n)` is exactly
`1.0`. This holds for the large counts as well, where `2 * p` wraps: numerator
and denominator wrap to the same non-zero `int`. -/
theorem C8_one_sided_scores (p n : Int) (hp : 0 < p) (hpmax : p ≤ INT_MAX) (hn : 0 < n)
    (hnmax : n ≤ INT_MAX) :
    calculateSentimentScore p 0 = some 5 ∧ calculateSentimentScore 0 n = some 1 := by
  have r1 : roundDouble 1 = some 1 :=
    roundDouble_dyadic 1 1 0 (by norm_num) (by norm_num) (by norm_num) (by norm_num)
  have r0 : roundDouble 0 = some 0 :=
    roundDouble_dyadic 0 0 0 (by norm_num) (by norm_num) (by norm_num) (by norm_num)
  have r4 : roundDouble (4 * 1) = some 4 := by
    simpa using
      roundDouble_dyadic 4 4 0 (by norm_num) (by norm_num) (by norm_num) (by norm_num)
  have r40 : roundDouble (4 * 0) = some 0 := by simpa using r0
  have r5 : roundDouble (1 + 4) = some 5 := by
    have := roundDouble_dyadic 5 5 0 (by norm_num) (by norm_num) (by norm_num) (by norm_num)
    norm_num
    exact this
  have r10 : roundDouble (1 + 0) = some 1 := by simpa using r1
  have c1 : intToDouble 1 = some 1 := by simpa using intToDouble_eq 1 (by norm_num)
  have c4 : intToDouble 4 = some 4 := by simpa using intToDouble_eq 4 (by norm_num)
  constructor
  · have hmax := hpmax
    unfold INT_MAX at hmax
    have eN : iadd p 0 = p := by
      rw [iadd_eq (by unfold INT_MIN; omega) (by unfold INT_MAX; omega)]; ring
    have eraw : isub p 0 = p := by
      rw [isub_eq (by unfold INT_MIN; omega) (by unfold INT_MAX; omega)]; ring
    have emin : ineg p = -p := by
      unfold ineg
      exact wrapInt_eq (by unfold INT_MIN; omega) (by unfold INT_MAX; omega)
    have ed : isub p (-p) = wrapInt (2 * p) := by
      unfold isub
      rw [show p - -p = 2 * p by ring]
    obtain ⟨hd0, hd1⟩ := wrapInt_double_ne_zero p hp hpmax
    have hdq : ((wrapInt (2 * p) : Int) : ℚ) ≠ 0 := by exact_mod_cast hd0
    rw [calculateSentimentScore_unfold _ _ (by rw [eN]; omega), eN, eraw, emin, ed,
      intToDouble_eq _ hd1, c1, c4]
    unfold fdiv
    simp only [if_neg hdq, div_self hdq, r1]
    unfold fmul
    simp only [r4]
    unfold fadd
    simp only [r5]
  · have hmax := hnmax
    unfold INT_MAX at hmax
    have eN : iadd 0 n = n := by
      rw [iadd_eq (by unfold INT_MIN; omega) (by unfold INT_MAX; omega)]; ring
    have eraw : isub 0 n = -n := by
      rw [isub_eq (by unfold INT_MIN; omega) (by unfold INT_MAX; omega)]; ring
    have emin : ineg n = -n := by
      unfold ineg
      exact wrapInt_eq (by unfold INT_MIN; omega) (by unfold INT_MAX; omega)
    have enum : isub (-n) (-n) = 0 := by
      rw [isub_eq (by unfold INT_MIN; omega) (by unfold INT_MAX; omega)]; ring
    have ed : isub n (-n) = wrapInt (2 * n) := by
      unfold isub
      rw [show n - -n = 2 * n by ring]
    obtain ⟨hd0, hd1⟩ := wrapInt_double_ne_zero n hn hnmax
    have hdq : ((wrapInt (2 * n) : Int) : ℚ) ≠ 0 := by exact_mod_cast hd0
    have c0 : intToDouble 0 = some 0 := by simpa using intToDouble_eq 0 (by norm_num)
    rw [calculateSentimentScore_unfold _ _ (by rw [eN]; omega), eN, eraw, emin, enum, ed,
      intToDouble_eq _ hd1, c0, c1, c4]
    unfold fdiv
    simp only [if_neg hdq, zero_div, r0]
    unfold fmul
    simp only [r40]
    unfold fadd
    simp only [r10]

/-- C8, witness: three positive matches alone, and the largest `int` of
negative matches alone. -/
theorem C8_one_sided_scores_witness :
    (0 : Int) < 3 ∧ (3 : Int) ≤ INT_MAX ∧ (0 : Int) < 2147483647 ∧
      (2147483647 : Int) ≤ INT_MAX ∧
      calculateSentimentScore 3 0 = some 5 ∧ calculateSentimentScore 0 2147483647 = some 1 :=
  ⟨by decide, by unfold INT_MAX; decide, by decide, by unfold INT_MAX; decide,
    C8_one_sided_scores 3 2147483647 (by decide) (by unfold INT_MAX; decide) (by decide)
      (by unfold INT_MAX; decide)⟩


/-- C6 (amended): for non-negative counts whose doubled total `2 * (p + n)`
fits an `int`, the score is a finite number in `[1, 5]`; and for a fixed total
`N = p + n > 0` it is strictly increasing in `raw = p - n`. -/
theorem C6_score_range_monotone (p n p2 n2 : Int) (hp : 0 ≤ p) (hn : 0 ≤ n)
    (hfit : 2 * (p + n) ≤ INT_MAX) (hp2 : 0 ≤ p2) (hn2 : 0 ≤ n2) :
    (∃ s, calculateSentimentScore p n = some s ∧ 1 ≤ s ∧ s ≤ 5) ∧
      (p + n = p2 + n2 → 0 < p + n → p - n < p2 - n2 →
        ∃ s s2, calculateSentimentScore p n = some s ∧
          calculateSentimentScore p2 n2 = some s2 ∧ s < s2) := by
  have hpq : (0 : ℚ) ≤ (p : ℚ) := by exact_mod_cast hp
  have hnq : (0 : ℚ) ≤ (n : ℚ) := by exact_mod_cast hn
  have hrange : ∀ a b : Int, 0 ≤ a → 0 ≤ b → 0 < a + b →
      0 ≤ (a : ℚ) / ((a : ℚ) + b) ∧ (a : ℚ) / ((a : ℚ) + b) ≤ 1 := by
    intro a b ha hb hab
    have haq : (0 : ℚ) ≤ (a : ℚ) := by exact_mod_cast ha
    have hbq : (0 : ℚ) ≤ (b : ℚ) := by exact_mod_cast hb
    have habq : (0 : ℚ) < (a : ℚ) + b := by exact_mod_cast hab
    exact ⟨div_nonneg haq habq.le, by rw [div_le_one habq]; linarith⟩
  constructor
  · rcases eq_or_lt_of_le (add_nonneg hp hn) with h0 | hpos
    · have hp0 : p = 0 := by omega
      have hn0 : n = 0 := by omega
      subst hp0 hn0
      exact ⟨3, rfl, by norm_num, by norm_num⟩
    · obtain ⟨hx0, hx1⟩ := hrange p n hp hn hpos
      exact ⟨_, calculateSentimentScore_eq p n hp hn hpos hfit, (score_chain hx0 hx1).2⟩
  · intro hsum hpos hraw
    have hpos2 : 0 < p2 + n2 := by omega
    obtain ⟨hx0, hx1⟩ := hrange p n hp hn hpos
    obtain ⟨hy0, hy1⟩ := hrange p2 n2 hp2 hn2 hpos2
    refine ⟨_, _, calculateSentimentScore_eq p n hp hn hpos hfit,
      calculateSentimentScore_eq p2 n2 hp2 hn2 hpos2 (by omega), ?_⟩
    have e1 := score_chain_err hx0 hx1
    have e2 := score_chain_err hy0 hy1
    rw [abs_le] at e1 e2
    -- the two quotients differ by at least `1 / N`, and `N < 2^30`
    have hN : ((p : ℚ) + n) = ((p2 : ℚ) + n2) := by exact_mod_cast hsum
    have hNpos : (0 : ℚ) < (p : ℚ) + n := by exact_mod_cast hpos
    have hNle : (p : ℚ) + n ≤ 2 ^ 30 := by
      have : p + n ≤ 2 ^ 30 := by unfold INT_MAX at hfit; omega
      exact_mod_cast this
    have hstep : (p : ℚ) + 1 ≤ p2 := by
      have : p + 1 ≤ p2 := by omega
      exact_mod_cast this
    have hgap : 1 / (2 : ℚ) ^ 30 ≤ (p2 : ℚ) / ((p2 : ℚ) + n2) - (p : ℚ) / ((p : ℚ) + n) := by
      rw [← hN, ← sub_div, div_le_div_iff₀ (by norm_num) hNpos]
      nlinarith
    have hsmall : (6 : ℚ) / 2 ^ 51 < 4 * (1 / 2 ^ 30) := by norm_num
    linarith [e1.2, e2.1]

/-- C6, witness: of three matches, one positive against two positive. -/
theorem C6_score_range_monotone_witness :
    (∃ s, calculateSentimentScore 1 2 = some s ∧ 1 ≤ s ∧ s ≤ 5) ∧
      ∃ s s2, calculateSentimentScore 1 2 = some s ∧ calculateSentimentScore 2 1 = some s2 ∧
        s < s2 :=
  have h := C6_score_range_monotone 1 2 2 1 (by decide) (by decide)
    (by unfold INT_MAX; decide) (by decide) (by decide)
  ⟨h.1, h.2 (by decide) (by decide) (by decide)⟩

/-- C6 as stated fails: for `p = 2^30`, `n = 1` the total `p + n` fits an
`int`, but `rawScore - minRawScore = 2^31` and `maxRawScore - minRawScore =
2^31 + 2` wrap; their quotient exceeds `1` and the score exceeds `5`. -/
theorem C6_counterexample :
    (0 : Int) ≤ 1073741824 ∧ (0 : Int) ≤ 1 ∧ (1073741824 : Int) + 1 ≤ INT_MAX ∧
      ∃ s, calculateSentimentScore 1073741824 1 = some s ∧ 5 < s := by
  refine ⟨by decide, by decide, by unfold INT_MAX; decide, ?_⟩
  have eN : iadd 1073741824 1 = 1073741825 := by decide
  have e1 : isub (isub 1073741824 1) (ineg 1073741825) = -2147483648 := by decide
  have e2 : isub 1073741825 (ineg 1073741825) = -2147483646 := by decide
  have hx : (((-2147483648 : Int) : ℚ)) / (((-2147483646 : Int) : ℚ)) =
      1073741824 / 1073741823 := by norm_num
  -- the dyadic number `1 + 2^-30` lies below the quotient
  have hc : roundRaw (1073741825 / 1073741824) = 1073741825 / 1073741824 := by
    have := roundRaw_exact 1073741825 (-30) (by norm_num) (by norm_num)
    norm_num at this
    exact this
  have h4c : roundRaw (1073741825 / 268435456) = 1073741825 / 268435456 := by
    have := roundRaw_exact 1073741825 (-28) (by norm_num) (by norm_num)
    norm_num at this
    exact this
  have h5c : roundRaw (1342177281 / 268435456) = 1342177281 / 268435456 := by
    have := roundRaw_exact 1342177281 (-28) (by norm_num) (by norm_num)
    norm_num at this
    exact this
  have r2 : roundRaw 2 = 2 := by simpa using roundRaw_exact 2 0 (by norm_num) (by norm_num)
  have r8 : roundRaw 8 = 8 := by simpa using roundRaw_exact 8 0 (by norm_num) (by norm_num)
  have r9 : roundRaw 9 = 9 := by simpa using roundRaw_exact 9 0 (by norm_num) (by norm_num)
  obtain ⟨f1, a0, a1⟩ := roundDouble_between (x := 1073741824 / 1073741823) (b := 2)
    (by norm_num) (by norm_num) r2 (by norm_num)
  have a2 : 1073741825 / 1073741824 ≤ roundRaw (1073741824 / 1073741823) := by
    have := roundRaw_mono (x := 1073741825 / 1073741824) (y := 1073741824 / 1073741823)
      (by norm_num) (by norm_num)
    rwa [hc] at this
  obtain ⟨f2, b0, b1⟩ := roundDouble_between
    (x := 4 * roundRaw (1073741824 / 1073741823)) (b := 8) (by linarith) (by linarith) r8
    (by norm_num)
  have b2 : 1073741825 / 268435456 ≤ roundRaw (4 * roundRaw (1073741824 / 1073741823)) := by
    have := roundRaw_mono (x := 1073741825 / 268435456)
      (y := 4 * roundRaw (1073741824 / 1073741823)) (by norm_num) (by linarith)
    rwa [h4c] at this
  obtain ⟨f3, c0, c1⟩ := roundDouble_between
    (x := 1 + roundRaw (4 * roundRaw (1073741824 / 1073741823))) (b := 9) (by linarith)
    (by linarith) r9 (by norm_num)
  have c2 : 1342177281 / 268435456 ≤
      roundRaw (1 + roundRaw (4 * roundRaw (1073741824 / 1073741823))) := by
    have := roundRaw_mono (x := 1342177281 / 268435456)
      (y := 1 + roundRaw (4 * roundRaw (1073741824 / 1073741823))) (by norm_num)
      (by linarith)
    rwa [h5c] at this
  refine ⟨roundRaw (1 + roundRaw (4 * roundRaw (1073741824 / 1073741823))), ?_, ?_⟩
  · rw [calculateSentimentScore_unfold _ _ (by rw [eN]; decide), eN, e1, e2,
      intToDouble_eq _ (by norm_num), intToDouble_eq _ (by norm_num),
      intToDouble_eq _ (by norm_num), intToDouble_eq _ (by norm_num)]
    unfold fdiv
    simp only
    rw [if_neg (by norm_num), hx, f1]
    unfold fmul
    simp only
    rw [show (((4 : Int) : ℚ)) = 4 by norm_num, f2]
    unfold fadd
    simp only
    rw [show (((1 : Int) : ℚ)) = 1 by norm_num, f3]
  · have : (5 : ℚ) < 1342177281 / 268435456 := by norm_num
    linarith


theorem sentimentRating_positive (r : Int) : sentimentRating r = "Positive" ↔ r ≥ 4 := by
  unfold sentimentRating
  split_ifs <;> simp <;> omega

theorem sentimentRating_negative (r : Int) : sentimentRating r = "Negative" ↔ r ≤ 2 := by
  unfold sentimentRating
  split_ifs <;> simp <;> omega

theorem sentimentRating_neutral (r : Int) : sentimentRating r = "Neutral" ↔ r = 3 := by
  unfold sentimentRating
  split_ifs <;> simp <;> omega

/-- The rounded value of a finite score in `[1, 5]`. -/
theorem roundSentimentScore_eq {s : ℚ} (h1 : 1 ≤ s) (h5 : s ≤ 5) :
    roundSentimentScore (some s) = some ⌊s + 1 / 2⌋ ∧ 1 ≤ ⌊s + 1 / 2⌋ ∧ ⌊s + 1 / 2⌋ ≤ 5 := by
  have e : roundHalfAway s = ⌊s + 1 / 2⌋ := by
    unfold roundHalfAway
    rw [if_pos (by linarith)]
  have l1 : 1 ≤ ⌊s + 1 / 2⌋ := Int.le_floor.mpr (by push_cast; linarith)
  have l5 : ⌊s + 1 / 2⌋ ≤ 5 := by
    have : ⌊s + 1 / 2⌋ < 6 := Int.floor_lt.mpr (by push_cast; linarith)
    omega
  refine ⟨?_, l1, l5⟩
  unfold roundSentimentScore
  simp only [e]
  rw [if_pos ⟨by unfold INT_MIN; omega, by unfold INT_MAX; omega⟩]

theorem score_chain_five_eighths :
    roundRaw (1 + roundRaw (4 * roundRaw (5 / 8))) = 7 / 2 := by
  have e1 : (5 / 8 : ℚ) = ((5 : Int) : ℚ) * 2 ^ (-3 : Int) := by norm_num
  have e2 : (4 : ℚ) * (((5 : Int) : ℚ) * 2 ^ (-3 : Int)) = ((5 : Int) : ℚ) * 2 ^ (-1 : Int) := by
    norm_num
  have e3 : (1 : ℚ) + ((5 : Int) : ℚ) * 2 ^ (-1 : Int) = ((7 : Int) : ℚ) * 2 ^ (-1 : Int) := by
    norm_num
  rw [e1, roundRaw_exact 5 (-3) (by norm_num) (by norm_num), e2,
    roundRaw_exact 5 (-1) (by norm_num) (by norm_num), e3,
    roundRaw_exact 7 (-1) (by norm_num) (by norm_num)]
  norm_num

theorem score_chain_three_eighths :
    roundRaw (1 + roundRaw (4 * roundRaw (3 / 8))) = 5 / 2 := by
  have e1 : (3 / 8 : ℚ) = ((3 : Int) : ℚ) * 2 ^ (-3 : Int) := by norm_num
  have e2 : (4 : ℚ) * (((3 : Int) : ℚ) * 2 ^ (-3 : Int)) = ((3 : Int) : ℚ) * 2 ^ (-1 : Int) := by
    norm_num
  have e3 : (1 : ℚ) + ((3 : Int) : ℚ) * 2 ^ (-1 : Int) = ((5 : Int) : ℚ) * 2 ^ (-1 : Int) := by
    norm_num
  rw [e1, roundRaw_exact 3 (-3) (by norm_num) (by norm_num), e2,
    roundRaw_exact 3 (-1) (by norm_num) (by norm_num), e3,
    roundRaw_exact 5 (-1) (by norm_num) (by norm_num)]
  norm_num

/-- The score of counts with a positive total whose double fits an `int`,
against the two thresholds `3.5` and `2.5` of the rounding. -/
theorem score_thresholds (p n : Int) (hp : 0 ≤ p) (hn : 0 ≤ n) (hpos : 0 < p + n)
    (hfit : 2 * (p + n) ≤ INT_MAX) :
    (7 / 2 ≤ roundRaw (1 + roundRaw (4 * roundRaw ((p : ℚ) / ((p : ℚ) + n)))) ↔
        3 * p ≥ 5 * n) ∧
      (roundRaw (1 + roundRaw (4 * roundRaw ((p : ℚ) / ((p : ℚ) + n)))) < 5 / 2 ↔
        5 * p < 3 * n) := by
  have hpq : (0 : ℚ) ≤ (p : ℚ) := by exact_mod_cast hp
  have hnq : (0 : ℚ) ≤ (n : ℚ) := by exact_mod_cast hn
  have hNq : (0 : ℚ) < (p : ℚ) + n := by exact_mod_cast hpos
  have hNle : (p : ℚ) + n ≤ 2 ^ 30 := by
    have : p + n ≤ 2 ^ 30 := by unfold INT_MAX at hfit; omega
    exact_mod_cast this
  have hx0 : 0 ≤ (p : ℚ) / ((p : ℚ) + n) := div_nonneg hpq hNq.le
  have hx1 : (p : ℚ) / ((p : ℚ) + n) ≤ 1 := by
    rw [div_le_one hNq]
    linarith
  have herr := score_chain_err hx0 hx1
  rw [abs_le] at herr
  have hinv : 1 / (2 : ℚ) ^ 30 ≤ 1 / ((p : ℚ) + n) :=
    one_div_le_one_div_of_le hNq hNle
  have hsmall : (3 : ℚ) / 2 ^ 51 < 1 / 2 * (1 / 2 ^ 30) := by norm_num
  -- below a threshold `c / 8` the quotient stays `1 / (8 N)` away from it
  have hbelow : ∀ c : Int, 8 * p + 1 ≤ c * (p + n) →
      (p : ℚ) / ((p : ℚ) + n) ≤ (c : ℚ) / 8 - 1 / 8 * (1 / ((p : ℚ) + n)) := by
    intro c hc
    have hcq : 8 * (p : ℚ) + 1 ≤ (c : ℚ) * ((p : ℚ) + n) := by exact_mod_cast hc
    rw [div_le_iff₀ hNq]
    have : ((c : ℚ) / 8 - 1 / 8 * (1 / ((p : ℚ) + n))) * ((p : ℚ) + n) =
        ((c : ℚ) * ((p : ℚ) + n) - 1) / 8 := by
      field_simp
      ring
    rw [this]
    linarith
  have habove : ∀ c : Int, c * (p + n) ≤ 8 * p → (c : ℚ) / 8 ≤ (p : ℚ) / ((p : ℚ) + n) := by
    intro c hc
    have hcq : (c : ℚ) * ((p : ℚ) + n) ≤ 8 * (p : ℚ) := by exact_mod_cast hc
    rw [le_div_iff₀ hNq]
    linarith
  constructor
  · constructor
    · intro h
      by_contra hlt
      have hb := hbelow 5 (by omega)
      push_cast at hb
      linarith [herr.2]
    · intro h
      have ha := habove 5 (by omega)
      push_cast at ha
      have := score_chain_mono (x := 5 / 8) (by norm_num) ha
      rwa [score_chain_five_eighths] at this
  · constructor
    · intro h
      by_contra hge
      have ha := habove 3 (by omega)
      push_cast at ha
      have := score_chain_mono (x := 3 / 8) (by norm_num) ha
      rw [score_chain_three_eighths] at this
      linarith
    · intro h
      have hb := hbelow 3 (by omega)
      push_cast at hb
      linarith [herr.2]

/-- C10 (amended): for match counts `p, n >= 0` whose doubled total fits an
`int`, the score is finite, its rounding is an `int` `r`, and the label derived
from `r` is "Positive" exactly when `p + n > 0` and `3 * p >= 5 * n` (that is
`r >= 4`), "Negative" exactly when `5 * p < 3 * n` (that is `r <= 2`), and
"Neutral" otherwise. -/
theorem C10_rating_from_counts (p n : Int) (hp : 0 ≤ p) (hn : 0 ≤ n)
    (hfit : 2 * (p + n) ≤ INT_MAX) :
    ∃ s r, calculateSentimentScore p n = some s ∧ roundSentimentScore (some s) = some r ∧
      (r ≥ 4 ↔ (p + n > 0 ∧ 3 * p ≥ 5 * n)) ∧ (r ≤ 2 ↔ 5 * p < 3 * n) ∧
      (sentimentRating r = "Positive" ↔ (p + n > 0 ∧ 3 * p ≥ 5 * n)) ∧
      (sentimentRating r = "Negative" ↔ 5 * p < 3 * n) ∧
      (sentimentRating r = "Neutral" ↔ (¬ (p + n > 0 ∧ 3 * p ≥ 5 * n) ∧ ¬ 5 * p < 3 * n)) := by
  have hfinal : ∀ (s : ℚ) (r : Int), calculateSentimentScore p n = some s →
      roundSentimentScore (some s) = some r →
      (r ≥ 4 ↔ (p + n > 0 ∧ 3 * p ≥ 5 * n)) → (r ≤ 2 ↔ 5 * p < 3 * n) →
      ∃ s r, calculateSentimentScore p n = some s ∧ roundSentimentScore (some s) = some r ∧
        (r ≥ 4 ↔ (p + n > 0 ∧ 3 * p ≥ 5 * n)) ∧ (r ≤ 2 ↔ 5 * p < 3 * n) ∧
        (sentimentRating r = "Positive" ↔ (p + n > 0 ∧ 3 * p ≥ 5 * n)) ∧
        (sentimentRating r = "Negative" ↔ 5 * p < 3 * n) ∧
        (sentimentRating r = "Neutral" ↔
          (¬ (p + n > 0 ∧ 3 * p ≥ 5 * n) ∧ ¬ 5 * p < 3 * n)) := by
    intro s r hs hr h4 h2
    refine ⟨s, r, hs, hr, h4, h2, (sentimentRating_positive r).trans h4,
      (sentimentRating_negative r).trans h2, ?_⟩
    rw [sentimentRating_neutral, ← h4, ← h2]
    omega
  rcases eq_or_lt_of_le (add_nonneg hp hn) with h0 | hpos
  · have hp0 : p = 0 := by omega
    have hn0 : n = 0 := by omega
    subst hp0 hn0
    obtain ⟨hr, _, _⟩ := roundSentimentScore_eq (s := 3) (by norm_num) (by norm_num)
    have hfl : ⌊(3 : ℚ) + 1 / 2⌋ = 3 := by
      rw [Int.floor_eq_iff]
      norm_num
    rw [hfl] at hr
    exact hfinal 3 3 rfl hr (by omega) (by omega)
  · have hs := calculateSentimentScore_eq p n hp hn hpos hfit
    have hpq : (0 : ℚ) ≤ (p : ℚ) := by exact_mod_cast hp
    have hnq : (0 : ℚ) ≤ (n : ℚ) := by exact_mod_cast hn
    have hNq : (0 : ℚ) < (p : ℚ) + n := by exact_mod_cast hpos
    have hx0 : 0 ≤ (p : ℚ) / ((p : ℚ) + n) := div_nonneg hpq hNq.le
    have hx1 : (p : ℚ) / ((p : ℚ) + n) ≤ 1 := by
      rw [div_le_one hNq]
      linarith
    obtain ⟨_, s1, s5⟩ := score_chain hx0 hx1
    obtain ⟨hr, _, _⟩ := roundSentimentScore_eq s1 s5
    obtain ⟨t4, t2⟩ := score_thresholds p n hp hn hpos hfit
    refine hfinal _ _ hs hr ?_ ?_
    · rw [ge_iff_le, Int.le_floor]
      push_cast
      constructor
      · intro h
        exact ⟨hpos, t4.mp (by linarith)⟩
      · intro h
        have := t4.mpr h.2
        linarith
    · rw [show (⌊roundRaw (1 + roundRaw (4 * roundRaw ((p : ℚ) / ((p : ℚ) + n)))) + 1 / 2⌋ ≤ 2
          ↔ ⌊roundRaw (1 + roundRaw (4 * roundRaw ((p : ℚ) / ((p : ℚ) + n)))) + 1 / 2⌋ < 3)
          from by omega, Int.floor_lt]
      push_cast
      constructor
      · intro h
        exact t2.mp (by linarith)
      · intro h
        have := t2.mpr h
        linarith

/-- C10, witness: two positive matches and one negative give a score within
`3 * 2^-51` of `11/3`, rounded to `4` and labelled "Positive"; no match at all
gives the score `3.0`, rounded to `3` and labelled "Neutral". -/
theorem C10_rating_from_counts_witness :
    (∃ s r, calculateSentimentScore 2 1 = some s ∧ roundSentimentScore (some s) = some r ∧
        |s - 11 / 3| ≤ 3 / 2 ^ 51 ∧ r = 4 ∧ sentimentRating r = "Positive") ∧
      (∃ r, calculateSentimentScore 0 0 = some 3 ∧ roundSentimentScore (some 3) = some r ∧
        r = 3 ∧ sentimentRating r = "Neutral") := by
  constructor
  · obtain ⟨s, r, hs, hr, h4, _, hpos, _, _⟩ :=
      C10_rating_from_counts 2 1 (by decide) (by decide) (by unfold INT_MAX; decide)
    have hs2 := calculateSentimentScore_eq 2 1 (by decide) (by decide) (by decide)
      (by unfold INT_MAX; decide)
    have herr := score_chain_err (x := ((2 : Int) : ℚ) / (((2 : Int) : ℚ) + (1 : Int)))
      (by norm_num) (by norm_num)
    rw [hs] at hs2
    have hs3 := Option.some.inj hs2
    rw [← hs3] at herr
    have herr2 : |s - 11 / 3| ≤ 3 / 2 ^ 51 := by
      have e : (1 : ℚ) + 4 * (((2 : Int) : ℚ) / (((2 : Int) : ℚ) + (1 : Int))) = 11 / 3 := by
        norm_num
      rwa [e] at herr
    have hge : r ≥ 4 := h4.mpr ⟨by decide, by decide⟩
    have hle : r ≤ 4 := by
      rw [abs_le] at herr2
      obtain ⟨hr2, _, _⟩ := roundSentimentScore_eq (s := s) (by linarith [herr2.1])
        (by linarith [herr2.2])
      rw [hr] at hr2
      have hr3 := Option.some.inj hr2
      have : ⌊s + 1 / 2⌋ < 5 := Int.floor_lt.mpr (by push_cast; linarith [herr2.2])
      omega
    exact ⟨s, r, hs, hr, herr2, by omega, hpos.mpr ⟨by decide, by decide⟩⟩
  · obtain ⟨s, r, hs, hr, h4, h2, _, _, hneu⟩ :=
      C10_rating_from_counts 0 0 (by decide) (by decide) (by unfold INT_MAX; decide)
    have hs3 : (3 : ℚ) = s := Option.some.inj hs
    subst hs3
    have hlab := hneu.mpr ⟨by decide, by decide⟩
    exact ⟨r, rfl, hr, (sentimentRating_neutral r).mp hlab, hlab⟩

/-- C10 as stated fails: `2^29` positive and `2^29` negative matches are
balanced, so the label of the claim is "Neutral"; the wrapped denominator
gives the score `-1.0`, rounded to `-1` and labelled "Negative". -/
theorem C10_counterexample :
    (0 : Int) ≤ 536870912 ∧ ¬ (5 * (536870912 : Int) < 3 * 536870912) ∧
      calculateSentimentScore 536870912 536870912 = some (-1) ∧
      roundSentimentScore (some (-1)) = some (-1) ∧ sentimentRating (-1) = "Negative" ∧
      sentimentRating (-1) ≠ "Neutral" := by
  have hround : roundSentimentScore (some (-1)) = some (-1) := by
    have e : roundHalfAway (-1) = -1 := by
      unfold roundHalfAway
      rw [if_neg (by norm_num)]
      have : ⌊-(-1 : ℚ) + 1 / 2⌋ = 1 := by
        rw [Int.floor_eq_iff]
        norm_num
      rw [this]
    unfold roundSentimentScore
    simp only [e]
    rw [if_pos ⟨by unfold INT_MIN; decide, by unfold INT_MAX; decide⟩]
  refine ⟨by decide, by decide, calculateSentimentScore_wrapped, hround, by decide, by decide⟩


/-! ## `countWordsInReview` -/

namespace ResizableArray

variable {T : Type}

theorem mem_toList (a : ResizableArray T) (x : T) :
    x ∈ a.toList ↔ ∃ i : Int, 0 ≤ i ∧ i < a.size ∧ a.data i = x := by
  unfold toList
  rw [List.mem_map]
  constructor
  · rintro ⟨k, hk, rfl⟩
    have hk : k < a.size.toNat := List.mem_range.mp hk
    exact ⟨k, by omega, by omega, rfl⟩
  · rintro ⟨i, h0, h1, rfl⟩
    refine ⟨i.toNat, List.mem_range.mpr (by omega), ?_⟩
    rw [Int.toNat_of_nonneg h0]

theorem length_toList (a : ResizableArray T) : a.toList.length = a.size.toNat := by
  unfold toList
  simp

/-- On a sorted collection of at most `2^30` elements `binarySearch` returns
an index other than `-1` exactly for the elements of the collection. -/
theorem binarySearch_mem [LinearOrder T] (a : ResizableArray T) (x : T) (hwf : a.WF)
    (hsz : a.size ≤ 1073741824) (hs : a.Sorted) :
    ∃ r, binarySearch a x = .ok r ∧ (r ≠ -1 ↔ x ∈ a.toList) := by
  obtain ⟨r, hr, hpost⟩ := binarySearch_spec a x hwf hsz
  refine ⟨r, hr, ?_⟩
  rw [mem_toList]
  rcases hpost with ⟨h1, habs⟩ | ⟨h1, h2, h3⟩
  · constructor
    · intro h
      exact absurd h1 h
    · rintro ⟨i, h0, hi, hx⟩
      exact absurd hx (habs hs i h0 hi)
  · constructor
    · intro _
      exact ⟨r, h1, h2, h3⟩
    · intro _
      omega

/-- The method `add` keeps the class invariant. -/
theorem add_wf [Inhabited T] (a a2 : ResizableArray T) (x : T) (hwf : a.WF)
    (hroom : a.size < a.capacity ∨ a.capacity < 1073741824) (h : a.add x = .ok a2) :
    a2.WF ∧ a2.size = a.size + 1 ∧ a2.toList = a.toList ++ [x] := by
  obtain ⟨a3, h3, hs, _, _, hl, hc⟩ := add_spec a x hwf hroom
  rw [h] at h3
  have e : a2 = a3 := Except.ok.inj h3
  subst e
  have hs : a2.size = a.size + 1 := hs
  refine ⟨?_, hs, hl⟩
  obtain ⟨hc1, hc2, hs0, hsc⟩ := hwf
  unfold WF INT_MAX at *
  rw [hc, hs]
  split_ifs with hfull <;> refine ⟨?_, ?_, ?_, ?_⟩ <;> omega

end ResizableArray

theorem classifySpec_cons_positive (P N : List (List Char)) (w : List Char)
    (ws : List (List Char)) (h : w ∈ P) :
    classifySpec P N (w :: ws) = (w :: (classifySpec P N ws).1, (classifySpec P N ws).2) := by
  simp [classifySpec, h]

theorem classifySpec_cons_negative (P N : List (List Char)) (w : List Char)
    (ws : List (List Char)) (h1 : w ∉ P) (h2 : w ∈ N) :
    classifySpec P N (w :: ws) = ((classifySpec P N ws).1, w :: (classifySpec P N ws).2) := by
  simp [classifySpec, h1, h2]

theorem classifySpec_cons_neither (P N : List (List Char)) (w : List Char)
    (ws : List (List Char)) (h1 : w ∉ P) (h2 : w ∉ N) :
    classifySpec P N (w :: ws) = classifySpec P N ws := by
  simp [classifySpec, h1, h2]

open ResizableArray in
/-- The loop of `countWordsInReview` over sorted lexicons of at most `2^30`
words, when the found lists and the counts stay within `2^30` with the words
that remain: each cleaned word goes to the positive list if the positive
lexicon has it, else to the negative list if the negative lexicon has it. -/
theorem countWordsInReviewLoop_spec (pos neg : ResizableArray (List Char))
    (hpw : pos.WF) (hps : pos.size ≤ 1073741824) (hpo : pos.Sorted)
    (hnw : neg.WF) (hns : neg.size ≤ 1073741824) (hno : neg.Sorted) :
    ∀ (words : List (List Char)) (st : ReviewCounts),
      st.positiveWordsFound.WF → st.negativeWordsFound.WF →
      st.positiveWordsFound.size +
        (classifySpec pos.toList neg.toList (words.map cleanWord)).1.length ≤ 1073741824 →
      st.negativeWordsFound.size +
        (classifySpec pos.toList neg.toList (words.map cleanWord)).2.length ≤ 1073741824 →
      0 ≤ st.positiveCount →
      st.positiveCount +
        (classifySpec pos.toList neg.toList (words.map cleanWord)).1.length ≤ 1073741824 →
      0 ≤ st.negativeCount →
      st.negativeCount +
        (classifySpec pos.toList neg.toList (words.map cleanWord)).2.length ≤ 1073741824 →
      ∃ r, countWordsInReviewLoop pos neg words st = .ok r ∧
        r.positiveWordsFound.toList = st.positiveWordsFound.toList ++
          (classifySpec pos.toList neg.toList (words.map cleanWord)).1 ∧
        r.negativeWordsFound.toList = st.negativeWordsFound.toList ++
          (classifySpec pos.toList neg.toList (words.map cleanWord)).2 ∧
        r.positiveCount = st.positiveCount +
          (classifySpec pos.toList neg.toList (words.map cleanWord)).1.length ∧
        r.negativeCount = st.negativeCount +
          (classifySpec pos.toList neg.toList (words.map cleanWord)).2.length := by
  intro words
  induction words with
  | nil =>
    intro st _ _ _ _ _ _ _ _
    exact ⟨st, rfl, by simp [classifySpec], by simp [classifySpec], by simp [classifySpec],
      by simp [classifySpec]⟩
  | cons word rest ih =>
    intro st hpf hnf hpfs hnfs hpc0 hpc hnc0 hnc
    rw [List.map_cons] at hpfs hnfs hpc hnc ⊢
    obtain ⟨i, hi, himem⟩ := binarySearch_mem pos (cleanWord word) hpw hps hpo
    by_cases hin : cleanWord word ∈ pos.toList
    · have hi1 : i ≠ -1 := himem.mpr hin
      rw [classifySpec_cons_positive _ _ _ _ hin] at hpfs hnfs hpc hnc ⊢
      dsimp only at hpfs hnfs hpc hnc ⊢
      rw [List.length_cons] at hpfs hpc ⊢
      push_cast at hpfs hpc ⊢
      have hroom : st.positiveWordsFound.size < st.positiveWordsFound.capacity ∨
          st.positiveWordsFound.capacity < 1073741824 := by
        have := hpf.2.2.2
        omega
      obtain ⟨found, hadd, _⟩ := add_spec st.positiveWordsFound (cleanWord word) hpf hroom
      obtain ⟨hfw, hfs, hfl⟩ := add_wf _ _ _ hpf hroom hadd
      have e1 : iadd st.positiveCount 1 = st.positiveCount + 1 :=
        iadd_eq (by unfold INT_MIN; omega) (by unfold INT_MAX; omega)
      obtain ⟨r, hr, h1, h2, h3, h4⟩ :=
        ih { st with positiveWordsFound := found, positiveCount := st.positiveCount + 1 }
          hfw hnf (by dsimp only; omega) (by dsimp only; omega) (by dsimp only; omega)
          (by dsimp only; omega) hnc0 (by dsimp only; omega)
      dsimp only at h1 h2 h3 h4
      refine ⟨r, ?_, ?_, h2, ?_, h4⟩
      · unfold countWordsInReviewLoop
        simp only [hi, if_pos hi1, hadd, e1]
        exact hr
      · rw [h1, hfl, List.append_assoc, List.singleton_append]
      · rw [h3]
        ring
    · have hi1 : ¬ i ≠ -1 := fun h => hin (himem.mp h)
      obtain ⟨j, hj, hjmem⟩ := binarySearch_mem neg (cleanWord word) hnw hns hno
      by_cases hin2 : cleanWord word ∈ neg.toList
      · have hj1 : j ≠ -1 := hjmem.mpr hin2
        rw [classifySpec_cons_negative _ _ _ _ hin hin2] at hpfs hnfs hpc hnc ⊢
        dsimp only at hpfs hnfs hpc hnc ⊢
        rw [List.length_cons] at hnfs hnc ⊢
        push_cast at hnfs hnc ⊢
        have hroom : st.negativeWordsFound.size < st.negativeWordsFound.capacity ∨
            st.negativeWordsFound.capacity < 1073741824 := by
          have := hnf.2.2.2
          omega
        obtain ⟨found, hadd, _⟩ := add_spec st.negativeWordsFound (cleanWord word) hnf hroom
        obtain ⟨hfw, hfs, hfl⟩ := add_wf _ _ _ hnf hroom hadd
        have e1 : iadd st.negativeCount 1 = st.negativeCount + 1 :=
          iadd_eq (by unfold INT_MIN; omega) (by unfold INT_MAX; omega)
        obtain ⟨r, hr, h1, h2, h3, h4⟩ :=
          ih { st with negativeWordsFound := found, negativeCount := st.negativeCount + 1 }
            hpf hfw (by dsimp only; omega) (by dsimp only; omega) hpc0 (by dsimp only; omega)
            (by dsimp only; omega) (by dsimp only; omega)
        dsimp only at h1 h2 h3 h4
        refine ⟨r, ?_, h1, ?_, h3, ?_⟩
        · unfold countWordsInReviewLoop
          simp only [hi, if_neg hi1, hj, if_pos hj1, hadd, e1]
          exact hr
        · rw [h2, hfl, List.append_assoc, List.singleton_append]
        · rw [h4]
          ring
      · have hj1 : ¬ j ≠ -1 := fun h => hin2 (hjmem.mp h)
        rw [classifySpec_cons_neither _ _ _ _ hin hin2] at hpfs hnfs hpc hnc ⊢
        obtain ⟨r, hr, h1, h2, h3, h4⟩ := ih st hpf hnf hpfs hnfs hpc0 hpc hnc0 hnc
        refine ⟨r, ?_, h1, h2, h3, h4⟩
        unfold countWordsInReviewLoop
        simp only [hi, if_neg hi1, hj, if_neg hj1]
        exact hr


open ResizableArray in
/-- C9 (amended): for sorted lexicons of at most `2^30` words and found lists
that stay within `2^30` entries, `countWordsInReview` returns, and
with `w = cleanWord(token)` for the tokens in order: `w` is appended to
`positiveWordsFound` iff the positive lexicon has it (positive wins), else to
`negativeWordsFound` iff the negative lexicon has it, else nowhere. Both counts
are the numbers of appended words, and a word of a lexicon is appended as
often as it occurs among the cleaned tokens. -/
theorem C9_countWordsInReview_classifies (review : List Char)
    (pos neg found1 found2 : ResizableArray (List Char))
    (hpw : pos.WF) (hps : pos.size ≤ 1073741824) (hpo : pos.Sorted)
    (hnw : neg.WF) (hns : neg.size ≤ 1073741824) (hno : neg.Sorted)
    (hf1 : found1.WF) (hf2 : found2.WF)
    (hroom1 : found1.size +
      (classifySpec pos.toList neg.toList ((tokens review).map cleanWord)).1.length
        ≤ 1073741824)
    (hroom2 : found2.size +
      (classifySpec pos.toList neg.toList ((tokens review).map cleanWord)).2.length
        ≤ 1073741824) :
    ∃ r, countWordsInReview review pos neg found1 found2 = .ok r ∧
      r.positiveWordsFound.toList = found1.toList ++
        (classifySpec pos.toList neg.toList ((tokens review).map cleanWord)).1 ∧
      r.negativeWordsFound.toList = found2.toList ++
        (classifySpec pos.toList neg.toList ((tokens review).map cleanWord)).2 ∧
      r.positiveCount =
        (classifySpec pos.toList neg.toList ((tokens review).map cleanWord)).1.length ∧
      r.negativeCount =
        (classifySpec pos.toList neg.toList ((tokens review).map cleanWord)).2.length ∧
      (∀ w, w ∈ pos.toList →
        (classifySpec pos.toList neg.toList ((tokens review).map cleanWord)).1.count w =
          ((tokens review).map cleanWord).count w) ∧
      (∀ w, w ∉ pos.toList → w ∈ neg.toList →
        (classifySpec pos.toList neg.toList ((tokens review).map cleanWord)).2.count w =
          ((tokens review).map cleanWord).count w) := by
  have h1 := hf1.2.2.1
  have h2 := hf2.2.2.1
  obtain ⟨r, hr, e1, e2, e3, e4⟩ :=
    countWordsInReviewLoop_spec pos neg hpw hps hpo hnw hns hno (tokens review)
      { positiveWordsFound := found1, negativeWordsFound := found2,
        positiveCount := 0, negativeCount := 0 }
      hf1 hf2 hroom1 hroom2 le_rfl (by dsimp only; omega) le_rfl (by dsimp only; omega)
  refine ⟨r, hr, e1, e2, ?_, ?_, ?_, ?_⟩
  · rw [e3]
    simp
  · rw [e4]
    simp
  · intro w hw
    unfold classifySpec
    rw [List.count_filter]
    simpa using hw
  · intro w hw1 hw2
    unfold classifySpec
    rw [List.count_filter]
    simpa using ⟨hw1, hw2⟩

theorem greatNice_sorted : greatNice.Sorted := by
  intro i j h0 hij hj
  have hj : j < 2 := hj
  have hi0 : i = 0 := by omega
  have hj1 : j = 1 := by omega
  subst hi0 hj1
  decide

theorem onlyBad_sorted : onlyBad.Sorted := by
  intro i j _ _ _
  exact le_refl _

theorem bigLexicon_sorted : bigLexicon.Sorted := by
  intro i j h0 hij hj
  show (if i < 1073741824 then ['a'] else ['b']) ≤ (if j < 1073741824 then ['a'] else ['b'])
  by_cases h1 : j < 1073741824
  · rw [if_pos h1, if_pos (by omega)]
  · rw [if_neg h1]
    split_ifs
    · decide
    · exact le_refl _

open ResizableArray in
/-- C9, witness: positive lexicon `great, nice`, negative lexicon `bad`; the
review "This is a great and nice place, not bad at all" gives the positive
count `2` with `great, nice` and the negative count `1` with `bad`. -/
theorem C9_countWordsInReview_classifies_witness :
    greatNice.WF ∧ greatNice.Sorted ∧ onlyBad.WF ∧ onlyBad.Sorted ∧ noWords.WF ∧
      ∃ r, countWordsInReview "This is a great and nice place, not bad at all".data
          greatNice onlyBad noWords noWords = .ok r ∧
        r.positiveWordsFound.toList = ["great".data, "nice".data] ∧
        r.negativeWordsFound.toList = ["bad".data] ∧
        r.positiveCount = 2 ∧ r.negativeCount = 1 := by
  have w1 : greatNice.WF := by unfold WF INT_MAX greatNice; decide
  have w2 : onlyBad.WF := by unfold WF INT_MAX onlyBad; decide
  have w3 : noWords.WF := by unfold WF INT_MAX noWords; decide
  obtain ⟨r, hr, e1, e2, e3, e4, _, _⟩ :=
    C9_countWordsInReview_classifies "This is a great and nice place, not bad at all".data
      greatNice onlyBad noWords noWords w1 (by unfold greatNice; decide) greatNice_sorted
      w2 (by unfold onlyBad; decide) onlyBad_sorted w3 w3 (by decide) (by decide)
  refine ⟨w1, greatNice_sorted, w2, onlyBad_sorted, w3, r, hr, ?_, ?_, ?_, ?_⟩
  · rw [e1]; rfl
  · rw [e2]; rfl
  · rw [e3]; rfl
  · rw [e4]; rfl

open ResizableArray in
/-- C9 as stated fails. The sorted positive lexicon of `2^30 + 1` words has the
word `b`, but for the review "b" the search reads outside the block and
nothing is appended or counted. And with the lexicon `great, nice` and a found
list that fills a block of `10 * 2^27` words, the review "great" fails in the
allocation of `add`. -/
theorem C9_counterexample :
    (bigLexicon.WF ∧ bigLexicon.Sorted ∧ onlyBad.WF ∧ onlyBad.Sorted ∧ noWords.WF ∧
      cleanWord "b".data ∈ bigLexicon.toList ∧
      countWordsInReview "b".data bigLexicon onlyBad noWords noWords = .error .wild_access ∧
      ¬ ∃ r, countWordsInReview "b".data bigLexicon onlyBad noWords noWords = .ok r) ∧
    (greatNice.WF ∧ greatNice.Sorted ∧ fullWords.WF ∧
      cleanWord "great".data ∈ greatNice.toList ∧
      countWordsInReview "great".data greatNice onlyBad fullWords noWords = .error .bad_alloc ∧
      ¬ ∃ r, countWordsInReview "great".data greatNice onlyBad fullWords noWords = .ok r) := by
  have hrun : countWordsInReview "b".data bigLexicon onlyBad noWords noWords =
      .error .wild_access := by rfl
  have hrun2 : countWordsInReview "great".data greatNice onlyBad fullWords noWords =
      .error .bad_alloc := by rfl
  refine ⟨⟨by unfold WF INT_MAX bigLexicon; decide, bigLexicon_sorted,
    by unfold WF INT_MAX onlyBad; decide, onlyBad_sorted,
    by unfold WF INT_MAX noWords; decide, ?_, hrun, ?_⟩,
    ⟨by unfold WF INT_MAX greatNice; decide, greatNice_sorted,
      by unfold WF INT_MAX fullWords; decide, ?_, hrun2, ?_⟩⟩
  · rw [mem_toList]
    exact ⟨1073741824, by decide, by unfold bigLexicon; decide, by rfl⟩
  · rintro ⟨r, h⟩
    rw [hrun] at h
    cases h
  · rw [mem_toList]
    exact ⟨0, by decide, by unfold greatNice; decide, by rfl⟩
  · rintro ⟨r, h⟩
    rw [hrun2] at h
    cases h


namespace ResizableArray

variable {T : Type}

/-! ## General facts about the results of `binarySearch` and `add` -/

/-- A sum of two indices that does not fit an `int` gives a negative midpoint. -/
theorem mid_overflow {low high : Int} (h0 : 0 ≤ low) (hlow : low ≤ INT_MAX)
    (hhigh : high ≤ INT_MAX) (hsum : INT_MAX < low + high) :
    idiv (iadd low high) 2 < 0 := by
  unfold INT_MAX at *
  have e : iadd low high = low + high - 4294967296 := by
    unfold iadd wrapInt
    omega
  rw [e]
  unfold idiv
  have hneg : low + high - 4294967296 ≤ -2 := by omega
  obtain ⟨k, hk⟩ : ∃ k : Int, low + high - 4294967296 = -k := ⟨-(low + high - 4294967296), by ring⟩
  rw [hk, Int.neg_tdiv, Int.tdiv_eq_ediv (by omega) (by norm_num)]
  unfold wrapInt
  omega

/-- Whatever `binarySearch` returns from a state inside the stored range is
the sentinel or an index of the range that holds the element; no bound on the
size is needed for this. -/
theorem binarySearchLoop_ok [LinearOrder T] (a : ResizableArray T) (x : T)
    (hcap : a.size ≤ a.capacity) (hmax : a.capacity ≤ INT_MAX) :
    ∀ (fuel : Nat) (low high r : Int), 0 ≤ low → high < a.size →
      binarySearchLoop a x fuel low high = .ok r →
      r = -1 ∨ (low ≤ r ∧ r ≤ high ∧ a.data r = x) := by
  intro fuel
  induction fuel with
  | zero =>
    intro low high r h0 hhi hrun
    unfold binarySearchLoop at hrun
    split_ifs at hrun with hle
    exact Or.inl (Except.ok.inj hrun).symm
  | succ n ih =>
    intro low high r h0 hhi hrun
    unfold binarySearchLoop at hrun
    split_ifs at hrun with hle
    · by_cases hsum : low + high ≤ INT_MAX
      · have hmid := mid_eq h0 hle hsum
        have hread : a.read ((low + high) / 2) = .ok (a.data ((low + high) / 2)) := by
          unfold read readCell
          rw [if_pos ⟨by omega, by omega⟩]
        have hnext : iadd ((low + high) / 2) 1 = (low + high) / 2 + 1 :=
          iadd_eq (by unfold INT_MIN; omega) (by unfold INT_MAX at *; omega)
        have hprev : isub ((low + high) / 2) 1 = (low + high) / 2 - 1 :=
          isub_eq (by unfold INT_MIN; omega) (by unfold INT_MAX at *; omega)
        simp only [hmid, hread, hnext, hprev] at hrun
        split_ifs at hrun with heq hlt
        · right
          have := Except.ok.inj hrun
          subst this
          exact ⟨by omega, by omega, heq⟩
        · rcases ih _ _ _ (by omega) hhi hrun with h | ⟨h1, h2, h3⟩
          · exact Or.inl h
          · exact Or.inr ⟨by omega, h2, h3⟩
        · rcases ih _ _ _ h0 (by omega) hrun with h | ⟨h1, h2, h3⟩
          · exact Or.inl h
          · exact Or.inr ⟨h1, by omega, h3⟩
      · have hneg := mid_overflow h0 (by omega) (by omega) (lt_of_not_le hsum)
        have hread : a.read (idiv (iadd low high) 2) = .error .wild_access := by
          unfold read readCell
          rw [if_neg (by omega)]
        simp only [hread] at hrun
        cases hrun
    · left
      exact (Except.ok.inj hrun).symm

/-- An index that `binarySearch` returns is the sentinel or a position that
holds the element, for a collection of any size. -/
theorem binarySearch_ok [LinearOrder T] (a : ResizableArray T) (x : T) (hwf : a.WF) (r : Int)
    (hrun : binarySearch a x = .ok r) :
    r = -1 ∨ (0 ≤ r ∧ r < a.size ∧ a.data r = x) := by
  obtain ⟨_, hmax, h0, hcap⟩ := hwf
  have hhigh : isub a.size 1 = a.size - 1 :=
    isub_eq (by unfold INT_MIN; omega) (by unfold INT_MAX at *; omega)
  unfold binarySearch at hrun
  rw [hhigh] at hrun
  rcases binarySearchLoop_ok a x hcap hmax _ 0 (a.size - 1) r le_rfl (by omega) hrun with
    h | ⟨h1, h2, h3⟩
  · exact Or.inl h
  · exact Or.inr ⟨h1, by omega, h3⟩

/-- A failed read is an access outside the block. -/
theorem read_error (a : ResizableArray T) (i : Int) (e : Fault) (h : a.read i = .error e) :
    e = .wild_access := by
  unfold read readCell at h
  split_ifs at h
  exact (Except.error.inj h).symm

/-- A failed write is an access outside the block. -/
theorem write_error (a : ResizableArray T) (i : Int) (v : T) (e : Fault)
    (h : a.write i v = .error e) : e = .wild_access := by
  unfold write writeCell at h
  split_ifs at h
  exact (Except.error.inj h).symm

/-- The search never fails with the error of `get`. -/
theorem binarySearchLoop_not_out_of_range [LinearOrder T] (a : ResizableArray T) (x : T) :
    ∀ (fuel : Nat) (low high : Int),
      binarySearchLoop a x fuel low high ≠ .error .out_of_range := by
  intro fuel
  induction fuel with
  | zero =>
    intro low high hrun
    unfold binarySearchLoop at hrun
    split_ifs at hrun
    all_goals cases hrun
  | succ n ih =>
    intro low high hrun
    unfold binarySearchLoop at hrun
    split_ifs at hrun with hle
    · cases hread : a.read (idiv (iadd low high) 2) with
      | error e =>
        simp only [hread] at hrun
        have := read_error a _ e hread
        subst this
        cases hrun
      | ok v =>
        simp only [hread] at hrun
        split_ifs at hrun
        · exact ih _ _ hrun
        · exact ih _ _ hrun

end ResizableArray

namespace ResizableArray

variable {T : Type}

/-- The search does not depend on the cells beyond `size`: on a collection of
at most `2^30` elements it runs alike in a block cut down to `size` cells. -/
theorem binarySearchLoop_shrink [LinearOrder T] (a : ResizableArray T) (x : T)
    (hcap : a.size ≤ a.capacity) (hsz : a.size ≤ 1073741824) :
    ∀ (fuel : Nat) (low high : Int), 0 ≤ low → high < a.size →
      binarySearchLoop { a with capacity := a.size } x fuel low high =
        binarySearchLoop a x fuel low high := by
  intro fuel
  induction fuel with
  | zero =>
    intro low high _ _
    unfold binarySearchLoop
    rfl
  | succ n ih =>
    intro low high h0 hhi
    by_cases hle : low ≤ high
    · have hsum : low + high ≤ INT_MAX := by unfold INT_MAX; omega
      have hmid := mid_eq h0 hle hsum
      have hread : a.read ((low + high) / 2) = .ok (a.data ((low + high) / 2)) := by
        unfold read readCell
        rw [if_pos ⟨by omega, by omega⟩]
      have hread2 : read { a with capacity := a.size } ((low + high) / 2) =
          .ok (a.data ((low + high) / 2)) := by
        unfold read readCell
        dsimp only
        rw [if_pos ⟨by omega, by omega⟩]
      have hnext : iadd ((low + high) / 2) 1 = (low + high) / 2 + 1 :=
        iadd_eq (by unfold INT_MIN; omega) (by unfold INT_MAX; omega)
      have hprev : isub ((low + high) / 2) 1 = (low + high) / 2 - 1 :=
        isub_eq (by unfold INT_MIN; omega) (by unfold INT_MAX; omega)
      unfold binarySearchLoop
      simp only [if_pos hle, hmid, hread, hread2, hnext, hprev]
      rw [ih _ _ (by omega) hhi, ih _ _ h0 (by omega)]
    · unfold binarySearchLoop
      simp only [if_neg hle]

/-- C17 (amended): on every collection of at most `2^30` elements, sorted or
not, `binarySearch(x)` returns; the result is `-1` or an index `r` with
`0 <= r < size` and `get(r) == x`; and the run is the same in a block of only
`size` cells, so every cell it reads has an index in `[0, size)`. -/
theorem C17_binarySearch_safe [LinearOrder T] (a : ResizableArray T) (x : T) (hwf : a.WF)
    (hsz : a.size ≤ 1073741824) :
    ∃ r, binarySearch a x = .ok r ∧
      (r = -1 ∨ (0 ≤ r ∧ r < a.getSize ∧ a.get r = .ok x)) ∧
      binarySearch { a with capacity := a.size } x = .ok r := by
  obtain ⟨r, hr, hpost⟩ := binarySearch_spec a x hwf hsz
  obtain ⟨_, _, h0, hcap⟩ := hwf
  refine ⟨r, hr, ?_, ?_⟩
  · rcases hpost with ⟨h1, _⟩ | ⟨h1, h2, h3⟩
    · exact Or.inl h1
    · exact Or.inr ⟨h1, h2, by rw [get_eq a r h1 h2 hcap, h3]⟩
  · have hhigh : isub a.size 1 = a.size - 1 :=
      isub_eq (by unfold INT_MIN; omega) (by unfold INT_MAX; omega)
    unfold binarySearch at hr ⊢
    dsimp only
    rw [hhigh] at hr ⊢
    rw [binarySearchLoop_shrink a x hcap hsz _ _ _ le_rfl (by omega)]
    exact hr

/-- C17, witness: in the unsorted collection `3, 1, 2` the search for `3`
misses the element and returns `-1`, and the search for `1` returns the
index `1`. -/
theorem C17_binarySearch_safe_witness :
    fullArray.WF ∧ fullArray.size ≤ 1073741824 ∧ binarySearch fullArray 3 = .ok (-1) ∧
      binarySearch fullArray 1 = .ok 1 ∧
      ∃ r, binarySearch fullArray 3 = .ok r ∧
        (r = -1 ∨ (0 ≤ r ∧ r < fullArray.getSize ∧ fullArray.get r = .ok 3)) ∧
        binarySearch { fullArray with capacity := fullArray.size } 3 = .ok r :=
  have hwf : fullArray.WF := by unfold WF INT_MAX fullArray; decide
  have hsz : fullArray.size ≤ 1073741824 := by unfold fullArray; decide
  ⟨hwf, hsz, by rfl, by rfl, C17_binarySearch_safe fullArray 3 hwf hsz⟩

/-- C17 as stated fails: in the collection `0, 1, ..., 2^30` the search for
`2^30 + 1` reaches `low + high = 2^31`, which wraps; the midpoint is negative
and the read is outside the block. -/
theorem C17_counterexample :
    bigArray.WF ∧ binarySearch bigArray 1073741825 = .error .wild_access ∧
      ¬ ∃ r, binarySearch bigArray 1073741825 = .ok r ∧
        (r = -1 ∨ (0 ≤ r ∧ r < bigArray.getSize ∧ bigArray.get r = .ok 1073741825)) := by
  have hrun : binarySearch bigArray 1073741825 = .error .wild_access := by rfl
  refine ⟨by unfold WF INT_MAX bigArray; decide, hrun, ?_⟩
  rintro ⟨r, h, _⟩
  rw [hrun] at h
  cases h

end ResizableArray

namespace ResizableArray

variable {T : Type}

/-! ## `insertionSort` on a sorted collection -/

/-- The inner loop stops at once when the cell at `j` is not above the key. -/
theorem insertionSortInner_stop [LinearOrder T] (key : T) (fuel : Nat) (a : ResizableArray T)
    (j : Int) (h0 : 0 ≤ j) (hj : j < a.capacity) (hle : ¬ a.data j > key) :
    insertionSortInner key fuel a j = .ok (a, j) := by
  unfold insertionSortInner
  rw [if_pos h0, read_eq a j h0 hj]
  simp only [if_neg hle]

/-- The outer loop leaves a sorted collection as it is. -/
theorem insertionSortLoop_sorted [LinearOrder T] (a : ResizableArray T) (hwf : a.WF)
    (hs : a.Sorted) :
    ∀ (fuel : Nat) (i : Int), 1 ≤ i → a.size - i ≤ fuel → insertionSortLoop fuel a i = .ok a := by
  obtain ⟨hc1, hc2, hs0, hsc⟩ := hwf
  intro fuel
  induction fuel with
  | zero =>
    intro i h1 hf
    unfold insertionSortLoop
    rw [if_neg (by omega)]
  | succ n ih =>
    intro i h1 hf
    by_cases hi : i < a.size
    · have hr := read_eq a i (by omega) (by omega)
      have e1 : isub i 1 = i - 1 :=
        isub_eq (by unfold INT_MIN; omega) (by unfold INT_MAX at *; omega)
      have e2 : iadd (i - 1) 1 = i := by
        rw [iadd_eq (by unfold INT_MIN; omega) (by unfold INT_MAX at *; omega)]
        ring
      have e3 : iadd i 1 = i + 1 :=
        iadd_eq (by unfold INT_MIN; omega) (by unfold INT_MAX at *; omega)
      have hinner := insertionSortInner_stop (a.data i) i.toNat a (i - 1) (by omega) (by omega)
        (not_lt.mpr (hs (i - 1) i (by omega) (by omega) hi))
      have hw : a.write i (a.data i) = .ok a := by
        rw [write_eq a i (a.data i) (by omega) (by omega), Function.update_eq_self]
      unfold insertionSortLoop
      simp only [if_pos hi, hr, e1, hinner, e2, hw, e3]
      exact ih (i + 1) (by omega) (by omega)
    · unfold insertionSortLoop
      rw [if_neg hi]

/-- C13: `insertionSort` returns a collection whose stored sequence is already
in ascending order exactly as it was, cell by cell; therefore a second sort of
any collection returns what the first sort returned. -/
theorem C13_insertionSort_idempotent [LinearOrder T] (a : ResizableArray T) (hwf : a.WF) :
    (a.Sorted → insertionSort a = .ok a) ∧
      ∃ a2, insertionSort a = .ok a2 ∧ insertionSort a2 = .ok a2 := by
  have hsorted : ∀ b : ResizableArray T, b.WF → b.Sorted → insertionSort b = .ok b := by
    intro b hb hbs
    exact insertionSortLoop_sorted b hb hbs b.size.toNat 1 le_rfl (by have := hb.2.2.1; omega)
  refine ⟨hsorted a hwf, ?_⟩
  obtain ⟨a2, hrun, hc, hs, hso, _⟩ :=
    insertionSortLoop_spec a.size.toNat a 1 hwf le_rfl (by have := hwf.2.2.1; omega)
      (fun k l hk hkl hl _ => by omega)
  have hwf2 : a2.WF := by
    unfold WF at *
    rw [hc, hs]
    exact hwf
  exact ⟨a2, hrun, hsorted a2 hwf2 hso⟩

/-- C13, witness: the sorted collection `0, 0, 1, 1, 2` is returned unchanged,
and `3, 1, 2` sorted once and sorted twice is `1, 2, 3`. -/
theorem C13_insertionSort_idempotent_witness :
    smallArray.WF ∧ smallArray.Sorted ∧ insertionSort smallArray = .ok smallArray ∧
      (insertionSort fullArray).map toList = .ok [1, 2, 3] ∧
      ((insertionSort fullArray).bind insertionSort).map toList = .ok [1, 2, 3] := by
  have hwf : smallArray.WF := by unfold WF INT_MAX smallArray; decide
  have hs : smallArray.Sorted := by
    intro i j _ _ _
    show i / 2 ≤ j / 2
    omega
  exact ⟨hwf, hs, (C13_insertionSort_idempotent smallArray hwf).1 hs, by rfl, by rfl⟩

end ResizableArray

namespace ResizableArray

variable {T : Type}

theorem toList_getElem (a : ResizableArray T) (k : Nat) (hk : k < a.toList.length) :
    a.toList[k] = a.data k := by
  unfold toList
  simp

/-- The stored sequence from position `i` on. -/
theorem toList_drop (a : ResizableArray T) (i : Int) (h0 : 0 ≤ i) (hi : i < a.size) :
    a.toList.drop i.toNat = a.data i :: a.toList.drop (i + 1).toNat := by
  have hlen : i.toNat < a.toList.length := by
    rw [length_toList]
    omega
  rw [List.drop_eq_getElem_cons hlen, toList_getElem a _ hlen, Int.toNat_of_nonneg h0]
  congr 2
  omega

end ResizableArray

open ResizableArray in
/-- The loop of `countOccurrences` from the state `i`, `count`: it adds to
`count` the number of stored elements from position `i` on that equal
`index`. -/
theorem countOccurrencesLoop_spec (indices : ResizableArray Int) (index : Int)
    (hwf : indices.WF) :
    ∀ (fuel : Nat) (i count : Int), 0 ≤ i → i ≤ indices.size → 0 ≤ count → count ≤ i →
      indices.size - i ≤ fuel →
      countOccurrencesLoop indices index fuel i count =
        .ok (count + ((indices.toList.drop i.toNat).count index : Nat)) := by
  obtain ⟨hc1, hc2, hs0, hsc⟩ := hwf
  intro fuel
  induction fuel with
  | zero =>
    intro i count h0 hi hc0 hci hf
    have hi2 : i = indices.size := by omega
    unfold countOccurrencesLoop
    rw [if_neg (by show ¬ i < indices.size; omega)]
    have : indices.toList.drop i.toNat = [] := by
      apply List.drop_eq_nil_of_le
      rw [length_toList, hi2]
    rw [this]
    simp
  | succ n ih =>
    intro i count h0 hi hc0 hci hf
    by_cases hlt : i < indices.size
    · have hg := get_eq indices i h0 hlt hsc
      have e1 : iadd i 1 = i + 1 :=
        iadd_eq (by unfold INT_MIN; omega) (by unfold INT_MAX at *; omega)
      have e2 : iadd count 1 = count + 1 :=
        iadd_eq (by unfold INT_MIN; omega) (by unfold INT_MAX at *; omega)
      unfold countOccurrencesLoop
      rw [if_pos (by show i < indices.size; exact hlt)]
      simp only [hg, e1, e2]
      rw [toList_drop indices i h0 hlt]
      by_cases heq : indices.data i = index
      · rw [if_pos heq, ih (i + 1) (count + 1) (by omega) (by omega) (by omega) (by omega)
          (by omega), heq, List.count_cons_self]
        push_cast
        ring_nf
      · rw [if_neg heq, ih (i + 1) count (by omega) (by omega) hc0 (by omega) (by omega),
          List.count_cons_of_ne (fun h => heq h.symm)]
    · have hi2 : i = indices.size := by omega
      unfold countOccurrencesLoop
      rw [if_neg (by show ¬ i < indices.size; omega)]
      have : indices.toList.drop i.toNat = [] := by
        apply List.drop_eq_nil_of_le
        rw [length_toList, hi2]
      rw [this]
      simp

open ResizableArray in
/-- The result of `countOccurrences`. -/
theorem countOccurrences_eq (indices : ResizableArray Int) (index : Int) (hwf : indices.WF) :
    countOccurrences indices index = .ok ((indices.toList.count index : Nat) : Int) := by
  have := countOccurrencesLoop_spec indices index hwf indices.getSize.toNat 0 0 le_rfl
    hwf.2.2.1 le_rfl le_rfl
    (by show indices.size - 0 ≤ ((indices.size.toNat : Nat) : Int); have := hwf.2.2.1; omega)
  unfold countOccurrences
  rw [this]
  simp

open ResizableArray in
/-- C14: for every collection of indices and every `index`,
`countOccurrences` returns, without any error, the number of positions `i` in
`[0, getSize())` with `get(i) == index`. The function takes the collection as
a value and returns only the count: the collection is unchanged. -/
theorem C14_countOccurrences_counts (indices : ResizableArray Int) (index : Int)
    (hwf : indices.WF) :
    countOccurrences indices index =
        .ok ((((List.range indices.getSize.toNat).filter
          (fun i : Nat => match indices.get i with
            | .ok v => decide (v = index)
            | .error _ => false)).length : Nat) : Int) ∧
      countOccurrences indices index = .ok ((indices.toList.count index : Nat) : Int) := by
  refine ⟨?_, countOccurrences_eq indices index hwf⟩
  rw [countOccurrences_eq indices index hwf]
  congr 2
  unfold toList getSize
  rw [List.count_eq_countP, List.countP_map, List.countP_eq_length_filter]
  congr 1
  apply List.filter_congr
  intro k hk
  have hk : k < indices.size.toNat := List.mem_range.mp hk
  rw [get_eq indices k (by omega) (by omega) hwf.2.2.2]
  simp only [Function.comp]
  by_cases h : indices.data k = index
  · simp [h]
  · simp [h]

open ResizableArray in
/-- C14, witness: the collection `0, 0, 1, 1, 2` holds the value `1` twice and
the value `7` at no position. -/
theorem C14_countOccurrences_counts_witness :
    smallArray.WF ∧ countOccurrences smallArray 1 = .ok 2 ∧
      countOccurrences smallArray 7 = .ok 0 ∧
      (countOccurrences smallArray 1 =
          .ok ((((List.range smallArray.getSize.toNat).filter
            (fun i : Nat => match smallArray.get i with
              | .ok v => decide (v = 1)
              | .error _ => false)).length : Nat) : Int) ∧
        countOccurrences smallArray 1 = .ok ((smallArray.toList.count 1 : Nat) : Int)) :=
  have hwf : smallArray.WF := by unfold WF INT_MAX smallArray; decide
  ⟨hwf, by rfl, by rfl, C14_countOccurrences_counts smallArray 1 hwf⟩

namespace ResizableArray

variable {T : Type}

/-! ## The class invariant -/

/-- A full block whose capacity cannot be doubled in `int`: `add` fails in the
allocation. -/
theorem add_full_big [Inhabited T] (a : ResizableArray T) (x : T) (hwf : a.WF)
    (hfull : a.size = a.capacity) (hbig : 1073741824 ≤ a.capacity) :
    a.add x = .error .bad_alloc := by
  obtain ⟨_, hc2, _, _⟩ := hwf
  unfold INT_MAX at hc2
  have hneg : imul a.capacity 2 < 0 := by
    unfold imul wrapInt
    omega
  unfold add
  rw [if_pos hfull]
  unfold resize newBlock
  simp only [if_pos hneg]

/-- Whenever `add` returns, the class invariant holds afterwards, one element
has been appended, and the capacity is the old one or, if the block was full,
twice the old one. -/
theorem add_ok [Inhabited T] (a a2 : ResizableArray T) (x : T) (hwf : a.WF)
    (h : a.add x = .ok a2) :
    a2.WF ∧ a2.size = a.size + 1 ∧ a2.toList = a.toList ++ [x] ∧
      a2.capacity = (if a.size = a.capacity then 2 * a.capacity else a.capacity) ∧
      (a.size < a.capacity ∨ a.capacity < 1073741824) := by
  have hroom : a.size < a.capacity ∨ a.capacity < 1073741824 := by
    by_contra hn
    have hsc := hwf.2.2.2
    rw [add_full_big a x hwf (by omega) (by omega)] at h
    cases h
  obtain ⟨hw, hs, hl⟩ := add_wf a a2 x hwf hroom h
  obtain ⟨a3, h3, _, _, _, _, hc⟩ := add_spec a x hwf hroom
  rw [h] at h3
  have e : a2 = a3 := Except.ok.inj h3
  subst e
  exact ⟨hw, hs, hl, hc, hroom⟩

/-- The copy loop of `resize` never fails with the error of `get`. -/
theorem resizeLoop_not_out_of_range (a : ResizableArray T) (newCapacity : Int) :
    ∀ (fuel : Nat) (newData : Int → T) (i : Int),
      resizeLoop a newCapacity fuel newData i ≠ .error .out_of_range := by
  intro fuel
  induction fuel with
  | zero =>
    intro newData i hrun
    unfold resizeLoop at hrun
    split_ifs at hrun
    all_goals cases hrun
  | succ n ih =>
    intro newData i hrun
    unfold resizeLoop at hrun
    split_ifs at hrun with hi
    cases hread : a.read i with
    | error e =>
      simp only [hread] at hrun
      have := read_error a _ e hread
      subst this
      cases hrun
    | ok v =>
      simp only [hread] at hrun
      unfold writeCell at hrun
      split_ifs at hrun
      · exact ih _ _ hrun
      · cases hrun

/-- The method `add` never fails with the error of `get`. -/
theorem add_not_out_of_range [Inhabited T] (a : ResizableArray T) (x : T) :
    a.add x ≠ .error .out_of_range := by
  intro hrun
  have hwrite : ∀ b : ResizableArray T,
      (match b.write b.size x with
        | .error e => .error e
        | .ok a => .ok { a with size := iadd a.size 1 }) ≠
        (Except.error Fault.out_of_range : Except Fault (ResizableArray T)) := by
    intro b hb
    cases hw : b.write b.size x with
    | error e =>
      simp only [hw] at hb
      have := write_error b _ _ e hw
      subst this
      cases hb
    | ok c =>
      simp only [hw] at hb
      cases hb
  unfold add at hrun
  split_ifs at hrun with hfull
  · cases hres : a.resize with
    | error e =>
      simp only [hres] at hrun
      have he : e = .out_of_range := (Except.error.inj hrun)
      subst he
      unfold resize newBlock at hres
      dsimp only at hres
      split_ifs at hres
      · cases hres
      · cases hloop : resizeLoop a (imul a.capacity 2) a.size.toNat (fun _ => default) 0 with
        | error e2 =>
          simp only [hloop] at hres
          have he2 : e2 = .out_of_range := (Except.error.inj hres)
          subst he2
          exact resizeLoop_not_out_of_range a _ _ _ _ hloop
        | ok d =>
          simp only [hloop] at hres
          cases hres
    | ok b =>
      simp only [hres] at hrun
      exact hwrite b hrun
  · exact hwrite a hrun

/-- C18: the constructor fails with `invalid_argument` for a capacity that is
not positive and otherwise builds an empty collection that satisfies
`capacity >= 1` and `0 <= size <= capacity`; whenever `add` returns, the
predicate holds again, the capacity has changed only if `size == capacity`
held before, and then it is exactly twice the old one; `add` does return
unless the block is full and the doubling overflows `int`; `insertionSort`
returns with `capacity` and `size` unchanged. The methods `get`, `getSize` and
`binarySearch` return no new state. -/
theorem C18_storage_invariant [Inhabited T] [LinearOrder T] (initialCapacity : Int)
    (a : ResizableArray T) (x : T) (hint : initialCapacity ≤ INT_MAX) (hwf : a.WF) :
    (initialCapacity ≤ 0 → construct (T := T) initialCapacity = .error .invalid_argument) ∧
      (0 < initialCapacity → ∃ c, construct (T := T) initialCapacity = .ok c ∧
        c.capacity = initialCapacity ∧ c.size = 0 ∧
        (1 ≤ c.capacity ∧ 0 ≤ c.size ∧ c.size ≤ c.capacity) ∧ c.WF) ∧
      (∀ a2, a.add x = .ok a2 →
        (1 ≤ a2.capacity ∧ 0 ≤ a2.size ∧ a2.size ≤ a2.capacity) ∧ a2.WF ∧
        (a2.capacity ≠ a.capacity → a.size = a.capacity) ∧
        (a.size = a.capacity → a2.capacity = 2 * a.capacity)) ∧
      ((a.size < a.capacity ∨ a.capacity < 1073741824) → ∃ a2, a.add x = .ok a2) ∧
      (∃ a2, insertionSort a = .ok a2 ∧ a2.capacity = a.capacity ∧ a2.size = a.size ∧
        1 ≤ a2.capacity ∧ 0 ≤ a2.size ∧ a2.size ≤ a2.capacity) := by
  refine ⟨?_, ?_, ?_, ?_, ?_⟩
  · intro h
    unfold construct
    rw [if_pos h]
  · intro h
    refine ⟨{ data := fun _ => default, capacity := initialCapacity, size := 0 }, ?_, rfl, rfl,
      ⟨by show 1 ≤ initialCapacity; omega, le_rfl, by show 0 ≤ initialCapacity; omega⟩,
      ⟨by show 1 ≤ initialCapacity; omega, hint, le_rfl, by show 0 ≤ initialCapacity; omega⟩⟩
    unfold construct newBlock
    rw [if_neg (by omega), if_neg (by omega)]
  · intro a2 h
    obtain ⟨hw, _, _, hc, _⟩ := add_ok a a2 x hwf h
    refine ⟨⟨hw.1, hw.2.2.1, hw.2.2.2⟩, hw, ?_, ?_⟩
    · intro hne
      by_contra hfull
      rw [if_neg hfull] at hc
      exact hne hc
    · intro hfull
      rw [if_pos hfull] at hc
      exact hc
  · intro hroom
    obtain ⟨a2, h, _⟩ := add_spec a x hwf hroom
    exact ⟨a2, h⟩
  · obtain ⟨a2, hrun, hc, hs, _, _⟩ :=
      insertionSortLoop_spec a.size.toNat a 1 hwf le_rfl (by have := hwf.2.2.1; omega)
        (fun k l hk hkl hl _ => by omega)
    refine ⟨a2, hrun, hc, hs, ?_, ?_, ?_⟩
    · rw [hc]; exact hwf.1
    · rw [hs]; exact hwf.2.2.1
    · rw [hc, hs]; exact hwf.2.2.2

/-- C18, witness: the capacities `0` and `10`, and the full block `3, 1, 2`,
whose capacity `3` becomes `6` in `add(7)`. -/
theorem C18_storage_invariant_witness :
    construct (T := Int) 0 = .error .invalid_argument ∧
      (construct (T := Int) 10).map ResizableArray.capacity = .ok 10 ∧
      (fullArray.add 7).map ResizableArray.capacity = .ok 6 ∧
      (fullArray.add 7).map ResizableArray.size = .ok 4 ∧
      (10 : Int) ≤ INT_MAX ∧ fullArray.WF ∧
      ∃ a2, fullArray.add 7 = .ok a2 ∧ a2.WF ∧ a2.capacity = 2 * fullArray.capacity := by
  have hwf : fullArray.WF := by unfold WF INT_MAX fullArray; decide
  have hint : (10 : Int) ≤ INT_MAX := by unfold INT_MAX; decide
  obtain ⟨_, _, hadd, hret, _⟩ := C18_storage_invariant 10 fullArray 7 hint hwf
  obtain ⟨a2, h2⟩ := hret (Or.inr (by unfold fullArray; decide))
  obtain ⟨_, hw, _, hc⟩ := hadd a2 h2
  exact ⟨by rfl, by rfl, by rfl, by rfl, hint, hwf, a2, h2, hw, hc rfl⟩

end ResizableArray

/-! ## `cleanWord` -/

/-- The loop of `cleanWord` started with the characters `acc`. -/
theorem cleanWord_foldl (w acc : List Char) :
    w.foldl (fun cleaned c => if isalnum c then cleaned ++ [tolower c] else cleaned) acc =
      acc ++ (w.filter isalnum).map tolower := by
  induction w generalizing acc with
  | nil => simp
  | cons c cs ih =>
    rw [List.foldl_cons, ih]
    by_cases h : isalnum c = true
    · simp [h]
    · simp [h]

theorem cleanWord_eq (w : List Char) : cleanWord w = (w.filter isalnum).map tolower := by
  unfold cleanWord
  rw [cleanWord_foldl]
  simp

/-- A lower-cased alphanumeric character is a lowercase letter or a digit. -/
theorem tolower_isalnum (c : Char) (h : isalnum c = true) :
    (tolower c).isLower = true ∨ (tolower c).isDigit = true := by
  unfold isalnum Char.isAlphanum Char.isAlpha at h
  unfold tolower Char.toLower
  simp only [Bool.or_eq_true] at h
  rcases h with (hu | hl) | hd
  · left
    unfold Char.isUpper at hu
    simp only [Bool.and_eq_true, decide_eq_true_eq] at hu
    have h1 : 65 ≤ c.toNat := by
      have := hu.1
      rw [ge_iff_le, UInt32.le_def] at this
      exact this
    have h2 : c.toNat ≤ 90 := by
      have := hu.2
      rw [UInt32.le_def] at this
      exact this
    simp only [ge_iff_le, h1, h2, and_self, if_true]
    generalize c.toNat = n at h1 h2
    interval_cases n <;> decide
  · left
    unfold Char.isLower at hl
    simp only [Bool.and_eq_true, decide_eq_true_eq] at hl
    have h97 : 97 ≤ c.toNat := by
      have := hl.1
      rw [ge_iff_le, UInt32.le_def] at this
      exact this
    have h1 : ¬ (c.toNat ≤ 90) := by omega
    simp only [ge_iff_le, h1, and_false, if_false]
    unfold Char.isLower
    simp only [Bool.and_eq_true, decide_eq_true_eq]
    exact hl
  · right
    unfold Char.isDigit at hd
    simp only [Bool.and_eq_true, decide_eq_true_eq] at hd
    have h57 : c.toNat ≤ 57 := by
      have := hd.2
      rw [UInt32.le_def] at this
      exact this
    have h1 : ¬ (65 ≤ c.toNat) := by omega
    simp only [ge_iff_le, h1, false_and, if_false]
    unfold Char.isDigit
    simp only [Bool.and_eq_true, decide_eq_true_eq]
    exact hd

/-- C12: for every string `w`, `cleanWord(w)` is `w` without its
non-alphanumeric characters, each remaining character lower-cased and the
order kept; a word without any alphanumeric character gives the empty string;
and the result holds only lowercase letters and digits. -/
theorem C12_cleanWord_filters_and_lowers (w : List Char) :
    cleanWord w = (w.filter isalnum).map tolower ∧
      ((∀ c ∈ w, isalnum c = false) → cleanWord w = []) ∧
      (∀ c ∈ cleanWord w, c.isLower = true ∨ c.isDigit = true) ∧
      (cleanWord w).length ≤ w.length := by
  refine ⟨cleanWord_eq w, ?_, ?_, ?_⟩
  · intro h
    rw [cleanWord_eq, List.filter_eq_nil_iff.mpr (fun c hc => by simp [h c hc])]
    rfl
  · intro c hc
    rw [cleanWord_eq, List.mem_map] at hc
    obtain ⟨d, hd, rfl⟩ := hc
    exact tolower_isalnum d (List.mem_filter.mp hd).2
  · rw [cleanWord_eq, List.length_map]
    exact List.length_filter_le _ _

/-- C12, witness: `Hello, World!` gives `helloworld`, `--` gives the empty
string and `R2-D2` gives `r2d2`. -/
theorem C12_cleanWord_filters_and_lowers_witness :
    cleanWord "Hello, World!".data = "helloworld".data ∧ cleanWord "--".data = [] ∧
      cleanWord "R2-D2".data = "r2d2".data :=
  ⟨(C12_cleanWord_filters_and_lowers "Hello, World!".data).1.trans (by rfl),
    (C12_cleanWord_filters_and_lowers "--".data).2.1 (by decide), by rfl⟩

/-! ## `roundSentimentScore` -/

theorem roundSentimentScore_neg_one : roundSentimentScore (some (-1)) = some (-1) := by
  have e : roundHalfAway (-1) = -1 := by
    unfold roundHalfAway
    rw [if_neg (by norm_num)]
    have : ⌊-(-1 : ℚ) + 1 / 2⌋ = 1 := by
      rw [Int.floor_eq_iff]
      norm_num
    rw [this]
  unfold roundSentimentScore
  simp only [e]
  rw [if_pos ⟨by unfold INT_MIN; decide, by unfold INT_MAX; decide⟩]

/-- C11 (amended): for every score `s` in `[1, 5]`, `roundSentimentScore(s)` is
the integer `r` with `s - 1/2 < r <= s + 1/2`, that is the nearest integer with
an exact half rounded up, away from zero, and `r` is one of `1, ..., 5`; and
for non-negative counts whose doubled total fits an `int` the score of
`calculateSentimentScore` rounds to one of `1, ..., 5`. -/
theorem C11_roundSentimentScore_nearest (s : ℚ) (p n : Int) (h1 : 1 ≤ s) (h5 : s ≤ 5)
    (hp : 0 ≤ p) (hn : 0 ≤ n) (hfit : 2 * (p + n) ≤ INT_MAX) :
    (∃ r, roundSentimentScore (some s) = some r ∧ (r : ℚ) ≤ s + 1 / 2 ∧ s - 1 / 2 < r ∧
        1 ≤ r ∧ r ≤ 5) ∧
      ∃ s2 r2, calculateSentimentScore p n = some s2 ∧
        roundSentimentScore (some s2) = some r2 ∧ 1 ≤ r2 ∧ r2 ≤ 5 := by
  constructor
  · obtain ⟨hr, l1, l5⟩ := roundSentimentScore_eq h1 h5
    refine ⟨_, hr, ?_, ?_, l1, l5⟩
    · have := Int.floor_le (s + 1 / 2)
      exact this
    · have := Int.lt_floor_add_one (s + 1 / 2)
      linarith
  · rcases eq_or_lt_of_le (add_nonneg hp hn) with h0 | hpos
    · have hp0 : p = 0 := by omega
      have hn0 : n = 0 := by omega
      subst hp0 hn0
      obtain ⟨hr, l1, l5⟩ := roundSentimentScore_eq (s := 3) (by norm_num) (by norm_num)
      exact ⟨3, _, rfl, hr, l1, l5⟩
    · have hpq : (0 : ℚ) ≤ (p : ℚ) := by exact_mod_cast hp
      have hnq : (0 : ℚ) ≤ (n : ℚ) := by exact_mod_cast hn
      have hNq : (0 : ℚ) < (p : ℚ) + n := by exact_mod_cast hpos
      have hx0 : 0 ≤ (p : ℚ) / ((p : ℚ) + n) := div_nonneg hpq hNq.le
      have hx1 : (p : ℚ) / ((p : ℚ) + n) ≤ 1 := by
        rw [div_le_one hNq]
        linarith
      obtain ⟨_, s1, s5⟩ := score_chain hx0 hx1
      obtain ⟨hr, l1, l5⟩ := roundSentimentScore_eq s1 s5
      exact ⟨_, _, calculateSentimentScore_eq p n hp hn hpos hfit, hr, l1, l5⟩

/-- C11, witness: `1.5 -> 2`, `2.5 -> 3`, `3.5 -> 4`, `4.5 -> 5` and
`4.6 -> 5`. -/
theorem C11_roundSentimentScore_nearest_witness :
    roundSentimentScore (some (3 / 2)) = some 2 ∧ roundSentimentScore (some (5 / 2)) = some 3 ∧
      roundSentimentScore (some (7 / 2)) = some 4 ∧
      roundSentimentScore (some (9 / 2)) = some 5 ∧
      roundSentimentScore (some (23 / 5)) = some 5 := by
  have key : ∀ (s : ℚ) (k : Int), 1 ≤ s → s ≤ 5 → (k : ℚ) ≤ s + 1 / 2 → s - 1 / 2 < k →
      roundSentimentScore (some s) = some k := by
    intro s k h1 h5 hk1 hk2
    obtain ⟨⟨r, hr, hr1, hr2, _, _⟩, _⟩ :=
      C11_roundSentimentScore_nearest s 0 0 h1 h5 le_rfl le_rfl (by unfold INT_MAX; decide)
    have h3 : (r : ℚ) < k + 1 := by linarith
    have h4 : (k : ℚ) < r + 1 := by linarith
    have h3z : r < k + 1 := by exact_mod_cast h3
    have h4z : k < r + 1 := by exact_mod_cast h4
    have : r = k := by omega
    rw [hr, this]
  exact ⟨key _ 2 (by norm_num) (by norm_num) (by norm_num) (by norm_num),
    key _ 3 (by norm_num) (by norm_num) (by norm_num) (by norm_num),
    key _ 4 (by norm_num) (by norm_num) (by norm_num) (by norm_num),
    key _ 5 (by norm_num) (by norm_num) (by norm_num) (by norm_num),
    key _ 5 (by norm_num) (by norm_num) (by norm_num) (by norm_num)⟩

/-- C11 as stated fails for large counts: `2^29` positive and `2^29` negative
matches are non-negative counts, their score is `-1.0` because the
denominator wraps, and it rounds to `-1`, which is none of `1, ..., 5`. -/
theorem C11_counterexample :
    (0 : Int) ≤ 536870912 ∧
      calculateSentimentScore 536870912 536870912 = some (-1) ∧
      roundSentimentScore (some (-1)) = some (-1) ∧
      ¬ ∃ s r, calculateSentimentScore 536870912 536870912 = some s ∧
        roundSentimentScore (some s) = some r ∧ 1 ≤ r ∧ r ≤ 5 := by
  refine ⟨by decide, calculateSentimentScore_wrapped, roundSentimentScore_neg_one, ?_⟩
  rintro ⟨s, r, hs, hr, h1, _⟩
  rw [calculateSentimentScore_wrapped] at hs
  have hsz : (-1 : ℚ) = s := Option.some.inj hs
  subst hsz
  rw [roundSentimentScore_neg_one] at hr
  have hrz : (-1 : Int) = r := Option.some.inj hr
  omega

/-! ## `countWordsInReviewBinary` -/

open ResizableArray in
/-- The size of a collection that satisfies the class invariant is the length
of its stored sequence. -/
theorem size_eq_length {T : Type} (a : ResizableArray T) (hwf : a.WF) :
    a.size = (a.toList.length : Nat) := by
  rw [length_toList]
  have := hwf.2.2.1
  omega

open ResizableArray in
/-- The conditional `add` of the batch pass: an index other than `-1` is
appended when the collection stays within `2^30` entries. -/
theorem record_spec (c : ResizableArray Int) (i : Int) (hwf : c.WF)
    (hroom : i ≠ -1 → c.size < 1073741824) :
    ∃ c2, (if i ≠ -1 then c.add i else .ok c) = .ok c2 ∧ c2.WF ∧
      c2.toList = c.toList ++ (if i ≠ -1 then some i else none : Option Int).toList := by
  by_cases hi : i ≠ -1
  · have hr : c.size < c.capacity ∨ c.capacity < 1073741824 := by
      have := hwf.2.2.2
      have := hroom hi
      omega
    obtain ⟨c2, hadd, _⟩ := add_spec c i hwf hr
    obtain ⟨hw, _, hl⟩ := add_wf c c2 i hwf hr hadd
    refine ⟨c2, by rw [if_pos hi]; exact hadd, hw, ?_⟩
    rw [hl, if_pos hi]
    rfl
  · refine ⟨c, by rw [if_neg hi], hwf, ?_⟩
    rw [if_neg hi]
    simp

open ResizableArray in
/-- The index recorded for a word in a lexicon of at most `2^30` words. -/
theorem recordedIndex_eq (lexicon : ResizableArray (List Char)) (w : List Char)
    (hwf : lexicon.WF) (hsz : lexicon.size ≤ 1073741824) :
    ∃ i, lexicon.binarySearch w = .ok i ∧
      recordedIndex lexicon w = (if i ≠ -1 then some i else none) := by
  obtain ⟨i, hi, _⟩ := binarySearch_spec lexicon w hwf hsz
  refine ⟨i, hi, ?_⟩
  unfold recordedIndex
  rw [hi]

open ResizableArray in
/-- The loop of `countWordsInReviewBinary` over lexicons of at most `2^30`
words, when both collections of indices stay within `2^30` entries: the
indices recorded for the lower-cased words are appended in order. -/
theorem countWordsInReviewBinaryLoop_spec (pos neg : ResizableArray (List Char))
    (hpw : pos.WF) (hps : pos.size ≤ 1073741824) (hnw : neg.WF) (hns : neg.size ≤ 1073741824) :
    ∀ (words : List (List Char)) (st : BatchCounts), st.posCounts.WF → st.negCounts.WF →
      st.posCounts.size +
        ((words.map (fun w => w.map tolower)).filterMap (recordedIndex pos)).length
          ≤ 1073741824 →
      st.negCounts.size +
        ((words.map (fun w => w.map tolower)).filterMap (recordedIndex neg)).length
          ≤ 1073741824 →
      ∃ r, countWordsInReviewBinaryLoop pos neg words st = .ok r ∧
        r.posCounts.WF ∧ r.negCounts.WF ∧
        r.posCounts.toList = st.posCounts.toList ++
          (words.map (fun w => w.map tolower)).filterMap (recordedIndex pos) ∧
        r.negCounts.toList = st.negCounts.toList ++
          (words.map (fun w => w.map tolower)).filterMap (recordedIndex neg) := by
  intro words
  induction words with
  | nil =>
    intro st hp hn _ _
    exact ⟨st, rfl, hp, hn, by simp, by simp⟩
  | cons word rest ih =>
    intro st hp hn hproom hnroom
    obtain ⟨i, hi, hri⟩ := recordedIndex_eq pos (word.map tolower) hpw hps
    obtain ⟨j, hj, hrj⟩ := recordedIndex_eq neg (word.map tolower) hnw hns
    rw [List.map_cons, List.filterMap_cons, hri] at hproom
    rw [List.map_cons, List.filterMap_cons, hrj] at hnroom
    obtain ⟨c1, hc1, hw1, hl1⟩ := record_spec st.posCounts i hp (by
      intro hne
      rw [if_pos hne] at hproom
      simp only [List.length_cons] at hproom
      push_cast at hproom
      omega)
    obtain ⟨c2, hc2, hw2, hl2⟩ := record_spec st.negCounts j hn (by
      intro hne
      rw [if_pos hne] at hnroom
      simp only [List.length_cons] at hnroom
      push_cast at hnroom
      omega)
    have hs1 := size_eq_length c1 hw1
    have hs2 := size_eq_length c2 hw2
    have hs3 := size_eq_length st.posCounts hp
    have hs4 := size_eq_length st.negCounts hn
    obtain ⟨r, hr, hrw1, hrw2, hrl1, hrl2⟩ := ih { posCounts := c1, negCounts := c2 } hw1 hw2
      (by
        dsimp only
        rw [hs1, hl1, List.length_append]
        rw [hs3] at hproom
        by_cases hne : i ≠ -1
        · rw [if_pos hne] at hproom ⊢
          simp only [List.length_cons, List.length_nil, Option.toList] at hproom ⊢
          push_cast at hproom ⊢
          omega
        · rw [if_neg hne] at hproom ⊢
          simp only [Option.toList, List.length_nil] at hproom ⊢
          push_cast at hproom ⊢
          omega)
      (by
        dsimp only
        rw [hs2, hl2, List.length_append]
        rw [hs4] at hnroom
        by_cases hne : j ≠ -1
        · rw [if_pos hne] at hnroom ⊢
          simp only [List.length_cons, List.length_nil, Option.toList] at hnroom ⊢
          push_cast at hnroom ⊢
          omega
        · rw [if_neg hne] at hnroom ⊢
          simp only [Option.toList, List.length_nil] at hnroom ⊢
          push_cast at hnroom ⊢
          omega)
    dsimp only at hrl1 hrl2
    refine ⟨r, ?_, hrw1, hrw2, ?_, ?_⟩
    · unfold countWordsInReviewBinaryLoop
      simp only [hi, hj, hc1, hc2]
      exact hr
    · rw [hrl1, hl1, List.map_cons, List.filterMap_cons, hri, List.append_assoc]
      by_cases hne : i ≠ -1
      · simp [hne]
      · simp [hne]
    · rw [hrl2, hl2, List.map_cons, List.filterMap_cons, hrj, List.append_assoc]
      by_cases hne : j ≠ -1
      · simp [hne]
      · simp [hne]

open ResizableArray in
/-- An index recorded for a word is the result of the search, is not the
sentinel, and is a position of the lexicon that holds the word. -/
theorem recordedIndex_some (lexicon : ResizableArray (List Char)) (w : List Char) (i : Int)
    (hwf : lexicon.WF) (h : recordedIndex lexicon w = some i) :
    lexicon.binarySearch w = .ok i ∧ i ≠ -1 ∧ 0 ≤ i ∧ i < lexicon.getSize ∧
      lexicon.get i = .ok w := by
  unfold recordedIndex at h
  cases hs : lexicon.binarySearch w with
  | error e =>
    rw [hs] at h
    cases h
  | ok k =>
    rw [hs] at h
    dsimp only at h
    split_ifs at h with hk
    have e : k = i := Option.some.inj h
    subst e
    rcases binarySearch_ok lexicon w hwf k hs with h1 | ⟨h1, h2, h3⟩
    · exact absurd h1 hk
    · exact ⟨rfl, hk, h1, h2, by rw [get_eq lexicon k h1 h2 hwf.2.2.2, h3]⟩

open ResizableArray in
/-- C15 (amended): for lexicons of at most `2^30` words and collections of
indices that stay within `2^30` entries, `countWordsInReviewBinary` returns;
for the tokens in order, with `w` the lower-cased token, it has appended
`positiveWords.binarySearch(w)` to `posCounts` iff that is not `-1`, and
independently `negativeWords.binarySearch(w)` to `negCounts` iff that is not
`-1`; the entries recorded before are kept, and every appended index `i`
satisfies `0 <= i < getSize()` and `get(i) == w` in its lexicon. -/
theorem C15_countWordsInReviewBinary_records (review : List Char)
    (pos neg : ResizableArray (List Char)) (posCounts negCounts : ResizableArray Int)
    (hpw : pos.WF) (hps : pos.size ≤ 1073741824) (hnw : neg.WF) (hns : neg.size ≤ 1073741824)
    (hp : posCounts.WF) (hn : negCounts.WF)
    (hroom1 : posCounts.size +
      (((tokens review).map (fun w => w.map tolower)).filterMap (recordedIndex pos)).length
        ≤ 1073741824)
    (hroom2 : negCounts.size +
      (((tokens review).map (fun w => w.map tolower)).filterMap (recordedIndex neg)).length
        ≤ 1073741824) :
    ∃ r, countWordsInReviewBinary review pos posCounts neg negCounts = .ok r ∧
      r.posCounts.toList = posCounts.toList ++
        ((tokens review).map (fun w => w.map tolower)).filterMap (recordedIndex pos) ∧
      r.negCounts.toList = negCounts.toList ++
        ((tokens review).map (fun w => w.map tolower)).filterMap (recordedIndex neg) ∧
      (∀ w, ∃ i, pos.binarySearch w = .ok i ∧
        recordedIndex pos w = (if i ≠ -1 then some i else none)) ∧
      (∀ w, ∃ i, neg.binarySearch w = .ok i ∧
        recordedIndex neg w = (if i ≠ -1 then some i else none)) ∧
      (∀ w i, recordedIndex pos w = some i →
        0 ≤ i ∧ i < pos.getSize ∧ pos.get i = .ok w) ∧
      (∀ w i, recordedIndex neg w = some i →
        0 ≤ i ∧ i < neg.getSize ∧ neg.get i = .ok w) := by
  obtain ⟨r, hr, _, _, h1, h2⟩ :=
    countWordsInReviewBinaryLoop_spec pos neg hpw hps hnw hns (tokens review)
      { posCounts := posCounts, negCounts := negCounts } hp hn hroom1 hroom2
  refine ⟨r, hr, h1, h2, fun w => recordedIndex_eq pos w hpw hps,
    fun w => recordedIndex_eq neg w hnw hns, ?_, ?_⟩
  · intro w i h
    exact (recordedIndex_some pos w i hpw h).2.2
  · intro w i h
    exact (recordedIndex_some neg w i hnw h).2.2

open ResizableArray in
/-- C15, witness: with the lexicons `great, nice` and `bad`, the review
"Great nice" records the positive indices `0, 1` and no negative index; in
"BAD great," the token `great,` keeps its comma and matches nothing, and
`bad` records the negative index `0`. -/
theorem C15_countWordsInReviewBinary_records_witness :
    greatNice.WF ∧ onlyBad.WF ∧ noCounts.WF ∧
      (∃ r, countWordsInReviewBinary "Great nice".data greatNice noCounts onlyBad noCounts
          = .ok r ∧ r.posCounts.toList = [0, 1] ∧ r.negCounts.toList = []) ∧
      (countWordsInReviewBinary "BAD great,".data greatNice noCounts onlyBad noCounts).map
          (fun r => (r.posCounts.toList, r.negCounts.toList)) = .ok ([], [0]) := by
  have w1 : greatNice.WF := by unfold WF INT_MAX greatNice; decide
  have w2 : onlyBad.WF := by unfold WF INT_MAX onlyBad; decide
  have w3 : noCounts.WF := by unfold WF INT_MAX noCounts; decide
  have e1 : ((tokens "Great nice".data).map (fun w => w.map tolower)).filterMap
      (recordedIndex greatNice) = [0, 1] := by rfl
  have e2 : ((tokens "Great nice".data).map (fun w => w.map tolower)).filterMap
      (recordedIndex onlyBad) = [] := by rfl
  obtain ⟨r, hr, h1, h2, _⟩ :=
    C15_countWordsInReviewBinary_records "Great nice".data greatNice onlyBad noCounts noCounts
      w1 (by unfold greatNice; decide) w2 (by unfold onlyBad; decide) w3 w3
      (by rw [e1]; unfold noCounts; decide) (by rw [e2]; unfold noCounts; decide)
  rw [e1] at h1
  rw [e2] at h2
  exact ⟨w1, w2, w3, ⟨r, hr, h1, h2⟩, by rfl⟩

open ResizableArray in
/-- C15 as stated fails: the sorted positive lexicon of `2^30 + 1` words holds
`b` at index `2^30`, but for the review "B" the search reads outside the block
and nothing is recorded. -/
theorem C15_counterexample :
    bigLexicon.WF ∧ bigLexicon.Sorted ∧ onlyBad.WF ∧ onlyBad.Sorted ∧ noCounts.WF ∧
      bigLexicon.get 1073741824 = .ok ("B".data.map tolower) ∧
      countWordsInReviewBinary "B".data bigLexicon noCounts onlyBad noCounts
        = .error .wild_access ∧
      ¬ ∃ r, countWordsInReviewBinary "B".data bigLexicon noCounts onlyBad noCounts = .ok r := by
  have hrun : countWordsInReviewBinary "B".data bigLexicon noCounts onlyBad noCounts
      = .error .wild_access := by rfl
  refine ⟨by unfold WF INT_MAX bigLexicon; decide, bigLexicon_sorted,
    by unfold WF INT_MAX onlyBad; decide, onlyBad_sorted,
    by unfold WF INT_MAX noCounts; decide, by rfl, hrun, ?_⟩
  rintro ⟨r, h⟩
  rw [hrun] at h
  cases h

/-! ## `performSemanticAnalysis` -/

open ResizableArray in
/-- Whenever the conditional `add` of the batch pass returns, the class
invariant holds and the stored sequence has grown by the index, if it is not
`-1`. -/
theorem record_ok (c c2 : ResizableArray Int) (i : Int) (hwf : c.WF)
    (h : (if i ≠ -1 then c.add i else .ok c) = .ok c2) :
    c2.WF ∧ c2.toList = c.toList ++ (if i ≠ -1 then [i] else []) := by
  by_cases hi : i ≠ -1
  · rw [if_pos hi] at h ⊢
    obtain ⟨hw, _, hl, _⟩ := add_ok c c2 i hwf h
    exact ⟨hw, hl⟩
  · rw [if_neg hi] at h ⊢
    have e : c = c2 := Except.ok.inj h
    subst e
    exact ⟨hwf, by simp⟩

open ResizableArray in
/-- Whenever the loop of `countWordsInReviewBinary` returns, for lexicons of
any size, entries that were positions of their lexicon before are so
afterwards. -/
theorem countWordsInReviewBinaryLoop_ok (pos neg : ResizableArray (List Char))
    (hpw : pos.WF) (hnw : neg.WF) :
    ∀ (words : List (List Char)) (st r : BatchCounts), st.posCounts.WF → st.negCounts.WF →
      (∀ i ∈ st.posCounts.toList, 0 ≤ i ∧ i < pos.size) →
      (∀ i ∈ st.negCounts.toList, 0 ≤ i ∧ i < neg.size) →
      countWordsInReviewBinaryLoop pos neg words st = .ok r →
      r.posCounts.WF ∧ r.negCounts.WF ∧
        (∀ i ∈ r.posCounts.toList, 0 ≤ i ∧ i < pos.size) ∧
        (∀ i ∈ r.negCounts.toList, 0 ≤ i ∧ i < neg.size) := by
  intro words
  induction words with
  | nil =>
    intro st r hp hn hpv hnv hrun
    unfold countWordsInReviewBinaryLoop at hrun
    have e : st = r := Except.ok.inj hrun
    subst e
    exact ⟨hp, hn, hpv, hnv⟩
  | cons word rest ih =>
    intro st r hp hn hpv hnv hrun
    unfold countWordsInReviewBinaryLoop at hrun
    cases h1 : pos.binarySearch (word.map tolower) with
    | error e =>
      simp only [h1] at hrun
      cases hrun
    | ok i =>
      cases h2 : neg.binarySearch (word.map tolower) with
      | error e =>
        simp only [h1, h2] at hrun
        cases hrun
      | ok j =>
        cases h3 : (if i ≠ -1 then st.posCounts.add i else .ok st.posCounts) with
        | error e =>
          simp only [h1, h2, h3] at hrun
          cases hrun
        | ok c1 =>
          cases h4 : (if j ≠ -1 then st.negCounts.add j else .ok st.negCounts) with
          | error e =>
            simp only [h1, h2, h3, h4] at hrun
            cases hrun
          | ok c2 =>
            simp only [h1, h2, h3, h4] at hrun
            obtain ⟨hw1, hl1⟩ := record_ok st.posCounts c1 i hp h3
            obtain ⟨hw2, hl2⟩ := record_ok st.negCounts c2 j hn h4
            refine ih { posCounts := c1, negCounts := c2 } r hw1 hw2 ?_ ?_ hrun
            · intro k hk
              show 0 ≤ k ∧ k < pos.size
              rw [show ({ posCounts := c1, negCounts := c2 } : BatchCounts).posCounts = c1
                from rfl, hl1, List.mem_append] at hk
              rcases hk with hk | hk
              · exact hpv k hk
              · split_ifs at hk with hi
                · rw [List.mem_singleton] at hk
                  subst hk
                  rcases binarySearch_ok pos _ hpw k h1 with h | ⟨a1, a2, _⟩
                  · exact absurd h hi
                  · exact ⟨a1, a2⟩
                · cases hk
            · intro k hk
              show 0 ≤ k ∧ k < neg.size
              rw [show ({ posCounts := c1, negCounts := c2 } : BatchCounts).negCounts = c2
                from rfl, hl2, List.mem_append] at hk
              rcases hk with hk | hk
              · exact hnv k hk
              · split_ifs at hk with hj
                · rw [List.mem_singleton] at hk
                  subst hk
                  rcases binarySearch_ok neg _ hnw k h2 with h | ⟨a1, a2, _⟩
                  · exact absurd h hj
                  · exact ⟨a1, a2⟩
                · cases hk

open ResizableArray in
/-- Whenever the loop of `performSemanticAnalysis` returns, entries that were
positions of their lexicon before are so afterwards. -/
theorem performSemanticAnalysisLoop_ok (reviews pos neg : ResizableArray (List Char))
    (hpw : pos.WF) (hnw : neg.WF) :
    ∀ (fuel : Nat) (i : Int) (st r : BatchCounts), st.posCounts.WF → st.negCounts.WF →
      (∀ k ∈ st.posCounts.toList, 0 ≤ k ∧ k < pos.size) →
      (∀ k ∈ st.negCounts.toList, 0 ≤ k ∧ k < neg.size) →
      performSemanticAnalysisLoop reviews pos neg fuel i st = .ok r →
      r.posCounts.WF ∧ r.negCounts.WF ∧
        (∀ k ∈ r.posCounts.toList, 0 ≤ k ∧ k < pos.size) ∧
        (∀ k ∈ r.negCounts.toList, 0 ≤ k ∧ k < neg.size) := by
  intro fuel
  induction fuel with
  | zero =>
    intro i st r hp hn hpv hnv hrun
    unfold performSemanticAnalysisLoop at hrun
    split_ifs at hrun
    have e : st = r := Except.ok.inj hrun
    subst e
    exact ⟨hp, hn, hpv, hnv⟩
  | succ n ih =>
    intro i st r hp hn hpv hnv hrun
    unfold performSemanticAnalysisLoop at hrun
    split_ifs at hrun with hi
    · cases h1 : reviews.get i with
      | error e =>
        simp only [h1] at hrun
        cases hrun
      | ok review =>
        cases h2 : countWordsInReviewBinary review pos st.posCounts neg st.negCounts with
        | error e =>
          simp only [h1, h2] at hrun
          cases hrun
        | ok st2 =>
          simp only [h1, h2] at hrun
          obtain ⟨a1, a2, a3, a4⟩ :=
            countWordsInReviewBinaryLoop_ok pos neg hpw hnw (tokens review)
              { posCounts := st.posCounts, negCounts := st.negCounts } st2 hp hn hpv hnv h2
          exact ih _ st2 r a1 a2 a3 a4 hrun
    · have e : st = r := Except.ok.inj hrun
      subst e
      exact ⟨hp, hn, hpv, hnv⟩

/-- The occurrences of the positions `0, ..., n - 1` in a list of such
positions add up to the length of the list. -/
theorem sum_count_eq_length (l : List Int) (n : Nat) (h : ∀ x ∈ l, 0 ≤ x ∧ x < n) :
    ∑ i in Finset.range n, ((l.count (i : Int) : Nat) : Int) = (l.length : Nat) := by
  induction l with
  | nil => simp
  | cons x xs ih =>
    have hx := h x (List.mem_cons_self x xs)
    have ih2 := ih (fun y hy => h y (List.mem_cons_of_mem x hy))
    have hone : ∑ i in Finset.range n, (if x = (i : Int) then (1 : Int) else 0) = 1 := by
      have e : ∀ i ∈ Finset.range n,
          (if x = (i : Int) then (1 : Int) else 0) = (if x.toNat = i then 1 else 0) := by
        intro i _
        by_cases hxi : x = (i : Int)
        · rw [if_pos hxi, if_pos (by omega)]
        · rw [if_neg hxi, if_neg (by omega)]
      rw [Finset.sum_congr rfl e, Finset.sum_ite_eq]
      rw [if_pos (Finset.mem_range.mpr (by omega))]
    have hstep : ∀ i ∈ Finset.range n, (((x :: xs).count (i : Int) : Nat) : Int) =
        ((xs.count (i : Int) : Nat) : Int) + (if x = (i : Int) then (1 : Int) else 0) := by
      intro i _
      rw [List.count_cons]
      by_cases hxi : x = (i : Int)
      · simp [hxi]
      · simp [hxi]
    rw [Finset.sum_congr rfl hstep, Finset.sum_add_distrib, ih2, hone, List.length_cons]
    push_cast
    ring

open ResizableArray in
/-- The loop of `performSemanticAnalysis` returns when the lexicons have at
most `2^30` words and the collections of indices have room for one entry per
token of the reviews that remain. -/
theorem performSemanticAnalysisLoop_returns (reviews pos neg : ResizableArray (List Char))
    (hrw : reviews.WF) (hpw : pos.WF) (hps : pos.size ≤ 1073741824) (hnw : neg.WF)
    (hns : neg.size ≤ 1073741824) :
    ∀ (fuel : Nat) (i : Int) (st : BatchCounts), 0 ≤ i → i ≤ reviews.size →
      reviews.size - i ≤ fuel → st.posCounts.WF → st.negCounts.WF →
      st.posCounts.size +
        (((reviews.toList.drop i.toNat).map (fun t => (tokens t).length)).sum : Nat)
          ≤ 1073741824 →
      st.negCounts.size +
        (((reviews.toList.drop i.toNat).map (fun t => (tokens t).length)).sum : Nat)
          ≤ 1073741824 →
      ∃ r, performSemanticAnalysisLoop reviews pos neg fuel i st = .ok r := by
  obtain ⟨hc1, hc2, hs0, hsc⟩ := hrw
  intro fuel
  induction fuel with
  | zero =>
    intro i st h0 hi hf _ _ _ _
    refine ⟨st, ?_⟩
    unfold performSemanticAnalysisLoop
    rw [if_neg (by show ¬ i < reviews.size; omega)]
  | succ n ih =>
    intro i st h0 hi hf hp hn hproom hnroom
    by_cases hlt : i < reviews.size
    · have hg := get_eq reviews i h0 hlt hsc
      have e1 : iadd i 1 = i + 1 :=
        iadd_eq (by unfold INT_MIN; omega) (by unfold INT_MAX at *; omega)
      rw [toList_drop reviews i h0 hlt, List.map_cons, List.sum_cons, Nat.cast_add]
        at hproom hnroom
      have hlen1 := List.length_filterMap_le (recordedIndex pos)
        ((tokens (reviews.data i)).map (fun w => w.map tolower))
      have hlen2 := List.length_filterMap_le (recordedIndex neg)
        ((tokens (reviews.data i)).map (fun w => w.map tolower))
      rw [List.length_map] at hlen1 hlen2
      obtain ⟨st2, hrun, hw1, hw2, hl1, hl2⟩ :=
        countWordsInReviewBinaryLoop_spec pos neg hpw hps hnw hns (tokens (reviews.data i))
          { posCounts := st.posCounts, negCounts := st.negCounts } hp hn
          (by dsimp only; omega) (by dsimp only; omega)
      dsimp only at hl1 hl2
      have hs1 := size_eq_length st2.posCounts hw1
      have hs2 := size_eq_length st2.negCounts hw2
      have hs3 := size_eq_length st.posCounts hp
      have hs4 := size_eq_length st.negCounts hn
      rw [hl1, List.length_append] at hs1
      rw [hl2, List.length_append] at hs2
      push_cast at hs1 hs2
      obtain ⟨r, hr⟩ := ih (i + 1) st2 (by omega) (by omega) (by omega) hw1 hw2 (by omega)
        (by omega)
      refine ⟨r, ?_⟩
      unfold performSemanticAnalysisLoop
      rw [if_pos (by show i < reviews.size; exact hlt)]
      simp only [hg, e1]
      have hrun2 : countWordsInReviewBinary (reviews.data i) pos st.posCounts neg st.negCounts
          = .ok st2 := hrun
      simp only [hrun2]
      exact hr
    · refine ⟨st, ?_⟩
      unfold performSemanticAnalysisLoop
      rw [if_neg (by show ¬ i < reviews.size; exact hlt)]

open ResizableArray in
/-- C19: whenever `performSemanticAnalysis` returns from empty collections of
indices, every recorded entry is a position of its lexicon, so the counts of
`countOccurrences(posCounts, i)` over the lexicon positions `i` in
`[0, positiveWords.getSize())` add up to `posCounts.getSize()`, and likewise
for the negative lexicon and `negCounts`. It does return when the lexicons
have at most `2^30` words and the reviews at most `2^30` tokens in all. -/
theorem C19_frequencies_add_up (reviews pos neg : ResizableArray (List Char))
    (posCounts negCounts : ResizableArray Int) (hrw : reviews.WF) (hpw : pos.WF) (hnw : neg.WF)
    (hp : posCounts.WF) (hn : negCounts.WF) (hp0 : posCounts.size = 0)
    (hn0 : negCounts.size = 0) :
    (∀ r, performSemanticAnalysis reviews pos posCounts neg negCounts = .ok r →
      (∃ f : Int → Int, (∀ i, countOccurrences r.posCounts i = .ok (f i)) ∧
        ∑ i in Finset.range pos.getSize.toNat, f i = r.posCounts.getSize) ∧
      (∃ g : Int → Int, (∀ i, countOccurrences r.negCounts i = .ok (g i)) ∧
        ∑ i in Finset.range neg.getSize.toNat, g i = r.negCounts.getSize) ∧
      (∀ k ∈ r.posCounts.toList, 0 ≤ k ∧ k < pos.getSize) ∧
      (∀ k ∈ r.negCounts.toList, 0 ≤ k ∧ k < neg.getSize)) ∧
    (pos.size ≤ 1073741824 → neg.size ≤ 1073741824 →
      ((reviews.toList.map (fun t => (tokens t).length)).sum : Int) ≤ 1073741824 →
      ∃ r, performSemanticAnalysis reviews pos posCounts neg negCounts = .ok r) := by
  have hempty : ∀ c : ResizableArray Int, c.size = 0 → c.toList = [] := by
    intro c hc
    unfold toList
    rw [hc]
    rfl
  constructor
  · intro r hrun
    obtain ⟨hw1, hw2, hv1, hv2⟩ :=
      performSemanticAnalysisLoop_ok reviews pos neg hpw hnw _ 0
        { posCounts := posCounts, negCounts := negCounts } r hp hn
        (by intro k hk; rw [show ({ posCounts := posCounts, negCounts := negCounts } :
          BatchCounts).posCounts = posCounts from rfl, hempty posCounts hp0] at hk; cases hk)
        (by intro k hk; rw [show ({ posCounts := posCounts, negCounts := negCounts } :
          BatchCounts).negCounts = negCounts from rfl, hempty negCounts hn0] at hk; cases hk)
        hrun
    have key : ∀ (c : ResizableArray Int) (lex : ResizableArray (List Char)), c.WF → lex.WF →
        (∀ k ∈ c.toList, 0 ≤ k ∧ k < lex.size) →
        ∃ f : Int → Int, (∀ i, countOccurrences c i = .ok (f i)) ∧
          ∑ i in Finset.range lex.getSize.toNat, f i = c.getSize := by
      intro c lex hc hlex hv
      refine ⟨fun i => ((c.toList.count i : Nat) : Int),
        fun i => countOccurrences_eq c i hc, ?_⟩
      have := sum_count_eq_length c.toList lex.size.toNat (by
        intro x hx
        have := hv x hx
        have := hlex.2.2.1
        omega)
      rw [show lex.getSize = lex.size from rfl, this, show c.getSize = c.size from rfl,
        size_eq_length c hc]
    exact ⟨key r.posCounts pos hw1 hpw hv1, key r.negCounts neg hw2 hnw hv2, hv1, hv2⟩
  · intro hps hns htok
    have h0 := hrw.2.2.1
    exact performSemanticAnalysisLoop_returns reviews pos neg hrw hpw hps hnw hns
      reviews.getSize.toNat 0 { posCounts := posCounts, negCounts := negCounts } le_rfl h0
      (by show reviews.size - 0 ≤ ((reviews.size.toNat : Nat) : Int); omega) hp hn
      (by
        show posCounts.size + _ ≤ _
        rw [hp0]
        simpa using htok)
      (by
        show negCounts.size + _ ≤ _
        rw [hn0]
        simpa using htok)

open ResizableArray in
/-- C19, witness: the reviews "Great nice" and "BAD great," over the lexicons
`great, nice` and `bad` record the positive indices `0, 1` and the negative
index `0`; the frequencies `1 + 1` and `1` add up to the sizes `2` and `1`. -/
theorem C19_frequencies_add_up_witness :
    twoReviews.WF ∧ greatNice.WF ∧ onlyBad.WF ∧ noCounts.WF ∧ noCounts.size = 0 ∧
      (performSemanticAnalysis twoReviews greatNice noCounts onlyBad noCounts).map
        (fun r => (r.posCounts.toList, r.negCounts.toList)) = .ok ([0, 1], [0]) ∧
      ∃ r, performSemanticAnalysis twoReviews greatNice noCounts onlyBad noCounts = .ok r ∧
        (∃ f : Int → Int, (∀ i, countOccurrences r.posCounts i = .ok (f i)) ∧
          ∑ i in Finset.range greatNice.getSize.toNat, f i = r.posCounts.getSize) ∧
        (∃ g : Int → Int, (∀ i, countOccurrences r.negCounts i = .ok (g i)) ∧
          ∑ i in Finset.range onlyBad.getSize.toNat, g i = r.negCounts.getSize) := by
  have w0 : twoReviews.WF := by unfold WF INT_MAX twoReviews; decide
  have w1 : greatNice.WF := by unfold WF INT_MAX greatNice; decide
  have w2 : onlyBad.WF := by unfold WF INT_MAX onlyBad; decide
  have w3 : noCounts.WF := by unfold WF INT_MAX noCounts; decide
  obtain ⟨hpart, hret⟩ :=
    C19_frequencies_add_up twoReviews greatNice onlyBad noCounts noCounts w0 w1 w2 w3 w3 rfl rfl
  obtain ⟨r, hr⟩ := hret (by unfold greatNice; decide) (by unfold onlyBad; decide) (by decide)
  obtain ⟨h1, h2, _, _⟩ := hpart r hr
  exact ⟨w0, w1, w2, w3, rfl, by rfl, r, hr, h1, h2⟩

/-! ## The single-review path -/

open ResizableArray in
/-- Whenever the loop of `countWordsInReview` returns, for lexicons of any
size, the found lists satisfy the class invariant and have grown by words that
are cleaned tokens and elements of the respective lexicon, and each count has
grown by the number of words appended to its list. -/
theorem countWordsInReviewLoop_ok (pos neg : ResizableArray (List Char))
    (hpw : pos.WF) (hnw : neg.WF) :
    ∀ (words : List (List Char)) (st r : ReviewCounts),
      st.positiveWordsFound.WF → st.negativeWordsFound.WF →
      (0 ≤ st.positiveCount ∧ st.positiveCount ≤ st.positiveWordsFound.size) →
      (0 ≤ st.negativeCount ∧ st.negativeCount ≤ st.negativeWordsFound.size) →
      countWordsInReviewLoop pos neg words st = .ok r →
      r.positiveWordsFound.WF ∧ r.negativeWordsFound.WF ∧
        ∃ A B, r.positiveWordsFound.toList = st.positiveWordsFound.toList ++ A ∧
          r.negativeWordsFound.toList = st.negativeWordsFound.toList ++ B ∧
          (∀ w ∈ A, w ∈ pos.toList ∧ ∃ t ∈ words, w = cleanWord t) ∧
          (∀ w ∈ B, w ∈ neg.toList ∧ ∃ t ∈ words, w = cleanWord t) ∧
          r.positiveCount = st.positiveCount + (A.length : Nat) ∧
          r.negativeCount = st.negativeCount + (B.length : Nat) := by
  intro words
  induction words with
  | nil =>
    intro st r hp hn _ _ hrun
    unfold countWordsInReviewLoop at hrun
    have e : st = r := Except.ok.inj hrun
    subst e
    exact ⟨hp, hn, [], [], by simp, by simp, by simp, by simp, by simp, by simp⟩
  | cons word rest ih =>
    intro st r hp hn hpc hnc hrun
    have lift : ∀ (st2 : ReviewCounts) (A0 B0 : List (List Char)),
        st2.positiveWordsFound.WF → st2.negativeWordsFound.WF →
        st2.positiveWordsFound.toList = st.positiveWordsFound.toList ++ A0 →
        st2.negativeWordsFound.toList = st.negativeWordsFound.toList ++ B0 →
        (∀ w ∈ A0, w ∈ pos.toList ∧ w = cleanWord word) →
        (∀ w ∈ B0, w ∈ neg.toList ∧ w = cleanWord word) →
        (0 ≤ st2.positiveCount ∧ st2.positiveCount ≤ st2.positiveWordsFound.size) →
        (0 ≤ st2.negativeCount ∧ st2.negativeCount ≤ st2.negativeWordsFound.size) →
        st2.positiveCount = st.positiveCount + (A0.length : Nat) →
        st2.negativeCount = st.negativeCount + (B0.length : Nat) →
        countWordsInReviewLoop pos neg rest st2 = .ok r →
        r.positiveWordsFound.WF ∧ r.negativeWordsFound.WF ∧
          ∃ A B, r.positiveWordsFound.toList = st.positiveWordsFound.toList ++ A ∧
            r.negativeWordsFound.toList = st.negativeWordsFound.toList ++ B ∧
            (∀ w ∈ A, w ∈ pos.toList ∧ ∃ t ∈ word :: rest, w = cleanWord t) ∧
            (∀ w ∈ B, w ∈ neg.toList ∧ ∃ t ∈ word :: rest, w = cleanWord t) ∧
            r.positiveCount = st.positiveCount + (A.length : Nat) ∧
            r.negativeCount = st.negativeCount + (B.length : Nat) := by
      intro st2 A0 B0 h1 h2 e1 e2 hA hB c1 c2 d1 d2 hr
      obtain ⟨w1, w2, A, B, f1, f2, g1, g2, k1, k2⟩ := ih st2 r h1 h2 c1 c2 hr
      refine ⟨w1, w2, A0 ++ A, B0 ++ B, by rw [f1, e1, List.append_assoc],
        by rw [f2, e2, List.append_assoc], ?_, ?_, ?_, ?_⟩
      · intro w hw
        rcases List.mem_append.mp hw with h | h
        · exact ⟨(hA w h).1, word, List.mem_cons_self _ _, (hA w h).2⟩
        · obtain ⟨m, t, ht, e⟩ := g1 w h
          exact ⟨m, t, List.mem_cons_of_mem _ ht, e⟩
      · intro w hw
        rcases List.mem_append.mp hw with h | h
        · exact ⟨(hB w h).1, word, List.mem_cons_self _ _, (hB w h).2⟩
        · obtain ⟨m, t, ht, e⟩ := g2 w h
          exact ⟨m, t, List.mem_cons_of_mem _ ht, e⟩
      · rw [k1, d1, List.length_append, Nat.cast_add]
        ring
      · rw [k2, d2, List.length_append, Nat.cast_add]
        ring
    have found : ∀ (lex : ResizableArray (List Char)) (i : Int), lex.WF →
        lex.binarySearch (cleanWord word) = .ok i → i ≠ -1 → cleanWord word ∈ lex.toList := by
      intro lex i hl hs hi
      rcases binarySearch_ok lex _ hl i hs with h | ⟨a1, a2, a3⟩
      · exact absurd h hi
      · exact (mem_toList lex _).mpr ⟨i, a1, a2, a3⟩
    have bump : ∀ (count : Int) (c found0 : ResizableArray (List Char)), c.WF →
        c.size = found0.size + 1 → 0 ≤ count → count ≤ found0.size →
        iadd count 1 = count + 1 := by
      intro count c found0 hc hs h0 h1
      obtain ⟨_, hmax, _, hcap⟩ := hc
      exact iadd_eq (by unfold INT_MIN; omega) (by unfold INT_MAX at *; omega)
    unfold countWordsInReviewLoop at hrun
    cases h1 : pos.binarySearch (cleanWord word) with
    | error e =>
      simp only [h1] at hrun
      cases hrun
    | ok i =>
      simp only [h1] at hrun
      by_cases hi : i ≠ -1
      · rw [if_pos hi] at hrun
        cases h3 : st.positiveWordsFound.add (cleanWord word) with
        | error e =>
          simp only [h3] at hrun
          cases hrun
        | ok c =>
          simp only [h3] at hrun
          obtain ⟨hw, hs, hl, _⟩ := add_ok _ _ _ hp h3
          have hb := bump st.positiveCount c st.positiveWordsFound hw hs hpc.1 hpc.2
          refine lift _ [cleanWord word] [] ?_ ?_ ?_ ?_ ?_ ?_ ?_ ?_ ?_ ?_ hrun
          · exact hw
          · exact hn
          · exact hl
          · simp
          · intro w hw2
            rw [List.mem_singleton] at hw2
            subst hw2
            exact ⟨found pos i hpw h1 hi, rfl⟩
          · intro w hw2
            cases hw2
          · show 0 ≤ iadd st.positiveCount 1 ∧ iadd st.positiveCount 1 ≤ c.size
            rw [hb, hs]
            omega
          · exact hnc
          · show iadd st.positiveCount 1 = st.positiveCount + ([cleanWord word].length : Nat)
            rw [hb]
            simp
          · simp
      · rw [if_neg hi] at hrun
        cases h2 : neg.binarySearch (cleanWord word) with
        | error e =>
          simp only [h2] at hrun
          cases hrun
        | ok j =>
          simp only [h2] at hrun
          by_cases hj : j ≠ -1
          · rw [if_pos hj] at hrun
            cases h3 : st.negativeWordsFound.add (cleanWord word) with
            | error e =>
              simp only [h3] at hrun
              cases hrun
            | ok c =>
              simp only [h3] at hrun
              obtain ⟨hw, hs, hl, _⟩ := add_ok _ _ _ hn h3
              have hb := bump st.negativeCount c st.negativeWordsFound hw hs hnc.1 hnc.2
              refine lift _ [] [cleanWord word] ?_ ?_ ?_ ?_ ?_ ?_ ?_ ?_ ?_ ?_ hrun
              · exact hp
              · exact hw
              · simp
              · exact hl
              · intro w hw2
                cases hw2
              · intro w hw2
                rw [List.mem_singleton] at hw2
                subst hw2
                exact ⟨found neg j hnw h2 hj, rfl⟩
              · exact hpc
              · show 0 ≤ iadd st.negativeCount 1 ∧ iadd st.negativeCount 1 ≤ c.size
                rw [hb, hs]
                omega
              · simp
              · show iadd st.negativeCount 1 = st.negativeCount + ([cleanWord word].length : Nat)
                rw [hb]
                simp
          · rw [if_neg hj] at hrun
            exact lift st [] [] hp hn (by simp) (by simp) (by intro w hw2; cases hw2)
              (by intro w hw2; cases hw2) hpc hnc (by simp) (by simp) hrun

namespace ResizableArray

variable {T : Type}

/-- The search for an element below every stored element goes left in every
iteration, so `low + high` never overflows: it returns `-1` on a collection of
any size. -/
theorem binarySearchLoop_below [LinearOrder T] (a : ResizableArray T) (x : T)
    (hcap : a.size ≤ a.capacity) (hmax : a.capacity ≤ INT_MAX)
    (hlow : ∀ i, 0 ≤ i → i < a.size → x < a.data i) :
    ∀ (fuel : Nat) (high : Int), high < a.size → high + 1 ≤ fuel →
      binarySearchLoop a x fuel 0 high = .ok (-1) := by
  intro fuel
  induction fuel with
  | zero =>
    intro high _ hf
    unfold binarySearchLoop
    rw [if_neg (by omega)]
  | succ n ih =>
    intro high hhi hf
    by_cases hle : (0 : Int) ≤ high
    · have hmid : idiv (iadd 0 high) 2 = (0 + high) / 2 := mid_eq le_rfl hle (by omega)
      rw [zero_add] at hmid
      have hread : a.read (high / 2) = .ok (a.data (high / 2)) := by
        unfold read readCell
        rw [if_pos ⟨by omega, by omega⟩]
      have hprev : isub (high / 2) 1 = high / 2 - 1 :=
        isub_eq (by unfold INT_MIN; omega) (by unfold INT_MAX at *; omega)
      have hx := hlow (high / 2) (by omega) (by omega)
      unfold binarySearchLoop
      simp only [if_pos hle, hmid, hread, hprev, if_neg (ne_of_gt hx), if_neg (not_lt_of_gt hx)]
      exact ih _ (by omega) (by omega)
    · unfold binarySearchLoop
      rw [if_neg hle]

theorem binarySearch_below [LinearOrder T] (a : ResizableArray T) (x : T) (hwf : a.WF)
    (hlow : ∀ i, 0 ≤ i → i < a.size → x < a.data i) : binarySearch a x = .ok (-1) := by
  obtain ⟨_, hmax, h0, hcap⟩ := hwf
  have hhigh : isub a.size 1 = a.size - 1 :=
    isub_eq (by unfold INT_MIN; omega) (by unfold INT_MAX at *; omega)
  unfold binarySearch
  rw [hhigh]
  exact binarySearchLoop_below a x hcap hmax hlow _ _ (by omega) (by omega)

end ResizableArray

open ResizableArray in
/-- The search for the empty word in a lexicon without it. -/
theorem binarySearch_empty_word (lex : ResizableArray (List Char)) (hwf : lex.WF)
    (h : [] ∉ lex.toList) : lex.binarySearch [] = .ok (-1) := by
  apply binarySearch_below lex [] hwf
  intro i h0 hi
  cases hd : lex.data i with
  | nil => exact absurd ((mem_toList lex []).mpr ⟨i, h0, hi, hd⟩) h
  | cons c cs => exact List.nil_lt_cons c cs

/-- A word without any alphanumeric character is cleaned to the empty word. -/
theorem cleanWord_of_no_alnum (tok : List Char) (h : ∀ c ∈ tok, isalnum c = false) :
    cleanWord tok = [] := by
  rw [cleanWord_eq, List.filter_eq_nil_iff.mpr (fun c hc => by simp [h c hc])]
  rfl

open ResizableArray in
/-- A token without any alphanumeric character, anywhere among the words,
leaves the run of the loop as it is without the token, when neither lexicon
has the empty word. -/
theorem countWordsInReviewLoop_skip (pos neg : ResizableArray (List Char))
    (hpw : pos.WF) (hnw : neg.WF) (hpe : [] ∉ pos.toList) (hne : [] ∉ neg.toList)
    (tok : List Char) (htok : ∀ c ∈ tok, isalnum c = false) (post : List (List Char)) :
    ∀ (pre : List (List Char)) (st : ReviewCounts),
      countWordsInReviewLoop pos neg (pre ++ tok :: post) st =
        countWordsInReviewLoop pos neg (pre ++ post) st := by
  intro pre
  induction pre with
  | nil =>
    intro st
    rw [List.nil_append, List.nil_append]
    conv_lhs => unfold countWordsInReviewLoop
    simp only [cleanWord_of_no_alnum tok htok, binarySearch_empty_word pos hpw hpe,
      binarySearch_empty_word neg hnw hne, ne_eq, not_true_eq_false, if_false]
  | cons p pre ih =>
    intro st
    rw [List.cons_append, List.cons_append]
    conv_lhs => unfold countWordsInReviewLoop
    conv_rhs => unfold countWordsInReviewLoop
    simp only [ih]

/-- Every character of a cleaned word is a lowercase letter or a digit. -/
theorem cleanWord_chars (t : List Char) :
    ∀ c ∈ cleanWord t, c.isLower = true ∨ c.isDigit = true := by
  intro c hc
  rw [cleanWord_eq, List.mem_map] at hc
  obtain ⟨d, hd, e⟩ := hc
  rw [← e]
  exact tolower_isalnum d (List.mem_filter.mp hd).2

/-- Lowercase letters and digits are alphanumeric. -/
theorem isalnum_of_lower_or_digit (c : Char) (h : c.isLower = true ∨ c.isDigit = true) :
    isalnum c = true := by
  unfold isalnum Char.isAlphanum Char.isAlpha
  rcases h with h | h
  · simp [h]
  · simp [h]

open ResizableArray in
/-- C20: whenever `countWordsInReview` returns, the words appended to
`positiveWordsFound` and `negativeWordsFound` consist only of lowercase letters
and digits and are elements of the positive, respectively negative, lexicon,
and the counts are the numbers of appended words; so a word with a
non-alphanumeric character, such as a hyphenated lexicon entry, is never among
them. When neither lexicon has the empty word, a token without any
alphanumeric character anywhere among the tokens leaves the run as it is
without that token. And `countWordsInReview` does return for sorted lexicons of
at most `2^30` words and found lists with room. -/
theorem C20_found_words_are_clean (review : List Char)
    (pos neg found1 found2 : ResizableArray (List Char))
    (hpw : pos.WF) (hnw : neg.WF) (hf1 : found1.WF) (hf2 : found2.WF) :
    (∀ r, countWordsInReview review pos neg found1 found2 = .ok r →
      ∃ A B, r.positiveWordsFound.toList = found1.toList ++ A ∧
        r.negativeWordsFound.toList = found2.toList ++ B ∧
        r.positiveCount = (A.length : Nat) ∧ r.negativeCount = (B.length : Nat) ∧
        (∀ w ∈ A, w ∈ pos.toList ∧ ∀ c ∈ w, c.isLower = true ∨ c.isDigit = true) ∧
        (∀ w ∈ B, w ∈ neg.toList ∧ ∀ c ∈ w, c.isLower = true ∨ c.isDigit = true) ∧
        (∀ e : List Char, (∃ c ∈ e, isalnum c = false) → e ∉ A ∧ e ∉ B)) ∧
    (∀ (pre : List (List Char)) (tok : List Char) (post : List (List Char))
        (st : ReviewCounts),
      (∀ c ∈ tok, isalnum c = false) → [] ∉ pos.toList → [] ∉ neg.toList →
      countWordsInReviewLoop pos neg (pre ++ tok :: post) st =
        countWordsInReviewLoop pos neg (pre ++ post) st) ∧
    (pos.Sorted → pos.size ≤ 1073741824 → neg.Sorted → neg.size ≤ 1073741824 →
      found1.size + ((tokens review).length : Nat) ≤ 1073741824 →
      found2.size + ((tokens review).length : Nat) ≤ 1073741824 →
      ∃ r, countWordsInReview review pos neg found1 found2 = .ok r) := by
  refine ⟨?_, ?_, ?_⟩
  · intro r hrun
    unfold countWordsInReview at hrun
    obtain ⟨_, _, A, B, e1, e2, g1, g2, k1, k2⟩ :=
      countWordsInReviewLoop_ok pos neg hpw hnw (tokens review) _ r hf1 hf2
        ⟨le_rfl, hf1.2.2.1⟩ ⟨le_rfl, hf2.2.2.1⟩ hrun
    have cA : ∀ w ∈ A, ∀ c ∈ w, c.isLower = true ∨ c.isDigit = true := by
      intro w hw
      obtain ⟨_, t, _, e⟩ := g1 w hw
      rw [e]
      exact cleanWord_chars t
    have cB : ∀ w ∈ B, ∀ c ∈ w, c.isLower = true ∨ c.isDigit = true := by
      intro w hw
      obtain ⟨_, t, _, e⟩ := g2 w hw
      rw [e]
      exact cleanWord_chars t
    refine ⟨A, B, e1, e2, by rw [k1]; simp, by rw [k2]; simp,
      fun w hw => ⟨(g1 w hw).1, cA w hw⟩, fun w hw => ⟨(g2 w hw).1, cB w hw⟩, ?_⟩
    rintro e ⟨c, hc, hbad⟩
    constructor
    · intro he
      have := isalnum_of_lower_or_digit c (cA e he c hc)
      rw [hbad] at this
      cases this
    · intro he
      have := isalnum_of_lower_or_digit c (cB e he c hc)
      rw [hbad] at this
      cases this
  · intro pre tok post st htok hpe hne
    exact countWordsInReviewLoop_skip pos neg hpw hnw hpe hne tok htok post pre st
  · intro hpo hps hno hns hr1 hr2
    have l1 : (classifySpec pos.toList neg.toList ((tokens review).map cleanWord)).1.length ≤
        (tokens review).length := by
      unfold classifySpec
      exact (List.length_filter_le _ _).trans (by rw [List.length_map])
    have l2 : (classifySpec pos.toList neg.toList ((tokens review).map cleanWord)).2.length ≤
        (tokens review).length := by
      unfold classifySpec
      exact (List.length_filter_le _ _).trans (by rw [List.length_map])
    have h1 := hf1.2.2.1
    have h2 := hf2.2.2.1
    obtain ⟨r, hr, _⟩ :=
      countWordsInReviewLoop_spec pos neg hpw hps hpo hnw hns hno (tokens review)
        { positiveWordsFound := found1, negativeWordsFound := found2,
          positiveCount := 0, negativeCount := 0 }
        hf1 hf2 (by dsimp only; omega) (by dsimp only; omega) le_rfl (by dsimp only; omega)
        le_rfl (by dsimp only; omega)
    exact ⟨r, hr⟩

open ResizableArray in
/-- C20, witness: with the lexicons `great, nice` and `bad`, the review
"Great, -- bad!" appends `great` and `bad` and counts one word each, and the
token `--` before `bad` changes nothing in the run. -/
theorem C20_found_words_are_clean_witness :
    greatNice.WF ∧ onlyBad.WF ∧ noWords.WF ∧
      (∃ r, countWordsInReview "Great, -- bad!".data greatNice onlyBad noWords noWords = .ok r ∧
        r.positiveWordsFound.toList = ["great".data] ∧
        r.negativeWordsFound.toList = ["bad".data] ∧
        r.positiveCount = 1 ∧ r.negativeCount = 1) ∧
      countWordsInReviewLoop greatNice onlyBad ["Great,".data, "--".data, "bad!".data]
          { positiveWordsFound := noWords, negativeWordsFound := noWords,
            positiveCount := 0, negativeCount := 0 } =
        countWordsInReviewLoop greatNice onlyBad ["Great,".data, "bad!".data]
          { positiveWordsFound := noWords, negativeWordsFound := noWords,
            positiveCount := 0, negativeCount := 0 } := by
  have w1 : greatNice.WF := by unfold WF INT_MAX greatNice; decide
  have w2 : onlyBad.WF := by unfold WF INT_MAX onlyBad; decide
  have w3 : noWords.WF := by unfold WF INT_MAX noWords; decide
  have h := C20_found_words_are_clean "Great, -- bad!".data greatNice onlyBad noWords noWords
    w1 w2 w3 w3
  obtain ⟨r, hr⟩ := h.2.2 greatNice_sorted (by unfold greatNice; decide) onlyBad_sorted
    (by unfold onlyBad; decide) (by decide) (by decide)
  have hval : (countWordsInReview "Great, -- bad!".data greatNice onlyBad noWords noWords).map
      (fun r => (r.positiveWordsFound.toList, r.negativeWordsFound.toList, r.positiveCount,
        r.negativeCount)) = .ok (["great".data], ["bad".data], 1, 1) := by rfl
  rw [hr] at hval
  have e : (r.positiveWordsFound.toList, r.negativeWordsFound.toList, r.positiveCount,
      r.negativeCount) = (["great".data], ["bad".data], 1, 1) := Except.ok.inj hval
  simp only [Prod.mk.injEq] at e
  exact ⟨w1, w2, w3, ⟨r, hr, e.1, e.2.1, e.2.2.1, e.2.2.2⟩,
    h.2.1 ["Great,".data] "--".data ["bad!".data] _ (by decide) (by decide) (by decide)⟩

/-! ## `generateSentimentAnalysis` -/

namespace ResizableArray

variable {T : Type}

theorem binarySearch_not_out_of_range [LinearOrder T] (a : ResizableArray T) (x : T) :
    binarySearch a x ≠ .error .out_of_range := by
  unfold binarySearch
  exact binarySearchLoop_not_out_of_range a x _ _ _

end ResizableArray

open ResizableArray in
/-- The loop of `countWordsInReview` never fails with the exception of `get`. -/
theorem countWordsInReviewLoop_not_out_of_range (pos neg : ResizableArray (List Char)) :
    ∀ (words : List (List Char)) (st : ReviewCounts),
      countWordsInReviewLoop pos neg words st ≠ .error .out_of_range := by
  intro words
  induction words with
  | nil =>
    intro st hrun
    unfold countWordsInReviewLoop at hrun
    cases hrun
  | cons word rest ih =>
    intro st hrun
    unfold countWordsInReviewLoop at hrun
    cases h1 : pos.binarySearch (cleanWord word) with
    | error e =>
      simp only [h1] at hrun
      rw [Except.error.inj hrun] at h1
      exact binarySearch_not_out_of_range _ _ h1
    | ok i =>
      simp only [h1] at hrun
      by_cases hi : i ≠ -1
      · rw [if_pos hi] at hrun
        cases h3 : st.positiveWordsFound.add (cleanWord word) with
        | error e =>
          simp only [h3] at hrun
          rw [Except.error.inj hrun] at h3
          exact add_not_out_of_range _ _ h3
        | ok c =>
          simp only [h3] at hrun
          exact ih _ hrun
      · rw [if_neg hi] at hrun
        cases h2 : neg.binarySearch (cleanWord word) with
        | error e =>
          simp only [h2] at hrun
          rw [Except.error.inj hrun] at h2
          exact binarySearch_not_out_of_range _ _ h2
        | ok j =>
          simp only [h2] at hrun
          by_cases hj : j ≠ -1
          · rw [if_pos hj] at hrun
            cases h3 : st.negativeWordsFound.add (cleanWord word) with
            | error e =>
              simp only [h3] at hrun
              rw [Except.error.inj hrun] at h3
              exact add_not_out_of_range _ _ h3
            | ok c =>
              simp only [h3] at hrun
              exact ih _ hrun
          · rw [if_neg hj] at hrun
            exact ih _ hrun

open ResizableArray in
/-- The output loop over a found list reads the indices `i, ..., size - 1`, all
below `getSize()`, and prints the stored words in order. -/
theorem printWordsLoop_spec (found : ResizableArray (List Char)) (hwf : found.WF) :
    ∀ (fuel : Nat) (i : Int), 0 ≤ i → i ≤ found.size → found.size - i ≤ fuel →
      printWordsLoop found fuel i = .ok (found.toList.drop i.toNat) := by
  obtain ⟨_, hmax, h0, hcap⟩ := hwf
  intro fuel
  induction fuel with
  | zero =>
    intro i hi0 hi hf
    have e : i = found.size := by omega
    unfold printWordsLoop getSize
    rw [if_neg (by omega), e, List.drop_of_length_le (by rw [length_toList])]
  | succ n ih =>
    intro i hi0 hi hf
    by_cases hlt : i < found.size
    · have hnext : iadd i 1 = i + 1 :=
        iadd_eq (by unfold INT_MIN; omega) (by unfold INT_MAX at *; omega)
      unfold printWordsLoop getSize
      simp only [if_pos hlt, get_eq found i hi0 hlt hcap, hnext,
        ih (i + 1) (by omega) (by omega) (by omega)]
      rw [toList_drop found i hi0 hlt]
    · have e : i = found.size := by omega
      unfold printWordsLoop getSize
      rw [if_neg hlt, e, List.drop_of_length_le (by rw [length_toList])]

/-- The two classes of the specification are disjoint parts of the words. -/
theorem classifySpec_length (P N words : List (List Char)) :
    (classifySpec P N words).1.length + (classifySpec P N words).2.length ≤ words.length := by
  unfold classifySpec
  induction words with
  | nil => simp
  | cons w ws ih =>
    by_cases h : w ∈ P
    · simp only [List.filter_cons, h, decide_True, if_true, not_true_eq_false, false_and,
        decide_False, List.length_cons] at ih ⊢
      simp only [Bool.false_eq_true, if_false]
      omega
    · by_cases h2 : w ∈ N
      · simp only [List.filter_cons, h, h2, decide_False, not_false_eq_true, and_self,
          decide_True, if_true, List.length_cons, Bool.false_eq_true, if_false] at ih ⊢
        omega
      · simp only [List.filter_cons, h, h2, decide_False, not_false_eq_true, and_false,
          List.length_cons, Bool.false_eq_true, if_false] at ih ⊢
        omega

/-- Non-negative counts whose doubled total fits an `int` have a score that
rounds to one of `1, ..., 5`. -/
theorem roundSentimentScore_of_counts (p n : Int) (hp : 0 ≤ p) (hn : 0 ≤ n)
    (hfit : 2 * (p + n) ≤ INT_MAX) :
    ∃ r, roundSentimentScore (calculateSentimentScore p n) = some r ∧ 1 ≤ r ∧ r ≤ 5 := by
  rcases eq_or_lt_of_le (add_nonneg hp hn) with h0 | hpos
  · have hp0 : p = 0 := by omega
    have hn0 : n = 0 := by omega
    subst hp0 hn0
    obtain ⟨hr, l1, l5⟩ := roundSentimentScore_eq (s := 3) (by norm_num) (by norm_num)
    exact ⟨_, hr, l1, l5⟩
  · have hpq : (0 : ℚ) ≤ (p : ℚ) := by exact_mod_cast hp
    have hnq : (0 : ℚ) ≤ (n : ℚ) := by exact_mod_cast hn
    have hNq : (0 : ℚ) < (p : ℚ) + n := by exact_mod_cast hpos
    have hx0 : 0 ≤ (p : ℚ) / ((p : ℚ) + n) := div_nonneg hpq hNq.le
    have hx1 : (p : ℚ) / ((p : ℚ) + n) ≤ 1 := by
      rw [div_le_one hNq]
      linarith
    obtain ⟨_, s1, s5⟩ := score_chain hx0 hx1
    obtain ⟨hr, l1, l5⟩ := roundSentimentScore_eq s1 s5
    rw [calculateSentimentScore_eq p n hp hn hpos hfit]
    exact ⟨_, hr, l1, l5⟩

open ResizableArray in
/-- The run of `generateSentimentAnalysis` for a valid review number: both
calls of `get` with `reviewNumber - 1` succeed, and so does every `get` of the
output loops, so the run fails only where `countWordsInReview` or the
conversion of the rounded score does, and otherwise prints the report. -/
theorem generateSentimentAnalysis_valid (reviews : ResizableArray (List Char))
    (userRatings : ResizableArray Int) (pos neg : ResizableArray (List Char))
    (reviewNumber : Int) (hrw : reviews.WF) (huw : userRatings.WF)
    (hsame : userRatings.getSize = reviews.getSize) (hpw : pos.WF) (hnw : neg.WF)
    (hvalid : ¬ (reviewNumber ≤ 0 ∨ reviewNumber > reviews.getSize)) :
    (∃ e, countWordsInReview (reviews.data (reviewNumber - 1)) pos neg noWords noWords =
          .error e ∧
        generateSentimentAnalysis reviews userRatings pos neg reviewNumber = .error e) ∨
      ∃ counts, countWordsInReview (reviews.data (reviewNumber - 1)) pos neg noWords noWords =
          .ok counts ∧
        printWordsLoop counts.positiveWordsFound counts.positiveWordsFound.getSize.toNat 0 =
          .ok counts.positiveWordsFound.toList ∧
        printWordsLoop counts.negativeWordsFound counts.negativeWordsFound.getSize.toNat 0 =
          .ok counts.negativeWordsFound.toList ∧
        ((roundSentimentScore
            (calculateSentimentScore counts.positiveCount counts.negativeCount) = none ∧
          generateSentimentAnalysis reviews userRatings pos neg reviewNumber =
            .error .bad_conversion) ∨
        ∃ r, roundSentimentScore
            (calculateSentimentScore counts.positiveCount counts.negativeCount) = some r ∧
          generateSentimentAnalysis reviews userRatings pos neg reviewNumber =
            .ok (.report
              { reviewNumber := reviewNumber
                comment := reviews.data (reviewNumber - 1)
                positiveCount := counts.positiveCount
                positiveWords := counts.positiveWordsFound.toList
                negativeCount := counts.negativeCount
                negativeWords := counts.negativeWordsFound.toList
                roundedSentimentScore := r
                sentimentRating := sentimentRating r
                userRating := userRatings.data (reviewNumber - 1) })) := by
  obtain ⟨_, hrmax, _, hrcap⟩ := hrw
  obtain ⟨_, _, _, hucap⟩ := huw
  unfold getSize at hsame hvalid
  have hprev : isub reviewNumber 1 = reviewNumber - 1 :=
    isub_eq (by unfold INT_MIN; omega) (by unfold INT_MAX at *; omega)
  have hget1 : reviews.get (reviewNumber - 1) = .ok (reviews.data (reviewNumber - 1)) :=
    get_eq reviews _ (by omega) (by omega) hrcap
  have hget2 : userRatings.get (reviewNumber - 1) = .ok (userRatings.data (reviewNumber - 1)) :=
    get_eq userRatings _ (by omega) (by omega) hucap
  have hcons : ResizableArray.construct (T := List Char) 10 = .ok noWords := rfl
  have w3 : noWords.WF := by unfold WF INT_MAX noWords; decide
  cases hc : countWordsInReview (reviews.data (reviewNumber - 1)) pos neg noWords noWords with
  | error e =>
    left
    refine ⟨e, rfl, ?_⟩
    unfold generateSentimentAnalysis getSize
    rw [if_neg hvalid]
    simp only [hcons, hprev, hget1, hc]
  | ok counts =>
    right
    have hc2 := hc
    unfold countWordsInReview at hc2
    obtain ⟨f1, f2, _⟩ := countWordsInReviewLoop_ok pos neg hpw hnw _ _ counts w3 w3
      ⟨le_rfl, le_rfl⟩ ⟨le_rfl, le_rfl⟩ hc2
    have p1 := printWordsLoop_spec counts.positiveWordsFound f1
      counts.positiveWordsFound.getSize.toNat 0 le_rfl f1.2.2.1
      (by unfold getSize; have := f1.2.2.1; omega)
    have p2 := printWordsLoop_spec counts.negativeWordsFound f2
      counts.negativeWordsFound.getSize.toNat 0 le_rfl f2.2.2.1
      (by unfold getSize; have := f2.2.2.1; omega)
    rw [Int.toNat_zero, List.drop_zero] at p1 p2
    refine ⟨counts, rfl, p1, p2, ?_⟩
    cases hr : roundSentimentScore
        (calculateSentimentScore counts.positiveCount counts.negativeCount) with
    | none =>
      left
      refine ⟨rfl, ?_⟩
      unfold generateSentimentAnalysis getSize
      rw [if_neg hvalid]
      simp only [hcons, hprev, hget1, hc, hr]
    | some r =>
      right
      refine ⟨r, rfl, ?_⟩
      unfold getSize at p1 p2
      unfold generateSentimentAnalysis getSize
      rw [if_neg hvalid]
      simp only [hcons, hprev, hget1, hget2, hc, hr, p1, p2]

open ResizableArray in
/-- C16: for collections `reviews` and `userRatings` of equal length and every
integer `reviewNumber`, `generateSentimentAnalysis` never fails with the
out-of-range exception of `get`. For `reviewNumber <= 0` or
`reviewNumber > reviews.getSize()` it reports the invalid number and returns.
Otherwise both calls `get(reviewNumber - 1)` succeed, the output loops return
all words of the found lists, so each of their calls of `get` has an index
below `getSize()`, and a report that is printed has the review and the rating
of index `reviewNumber - 1`. And the report is printed for sorted lexicons of
at most `2^30` words and a review of fewer than `2^30` tokens. -/
theorem C16_get_never_out_of_range (reviews : ResizableArray (List Char))
    (userRatings : ResizableArray Int) (pos neg : ResizableArray (List Char))
    (reviewNumber : Int) (hrw : reviews.WF) (huw : userRatings.WF)
    (hsame : userRatings.getSize = reviews.getSize) (hpw : pos.WF) (hnw : neg.WF) :
    generateSentimentAnalysis reviews userRatings pos neg reviewNumber ≠
        .error .out_of_range ∧
      ((reviewNumber ≤ 0 ∨ reviewNumber > reviews.getSize) →
        generateSentimentAnalysis reviews userRatings pos neg reviewNumber = .ok .invalid) ∧
      (¬ (reviewNumber ≤ 0 ∨ reviewNumber > reviews.getSize) →
        reviews.get (isub reviewNumber 1) = .ok (reviews.data (reviewNumber - 1)) ∧
        userRatings.get (isub reviewNumber 1) = .ok (userRatings.data (reviewNumber - 1)) ∧
        (∀ counts,
          countWordsInReview (reviews.data (reviewNumber - 1)) pos neg noWords noWords =
            .ok counts →
          printWordsLoop counts.positiveWordsFound counts.positiveWordsFound.getSize.toNat 0 =
            .ok counts.positiveWordsFound.toList ∧
          printWordsLoop counts.negativeWordsFound counts.negativeWordsFound.getSize.toNat 0 =
            .ok counts.negativeWordsFound.toList) ∧
        generateSentimentAnalysis reviews userRatings pos neg reviewNumber ≠ .ok .invalid ∧
        (∀ rep, generateSentimentAnalysis reviews userRatings pos neg reviewNumber =
            .ok (.report rep) →
          rep.reviewNumber = reviewNumber ∧ rep.comment = reviews.data (reviewNumber - 1) ∧
          rep.userRating = userRatings.data (reviewNumber - 1) ∧
          ∃ counts,
            countWordsInReview (reviews.data (reviewNumber - 1)) pos neg noWords noWords =
              .ok counts ∧
            rep.positiveCount = counts.positiveCount ∧
            rep.negativeCount = counts.negativeCount ∧
            rep.positiveWords = counts.positiveWordsFound.toList ∧
            rep.negativeWords = counts.negativeWordsFound.toList) ∧
        (pos.Sorted → pos.size ≤ 1073741824 → neg.Sorted → neg.size ≤ 1073741824 →
          (((tokens (reviews.data (reviewNumber - 1))).length : Nat) : Int) < 1073741824 →
          ∃ rep, generateSentimentAnalysis reviews userRatings pos neg reviewNumber =
            .ok (.report rep))) := by
  have hinv : (reviewNumber ≤ 0 ∨ reviewNumber > reviews.getSize) →
      generateSentimentAnalysis reviews userRatings pos neg reviewNumber = .ok .invalid := by
    intro h
    unfold generateSentimentAnalysis
    rw [if_pos h]
  refine ⟨?_, hinv, ?_⟩
  · by_cases hvalid : reviewNumber ≤ 0 ∨ reviewNumber > reviews.getSize
    · rw [hinv hvalid]
      intro h
      cases h
    · rcases generateSentimentAnalysis_valid reviews userRatings pos neg reviewNumber hrw huw
        hsame hpw hnw hvalid with ⟨e, he, hg⟩ | ⟨counts, _, _, _, ⟨_, hg⟩ | ⟨r, _, hg⟩⟩
      · rw [hg]
        intro h
        rw [Except.error.inj h] at he
        exact countWordsInReviewLoop_not_out_of_range _ _ _ _ he
      · rw [hg]
        intro h
        cases Except.error.inj h
      · rw [hg]
        intro h
        cases h
  · intro hvalid
    have hcase := generateSentimentAnalysis_valid reviews userRatings pos neg reviewNumber hrw
      huw hsame hpw hnw hvalid
    have hvalid2 := hvalid
    unfold getSize at hsame hvalid2
    have hprev : isub reviewNumber 1 = reviewNumber - 1 :=
      isub_eq (by unfold INT_MIN; omega)
        (by have := hrw.2.1; have := hrw.2.2.2; unfold INT_MAX at *; omega)
    refine ⟨?_, ?_, ?_, ?_, ?_, ?_⟩
    · rw [hprev]
      exact get_eq reviews _ (by omega) (by omega) hrw.2.2.2
    · rw [hprev]
      exact get_eq userRatings _ (by omega) (by omega) huw.2.2.2
    · intro counts hc
      rcases hcase with ⟨e, he, _⟩ | ⟨counts2, hc2, p1, p2, _⟩
      · rw [hc] at he
        cases he
      · rw [hc] at hc2
        cases Except.ok.inj hc2
        exact ⟨p1, p2⟩
    · rcases hcase with ⟨e, _, hg⟩ | ⟨counts, _, _, _, ⟨_, hg⟩ | ⟨r, _, hg⟩⟩
      · rw [hg]
        intro h
        cases h
      · rw [hg]
        intro h
        cases h
      · rw [hg]
        intro h
        cases Except.ok.inj h
    · intro rep hrep
      rcases hcase with ⟨e, _, hg⟩ | ⟨counts, hc, _, _, ⟨_, hg⟩ | ⟨r, _, hg⟩⟩
      · rw [hg] at hrep
        cases hrep
      · rw [hg] at hrep
        cases hrep
      · rw [hg] at hrep
        have e := Output.report.inj (Except.ok.inj hrep)
        subst e
        exact ⟨rfl, rfl, rfl, counts, hc, rfl, rfl, rfl, rfl⟩
    · intro hpo hps hno hns hlen
      have hsum := classifySpec_length pos.toList neg.toList
        ((tokens (reviews.data (reviewNumber - 1))).map cleanWord)
      rw [List.length_map] at hsum
      have w3 : noWords.WF := by unfold WF INT_MAX noWords; decide
      have hz : noWords.size = 0 := rfl
      obtain ⟨c, hc, _, _, e3, e4⟩ :=
        countWordsInReviewLoop_spec pos neg hpw hps hpo hnw hns hno
          (tokens (reviews.data (reviewNumber - 1)))
          { positiveWordsFound := noWords, negativeWordsFound := noWords,
            positiveCount := 0, negativeCount := 0 }
          w3 w3 (by dsimp only; omega) (by dsimp only; omega) le_rfl (by dsimp only; omega)
          le_rfl (by dsimp only; omega)
      have hc2 : countWordsInReview (reviews.data (reviewNumber - 1)) pos neg noWords noWords =
          .ok c := hc
      dsimp only at e3 e4
      obtain ⟨r, hr, _, _⟩ := roundSentimentScore_of_counts c.positiveCount c.negativeCount
        (by omega) (by omega) (by unfold INT_MAX; omega)
      rcases hcase with ⟨e, he, _⟩ | ⟨counts, hc3, _, _, ⟨hnone, _⟩ | ⟨r2, _, hg⟩⟩
      · rw [hc2] at he
        cases he
      · rw [hc2] at hc3
        cases Except.ok.inj hc3
        rw [hr] at hnone
        cases hnone
      · exact ⟨_, hg⟩

open ResizableArray in
/-- C16, witness: for the two reviews "Great nice" and "BAD great," with the
ratings `5` and `2`, the review numbers `0`, `-1` and `3` are reported as
invalid, and the number `2` gives a report with the review "BAD great," and the
rating `2`. -/
theorem C16_get_never_out_of_range_witness :
    twoReviews.WF ∧ twoRatings.WF ∧ twoRatings.getSize = twoReviews.getSize ∧
      generateSentimentAnalysis twoReviews twoRatings greatNice onlyBad 0 = .ok .invalid ∧
      generateSentimentAnalysis twoReviews twoRatings greatNice onlyBad (-1) = .ok .invalid ∧
      generateSentimentAnalysis twoReviews twoRatings greatNice onlyBad 3 = .ok .invalid ∧
      generateSentimentAnalysis twoReviews twoRatings greatNice onlyBad 2 ≠
        .error .out_of_range ∧
      ∃ rep, generateSentimentAnalysis twoReviews twoRatings greatNice onlyBad 2 =
          .ok (.report rep) ∧
        rep.reviewNumber = 2 ∧ rep.comment = "BAD great,".data ∧ rep.userRating = 2 := by
  have w1 : greatNice.WF := by unfold WF INT_MAX greatNice; decide
  have w2 : onlyBad.WF := by unfold WF INT_MAX onlyBad; decide
  have w4 : twoReviews.WF := by unfold WF INT_MAX twoReviews; decide
  have w5 : twoRatings.WF := by unfold WF INT_MAX twoRatings; decide
  have hs : twoRatings.getSize = twoReviews.getSize := rfl
  have h := fun k => C16_get_never_out_of_range twoReviews twoRatings greatNice onlyBad k
    w4 w5 hs w1 w2
  have hv : ¬ ((2 : Int) ≤ 0 ∨ (2 : Int) > twoReviews.getSize) := by
    unfold getSize twoReviews
    decide
  obtain ⟨rep, hrep⟩ := (h 2).2.2 hv |>.2.2.2.2.2 greatNice_sorted
    (by unfold greatNice; decide) onlyBad_sorted (by unfold onlyBad; decide) (by decide)
  obtain ⟨e1, e2, e3, _⟩ := ((h 2).2.2 hv).2.2.2.2.1 rep hrep
  exact ⟨w4, w5, hs, (h 0).2.1 (Or.inl le_rfl), (h (-1)).2.1 (Or.inl (by decide)),
    (h 3).2.1 (Or.inr (by unfold getSize twoReviews; decide)), (h 2).1, rep, hrep, e1,
    e2.trans (by rfl), e3.trans (by rfl)⟩

end Sentiment
